import Mathlib

/-!
Verification of the confucius recursion SDK's orchestrator, trace, guard and
crypto helpers against their natural-language specification.  JavaScript
values are shallow-embedded as an inductive tree `JsVal` (numbers are modelled
as integers with a finiteness flag); the Node `crypto` primitives (SHA-256,
HMAC-SHA-256, randomness) are external library code, so they enter the model
as function parameters constrained only by their output length, exactly the
interface the source relies on.
-/

set_option maxHeartbeats 1000000

namespace Confucius

/-- A JavaScript value as handled by the SDK: `null`, booleans, numbers
(modelled as an `Int` plus a finiteness flag, since the source only ever
branches on `Number.isFinite`), strings, arrays, and plain objects whose
fields keep insertion order. -/
inductive JsVal where
  | vNull : JsVal
  | vBool : Bool → JsVal
  | vNum : Bool → Int → JsVal
  | vStr : String → JsVal
  | vArr : List JsVal → JsVal
  | vObj : List (String × JsVal) → JsVal
deriving Repr

namespace JsVal

mutual

/-- Boolean structural equality on `JsVal` (no deriving handler exists for
this nested inductive, so it is written as a mutual recursion). -/
def beq : JsVal → JsVal → Bool
  | vNull, vNull => true
  | vBool a, vBool b => a == b
  | vNum fa na, vNum fb nb => fa == fb && na == nb
  | vStr a, vStr b => a == b
  | vArr a, vArr b => beqList a b
  | vObj a, vObj b => beqFields a b
  | _, _ => false

/-- `beq` on array elements. -/
def beqList : List JsVal → List JsVal → Bool
  | [], [] => true
  | x :: xs, y :: ys => beq x y && beqList xs ys
  | _, _ => false

/-- `beq` on object fields. -/
def beqFields : List (String × JsVal) → List (String × JsVal) → Bool
  | [], [] => true
  | (k, v) :: xs, (l, w) :: ys => k == l && beq v w && beqFields xs ys
  | _, _ => false

end

mutual

theorem beq_iff_eq : ∀ a b : JsVal, beq a b = true ↔ a = b
  | vNull, b => by cases b <;> simp [beq]
  | vBool a, b => by cases b <;> simp [beq]
  | vNum fa na, b => by cases b <;> simp [beq]
  | vStr a, b => by cases b <;> simp [beq]
  | vArr a, b => by
      cases b <;> simp [beq]
      exact beqList_iff_eq a _
  | vObj a, b => by
      cases b <;> simp [beq]
      exact beqFields_iff_eq a _

theorem beqList_iff_eq : ∀ xs ys : List JsVal, beqList xs ys = true ↔ xs = ys
  | [], ys => by cases ys <;> simp [beqList]
  | x :: xs, ys => by
      cases ys with
      | nil => simp [beqList]
      | cons y ys =>
        simp only [beqList, Bool.and_eq_true, List.cons.injEq]
        rw [beq_iff_eq x y, beqList_iff_eq xs ys]

theorem beqFields_iff_eq : ∀ xs ys : List (String × JsVal),
    beqFields xs ys = true ↔ xs = ys
  | [], ys => by cases ys <;> simp [beqFields]
  | (k, v) :: xs, ys => by
      cases ys with
      | nil => simp [beqFields]
      | cons y ys =>
        obtain ⟨l, w⟩ := y
        simp only [beqFields, Bool.and_eq_true, List.cons.injEq, beq_iff_eq v w,
          beqFields_iff_eq xs ys, beq_iff_eq, Prod.mk.injEq]
        constructor
        · rintro ⟨⟨h1, h2⟩, h3⟩; exact ⟨⟨by simpa using h1, h2⟩, h3⟩
        · rintro ⟨⟨h1, h2⟩, h3⟩; exact ⟨⟨by simp [h1], h2⟩, h3⟩

end

instance : DecidableEq JsVal := fun a b =>
  decidable_of_iff (beq a b = true) (beq_iff_eq a b)

/-- JavaScript truthiness of a value: `null`, `false`, `0`, `NaN` and the
empty string are falsy; objects and arrays are always truthy. -/
def truthy : JsVal → Bool
  | vNull => false
  | vBool b => b
  | vNum finite n => finite && n ≠ 0
  | vStr s => s ≠ ""
  | vArr _ => true
  | vObj _ => true

/-- Property lookup `v[k]` for object values; `none` models `undefined`. -/
def get : JsVal → String → Option JsVal
  | vObj fields, k => fields.lookup k
  | _, _ => none

/-- JavaScript `typeof v === 'object' && v` test used by the source: arrays
and plain objects qualify, `null` does not. -/
def isObjectLike : JsVal → Bool
  | vArr _ => true
  | vObj _ => true
  | _ => false

end JsVal

open JsVal

mutual

/-- Embeds `countNumericValues` from `orchestrator/quality-gates.ts`: walks
the value tree and counts values that are numbers and finite. -/
def countNumericValues : JsVal → Nat
  | vNum finite _ => if finite then 1 else 0
  | vArr elems => countNumList elems
  | vObj fields => countNumFields fields
  | _ => 0

/-- List part of the `countNumericValues` walk (array elements). -/
def countNumList : List JsVal → Nat
  | [] => 0
  | x :: xs => countNumericValues x + countNumList xs

/-- Field part of the `countNumericValues` walk (object values, in key
insertion order as `Object.keys` yields them). -/
def countNumFields : List (String × JsVal) → Nat
  | [] => 0
  | (_, v) :: xs => countNumericValues v + countNumFields xs

end

/-! ## Canonical serialization (`supervisor-crypto.ts` and `JSON.stringify`) -/

/-- Fuel-driven accumulator loop producing decimal digits; the fuel is
always sufficient because a number shrinks strictly under division by 10. -/
def natDigitsAux : Nat → Nat → List Char → List Char
  | 0, _, acc => acc
  | fuel + 1, n, acc =>
    if n < 10 then Char.ofNat (48 + n) :: acc
    else natDigitsAux fuel (n / 10) (Char.ofNat (48 + n % 10) :: acc)

/-- Decimal digits of a natural number, most significant first. -/
def natDigits (n : Nat) : List Char := natDigitsAux (n + 1) n []

/-- Decimal rendering of an integer, as `JSON.stringify` renders the integral
numbers this model covers. -/
def intRepr (i : Int) : List Char :=
  if i < 0 then '-' :: natDigits i.natAbs else natDigits i.natAbs

/-- JSON escaping of one character of a string literal. -/
def escapeChar (c : Char) : List Char :=
  if c = '"' then ['\\', '"']
  else if c = '\\' then ['\\', '\\']
  else if c = '\n' then ['\\', 'n']
  else if c = '\r' then ['\\', 'r']
  else if c = '\t' then ['\\', 't']
  else [c]

/-- A JSON string literal: surrounding quotes plus escaped content. -/
def quoteChars (s : String) : List Char :=
  '"' :: (s.data.flatMap escapeChar) ++ ['"']

mutual

/-- Embeds `JSON.stringify` on the modelled value tree: object fields are
emitted in insertion order, arrays in element order, non-finite numbers as
`null` (as JavaScript serializes them). -/
def stringifyVal : JsVal → List Char
  | vNull => "null".data
  | vBool true => "true".data
  | vBool false => "false".data
  | vNum finite n => if finite then intRepr n else "null".data
  | vStr s => quoteChars s
  | vArr elems => '[' :: stringifyArr elems ++ [']']
  | vObj fields => '{' :: stringifyObj fields ++ ['}']

/-- Comma-joined serialization of array elements. -/
def stringifyArr : List JsVal → List Char
  | [] => []
  | [x] => stringifyVal x
  | x :: y :: xs => stringifyVal x ++ ',' :: stringifyArr (y :: xs)

/-- Comma-joined serialization of object entries (`"key":value`). -/
def stringifyObj : List (String × JsVal) → List Char
  | [] => []
  | [(k, v)] => quoteChars k ++ ':' :: stringifyVal v
  | (k, v) :: e :: xs => quoteChars k ++ ':' :: stringifyVal v ++ ',' :: stringifyObj (e :: xs)

end

/-- Lexicographic comparison of key characters by code point, as the
default `Array.prototype.sort()` comparator orders strings. -/
def strLeB : List Char → List Char → Bool
  | [], _ => true
  | _ :: _, [] => false
  | c :: cs, d :: ds =>
    if c.toNat < d.toNat then true
    else if d.toNat < c.toNat then false
    else strLeB cs ds

/-- Ordering of object entries by key, as `Object.keys(value).sort()` orders
them (lexicographic on code units). -/
def keyLE (a b : String × JsVal) : Prop := strLeB a.1.data b.1.data = true

instance : DecidableRel keyLE := fun a b =>
  inferInstanceAs (Decidable (strLeB a.1.data b.1.data = true))

mutual

/-- Embeds the `sorter` closure of `stableStringify` in
`supervisor-crypto.ts`: a copy of the value with object keys recursively
sorted.  The source also threads a `WeakSet` to reject revisited object
references; on this inductive type every constructor denotes a fresh object,
so that check can never fire — the reference-sensitive behaviour is modelled
separately on `GRef` graphs below. -/
def sortKeysRec : JsVal → JsVal
  | vArr elems => vArr (sortKeysList elems)
  | vObj fields => vObj (List.insertionSort keyLE (sortKeysFields fields))
  | v => v

/-- `sortKeysRec` mapped over array elements. -/
def sortKeysList : List JsVal → List JsVal
  | [] => []
  | x :: xs => sortKeysRec x :: sortKeysList xs

/-- `sortKeysRec` mapped over object field values. -/
def sortKeysFields : List (String × JsVal) → List (String × JsVal)
  | [] => []
  | (k, v) :: xs => (k, sortKeysRec v) :: sortKeysFields xs

end

/-- Embeds `stableStringify` from `supervisor-crypto.ts` (char-list form):
serialize after recursively sorting object keys. -/
def stableStringifyL (v : JsVal) : List Char := stringifyVal (sortKeysRec v)

/-- `stableStringify` as a `String`. -/
def stableStringify (v : JsVal) : String := String.mk (stableStringifyL v)

/-! ## Handwave phrase detection (`quality-gates.ts`) -/

/-- Lower-casing as `String.prototype.toLowerCase` acts on the ASCII range. -/
def lowerL (s : List Char) : List Char := s.map Char.toLower

/-- The apostrophe character (avoids a quoted quote in source text). -/
def apost : Char := Char.ofNat 39

/-- The fixed handwave phrase list of `containsBadPhrases`, in source
order. -/
def handwavePhrases : List (List Char) :=
  [ "i guess".data, "seems like".data, "looks like".data, "probably".data,
    "maybe".data, "not sure".data, "cannot access".data, "no access".data,
    "i did not".data, "i didn".data ++ [apost, 't'],
    "placeholder".data, "todo".data, "tbd".data, "coming soon".data,
    "not implemented".data ]

/-- Structural prefix test (kernel-computable form of `<+:`). -/
def prefixB : List Char → List Char → Bool
  | [], _ => true
  | _ :: _, [] => false
  | a :: p, b :: t => a = b && prefixB p t

/-- Structural substring test, the computable form of `String.includes`. -/
def infixB (p : List Char) : List Char → Bool
  | [] => p.isEmpty
  | b :: ts => prefixB p (b :: ts) || infixB p ts

theorem prefixB_iff : ∀ p t : List Char, prefixB p t = true ↔ p <+: t
  | [], t => by simp [prefixB]
  | a :: p, [] => by simp [prefixB]
  | a :: p, b :: t => by
    simp [prefixB, List.cons_prefix_cons, prefixB_iff p t, and_comm]

theorem infixB_iff : ∀ (p t : List Char), infixB p t = true ↔ p <:+: t := by
  intro p t
  induction t with
  | nil => simp [infixB, List.isEmpty_iff]
  | cons b ts ih =>
    rw [infixB, List.infix_cons_iff]
    simp [prefixB_iff, ih]

/-- First phrase of `ps` contained in `t`, scanning in list order as the
source's `for` loop does. -/
def firstContained (t : List Char) : List (List Char) → Option (List Char)
  | [] => none
  | p :: ps => if infixB p t then some p else firstContained t ps

/-- Embeds `containsBadPhrases`: lower-case the text, return the first
handwave phrase it contains, if any. -/
def containsBadPhrases (text : List Char) : Option (List Char) :=
  firstContained (lowerL text) handwavePhrases

/-! ## Quality gate (`quality-gates.ts`) -/

/-- JavaScript `k in output` membership as used on the gate's output value:
object key presence; on arrays, indices and `length`. -/
def hasKeyJs : JsVal → String → Bool
  | vObj fields, k => (fields.lookup k).isSome
  | vArr elems, k => k = "length" || (List.range elems.length).any (fun i => toString i = k)
  | _, _ => false

/-- Result record of `qualityGate`. -/
structure QualityGateResult where
  ok : Bool
  errors : List String
  numericCount : Nat
deriving Repr, DecidableEq

/-- Embeds `qualityGate` from `orchestrator/quality-gates.ts`: non-objects are
rejected outright; otherwise missing required keys, the finite-numeric floor,
and handwave phrases in the serialized output are collected as errors. -/
def qualityGate (output : JsVal) (requiredKeys : List String)
    (minNumericCount : Int) : QualityGateResult :=
  if ¬ output.isObjectLike then ⟨false, ["output_not_object"], 0⟩
  else
    let missing := (requiredKeys.filter (fun k => ! hasKeyJs output k)).map
      (fun k => "missing_key:" ++ k)
    let n := countNumericValues output
    let numErr := if (n : Int) < minNumericCount then
        ["too_few_numeric_values:" ++ toString n ++ "<" ++ toString minNumericCount]
      else []
    let hwErr := match containsBadPhrases (stringifyVal output) with
      | some p => ["handwave_phrase:" ++ String.mk p]
      | none => []
    let errors := missing ++ numErr ++ hwErr
    ⟨errors.isEmpty, errors, n⟩

/-! ## Phrase runs

The handwave phrases consist only of lower-case letters, spaces and the
apostrophe, while every structural character of a JSON serialization (quotes,
braces, brackets, comma, colon, digits, minus, dot) lies outside that
alphabet.  An occurrence of a phrase therefore always sits inside one maximal
phrase-alphabet run of the serialized text, and the multiset of such runs is
invariant under sorting object keys.  This section builds that argument. -/

/-- Characters a handwave phrase can consist of: lower-case ASCII letters,
the space, and the apostrophe. -/
def phraseChar (c : Char) : Bool :=
  ('a' ≤ c && c ≤ 'z') || c = ' ' || c = apost

/-- Maximal runs of `phraseChar` characters in a string. -/
def runs : List Char → List (List Char)
  | [] => []
  | c :: t =>
    if phraseChar c then
      (c :: t.takeWhile phraseChar) :: runs (t.dropWhile phraseChar)
    else runs t
termination_by l => l.length
decreasing_by
  · simp only [List.length_cons]
    exact Nat.lt_succ_of_le (List.dropWhile_suffix phraseChar).length_le
  · simp

theorem runs_nil : runs [] = [] := by rw [runs]

theorem runs_cons_pos {c : Char} (hc : phraseChar c) (t : List Char) :
    runs (c :: t) = (c :: t.takeWhile phraseChar) :: runs (t.dropWhile phraseChar) := by
  rw [runs, if_pos hc]

theorem runs_cons_neg {c : Char} (hc : ¬ phraseChar c) (t : List Char) :
    runs (c :: t) = runs t := by
  rw [runs, if_neg hc]

/-- Every run is an infix of the original string. -/
theorem runs_infix_of_mem : ∀ s : List Char, ∀ r ∈ runs s, r <:+: s := by
  intro s
  induction s using runs.induct with
  | case1 => simp [runs_nil]
  | case2 c t hc ih =>
    intro r hr
    rw [runs_cons_pos hc] at hr
    rcases List.mem_cons.1 hr with rfl | hr
    · exact (List.cons_prefix_cons.2 ⟨rfl, List.takeWhile_prefix phraseChar⟩).isInfix
    · exact List.infix_cons ((ih r hr).trans (List.dropWhile_suffix phraseChar).isInfix)
  | case3 c t hc ih =>
    intro r hr
    rw [runs_cons_neg hc] at hr
    exact List.infix_cons (ih r hr)

theorem takeWhile_append_all {p : α → Bool} {xs : List α} (h : ∀ x ∈ xs, p x)
    (ys : List α) : (xs ++ ys).takeWhile p = xs ++ ys.takeWhile p := by
  induction xs with
  | nil => simp
  | cons x xs ih =>
    simp only [List.cons_append, List.takeWhile_cons, h x (by simp)]
    simpa using ih (fun a ha => h a (by simp [ha]))

theorem dropWhile_append_all {p : α → Bool} {xs : List α} (h : ∀ x ∈ xs, p x)
    (ys : List α) : (xs ++ ys).dropWhile p = ys.dropWhile p := by
  induction xs with
  | nil => simp
  | cons x xs ih =>
    simp only [List.cons_append, List.dropWhile_cons, h x (by simp)]
    simpa using ih (fun a ha => h a (by simp [ha]))

theorem takeWhile_append_not_all {p : α → Bool} {xs : List α}
    (h : ¬ ∀ x ∈ xs, p x) (ys : List α) :
    (xs ++ ys).takeWhile p = xs.takeWhile p := by
  induction xs with
  | nil => simp at h
  | cons x xs ih =>
    by_cases hx : p x
    · simp only [List.cons_append, List.takeWhile_cons, hx]
      have : ¬ ∀ a ∈ xs, p a := fun hall => h (by
        intro a ha
        rcases List.mem_cons.1 ha with rfl | ha
        · exact hx
        · exact hall a ha)
      simpa using ih this
    · simp [List.takeWhile_cons, hx]

theorem dropWhile_append_not_all {p : α → Bool} {xs : List α}
    (h : ¬ ∀ x ∈ xs, p x) (ys : List α) :
    (xs ++ ys).dropWhile p = xs.dropWhile p ++ ys := by
  induction xs with
  | nil => simp at h
  | cons x xs ih =>
    by_cases hx : p x
    · have : ¬ ∀ a ∈ xs, p a := fun hall => h (by
        intro a ha
        rcases List.mem_cons.1 ha with rfl | ha
        · exact hx
        · exact hall a ha)
      simp only [List.cons_append, List.dropWhile_cons, hx]
      simpa using ih this
    · simp [List.dropWhile_cons, hx]

/-- Splitting runs at a non-phrase character: the character acts as a barrier
and the runs of the two sides concatenate. -/
theorem runs_append_barrier {c : Char} (hc : ¬ phraseChar c) :
    ∀ s t : List Char, runs (s ++ c :: t) = runs s ++ runs t := by
  intro s
  induction s using runs.induct with
  | case1 => intro t; simp [runs_nil, runs_cons_neg hc]
  | case2 d s hd ih =>
    intro t
    by_cases hall : ∀ x ∈ s, phraseChar x
    · have htake : (s ++ c :: t).takeWhile phraseChar = s := by
        rw [takeWhile_append_all hall]
        simp [List.takeWhile_cons, hc]
      have hdrop : (s ++ c :: t).dropWhile phraseChar = c :: t := by
        rw [dropWhile_append_all hall]
        simp [List.dropWhile_cons, hc]
      have htake2 : s.takeWhile phraseChar = s := List.takeWhile_eq_self_iff.2 hall
      have hdrop2 : s.dropWhile phraseChar = [] := List.dropWhile_eq_nil_iff.2 hall
      simp only [List.cons_append, runs_cons_pos hd, htake, hdrop, htake2, hdrop2,
        runs_cons_neg hc, runs_nil]
      simp
    · have htake : (s ++ c :: t).takeWhile phraseChar = s.takeWhile phraseChar :=
        takeWhile_append_not_all hall _
      have hdrop : (s ++ c :: t).dropWhile phraseChar = s.dropWhile phraseChar ++ c :: t :=
        dropWhile_append_not_all hall _
      simp only [List.cons_append, runs_cons_pos hd, htake, hdrop, ih t]
  | case3 d s hd ih =>
    intro t
    simp only [List.cons_append, runs_cons_neg hd, ih t]

theorem prefix_append_decomp {α : Type} {p xs ys : List α} (h : p <+: xs ++ ys) :
    p <+: xs ∨ ∃ q, p = xs ++ q ∧ q <+: ys := by
  induction xs generalizing p with
  | nil => exact Or.inr ⟨p, by simp, by simpa using h⟩
  | cons x xs ih =>
    cases p with
    | nil => exact Or.inl (List.nil_prefix)
    | cons a p =>
      rw [List.cons_append, List.cons_prefix_cons] at h
      obtain ⟨rfl, hp⟩ := h
      rcases ih hp with h1 | ⟨q, rfl, hq⟩
      · exact Or.inl (List.cons_prefix_cons.2 ⟨rfl, h1⟩)
      · exact Or.inr ⟨q, by simp, hq⟩

/-- An infix of a concatenation lies in the left part, the right part, or
straddles the border with a nonempty suffix-part and prefix-part. -/
theorem infix_append_decomp {α : Type} {p xs ys : List α} (h : p <:+: xs ++ ys) :
    p <:+: xs ∨ p <:+: ys ∨
      ∃ q r, p = q ++ r ∧ q ≠ [] ∧ r ≠ [] ∧ q <:+ xs ∧ r <+: ys := by
  induction xs generalizing p with
  | nil => exact Or.inr (Or.inl (by simpa using h))
  | cons x xs ih =>
    rw [List.cons_append, List.infix_cons_iff] at h
    rcases h with h | h
    · cases p with
      | nil => exact Or.inl (List.nil_infix)
      | cons a p =>
        rw [List.cons_prefix_cons] at h
        obtain ⟨rfl, hp⟩ := h
        rcases prefix_append_decomp hp with h1 | ⟨q, rfl, hq⟩
        · exact Or.inl (List.cons_prefix_cons.2 ⟨rfl, h1⟩).isInfix
        · by_cases hqnil : q = []
          · subst hqnil
            exact Or.inl (by simp)
          · exact Or.inr (Or.inr ⟨a :: xs, q, by simp, by simp, hqnil,
              List.suffix_refl _, hq⟩)
    · rcases ih h with h1 | h2 | ⟨q, r, rfl, hq, hr, hsuf, hpre⟩
      · exact Or.inl (List.infix_cons h1)
      · exact Or.inr (Or.inl h2)
      · exact Or.inr (Or.inr ⟨q, r, rfl, hq, hr,
          hsuf.trans (List.suffix_cons x xs), hpre⟩)

theorem all_prefix_takeWhile {p u : List Char}
    (hall : ∀ c ∈ p, phraseChar c) (h : p <+: u) :
    p <+: u.takeWhile phraseChar := by
  induction p generalizing u with
  | nil => exact List.nil_prefix
  | cons a p ih =>
    cases u with
    | nil => simp at h
    | cons b u =>
      rw [List.cons_prefix_cons] at h
      obtain ⟨rfl, hp⟩ := h
      rw [List.takeWhile_cons_of_pos (hall a (by simp))]
      exact List.cons_prefix_cons.2
        ⟨rfl, ih (fun c hc => hall c (by simp [hc])) hp⟩

theorem not_phraseChar_head_dropWhile {l : List Char} {d : Char} {w : List Char}
    (h : l.dropWhile phraseChar = d :: w) : ¬ phraseChar d := by
  induction l with
  | nil => simp at h
  | cons a l ih =>
    rw [List.dropWhile_cons] at h
    by_cases ha : phraseChar a
    · rw [if_pos ha] at h
      exact ih h
    · rw [if_neg ha] at h
      obtain ⟨rfl, -⟩ := List.cons.inj h
      exact ha

/-- A nonempty all-phrase-character infix of `s` is an infix of one of the
phrase runs of `s`. -/
theorem infix_mem_runs {p : List Char} (hne : p ≠ [])
    (hall : ∀ c ∈ p, phraseChar c) :
    ∀ s : List Char, p <:+: s → ∃ r ∈ runs s, p <:+: r := by
  intro s
  induction s using runs.induct with
  | case1 =>
    intro h
    exact absurd (List.infix_nil.1 h) hne
  | case2 c t hc ih =>
    intro h
    rw [List.infix_cons_iff] at h
    rcases h with h | h
    · refine ⟨c :: t.takeWhile phraseChar, by rw [runs_cons_pos hc]; simp, ?_⟩
      have hpre := all_prefix_takeWhile hall h
      rw [List.takeWhile_cons_of_pos hc] at hpre
      exact hpre.isInfix
    · rw [← List.takeWhile_append_dropWhile (p := phraseChar) (l := t)] at h
      rcases infix_append_decomp h with h1 | h2 | ⟨q, r, rfl, hq, hr, hsuf, hpre⟩
      · exact ⟨c :: t.takeWhile phraseChar, by rw [runs_cons_pos hc]; simp,
          List.infix_cons h1⟩
      · obtain ⟨r, hrmem, hpr⟩ := ih h2
        exact ⟨r, by rw [runs_cons_pos hc]; simp [hrmem], hpr⟩
      · exfalso
        obtain ⟨d, r2, rfl⟩ := List.exists_cons_of_ne_nil hr
        obtain ⟨w, hw⟩ := hpre
        have hd : ¬ phraseChar d := not_phraseChar_head_dropWhile hw.symm
        exact hd (hall d (by simp))
  | case3 c t hc ih =>
    intro h
    rw [List.infix_cons_iff] at h
    rcases h with h | h
    · exfalso
      obtain ⟨a, p2, rfl⟩ := List.exists_cons_of_ne_nil hne
      rw [List.cons_prefix_cons] at h
      exact hc (h.1 ▸ hall a (by simp))
    · rw [runs_cons_neg hc]
      exact ih h

/-- Occurrence of a nonempty all-phrase-character word is equivalent to
occurrence inside one of the phrase runs. -/
theorem infix_iff_exists_run {p : List Char} (hne : p ≠ [])
    (hall : ∀ c ∈ p, phraseChar c) (s : List Char) :
    p <:+: s ↔ ∃ r ∈ runs s, p <:+: r := by
  constructor
  · exact infix_mem_runs hne hall s
  · rintro ⟨r, hr, hpr⟩
    exact hpr.trans (runs_infix_of_mem s r hr)

/-- Phrase runs of a value's lowered serialization. -/
def runsOf (v : JsVal) : List (List Char) := runs (lowerL (stringifyVal v))

/-- Escaped content of a string as it appears inside a serialized string
literal, without the surrounding quotes. -/
def escContent (k : String) : List Char := k.data.flatMap escapeChar

/-- Concatenated phrase runs of serialized object entries: the runs of each
escaped key followed by the runs of each serialized value. -/
def runsFields : List (String × JsVal) → List (List Char)
  | [] => []
  | (k, v) :: xs => runs (lowerL (escContent k)) ++ runsOf v ++ runsFields xs

/-- Concatenated phrase runs of serialized array elements. -/
def runsArr : List JsVal → List (List Char)
  | [] => []
  | x :: xs => runsOf x ++ runsArr xs

theorem lowerL_append (a b : List Char) : lowerL (a ++ b) = lowerL a ++ lowerL b :=
  List.map_append _ a b

theorem phraseChar_quote : ¬ phraseChar '"' := by decide
theorem phraseChar_colon : ¬ phraseChar ':' := by decide
theorem phraseChar_comma : ¬ phraseChar ',' := by decide
theorem phraseChar_lbrace : ¬ phraseChar '{' := by decide
theorem phraseChar_rbrace : ¬ phraseChar '}' := by decide
theorem phraseChar_lbracket : ¬ phraseChar '[' := by decide
theorem phraseChar_rbracket : ¬ phraseChar ']' := by decide

@[simp] theorem toLower_quote : Char.toLower '"' = '"' := by decide
@[simp] theorem toLower_colon : Char.toLower ':' = ':' := by decide
@[simp] theorem toLower_comma : Char.toLower ',' = ',' := by decide
@[simp] theorem toLower_lbrace : Char.toLower '{' = '{' := by decide
@[simp] theorem toLower_rbrace : Char.toLower '}' = '}' := by decide
@[simp] theorem toLower_lbracket : Char.toLower '[' = '[' := by decide
@[simp] theorem toLower_rbracket : Char.toLower ']' = ']' := by decide

/-- Runs of a serialized string literal followed by anything: the quotes act
as barriers around the escaped content. -/
theorem runs_quote (k : String) (rest : List Char) :
    runs (lowerL (quoteChars k) ++ rest) =
      runs (lowerL (escContent k)) ++ runs rest := by
  have hshape : lowerL (quoteChars k) ++ rest =
      '"' :: (lowerL (escContent k) ++ '"' :: rest) := by
    simp [quoteChars, escContent, lowerL]
  rw [hshape, runs_cons_neg phraseChar_quote, runs_append_barrier phraseChar_quote]

theorem runs_obj_entries : ∀ fields : List (String × JsVal),
    runs (lowerL (stringifyObj fields)) = runsFields fields
  | [] => by simp [stringifyObj, lowerL, runs_nil, runsFields]
  | [(k, v)] => by
    have hshape : lowerL (stringifyObj [(k, v)]) =
        lowerL (quoteChars k) ++ ':' :: lowerL (stringifyVal v) := by
      simp [stringifyObj, lowerL]
    rw [hshape, runs_quote, runs_cons_neg phraseChar_colon]
    simp [runsFields, runsOf]
  | (k, v) :: e :: xs => by
    have hshape : lowerL (stringifyObj ((k, v) :: e :: xs)) =
        lowerL (quoteChars k) ++ ':' ::
          (lowerL (stringifyVal v) ++ ',' :: lowerL (stringifyObj (e :: xs))) := by
      simp [stringifyObj, lowerL]
    rw [hshape, runs_quote, runs_cons_neg phraseChar_colon,
      runs_append_barrier phraseChar_comma, runs_obj_entries (e :: xs)]
    simp [runsFields, runsOf]

theorem runs_arr_entries : ∀ elems : List JsVal,
    runs (lowerL (stringifyArr elems)) = runsArr elems
  | [] => by simp [stringifyArr, lowerL, runs_nil, runsArr]
  | [x] => by simp [stringifyArr, runsArr, runsOf]
  | x :: y :: xs => by
    have hshape : lowerL (stringifyArr (x :: y :: xs)) =
        lowerL (stringifyVal x) ++ ',' :: lowerL (stringifyArr (y :: xs)) := by
      simp [stringifyArr, lowerL]
    rw [hshape, runs_append_barrier phraseChar_comma, runs_arr_entries (y :: xs)]
    simp [runsArr, runsOf]

theorem runsOf_vObj (fields : List (String × JsVal)) :
    runsOf (vObj fields) = runsFields fields := by
  have hshape : lowerL (stringifyVal (vObj fields)) =
      '{' :: (lowerL (stringifyObj fields) ++ '}' :: []) := by
    simp [stringifyVal, lowerL]
  rw [runsOf, hshape, runs_cons_neg phraseChar_lbrace,
    runs_append_barrier phraseChar_rbrace, runs_nil, runs_obj_entries]
  simp

theorem runsOf_vArr (elems : List JsVal) :
    runsOf (vArr elems) = runsArr elems := by
  have hshape : lowerL (stringifyVal (vArr elems)) =
      '[' :: (lowerL (stringifyArr elems) ++ ']' :: []) := by
    simp [stringifyVal, lowerL]
  rw [runsOf, hshape, runs_cons_neg phraseChar_lbracket,
    runs_append_barrier phraseChar_rbracket, runs_nil, runs_arr_entries]
  simp

theorem exists_mem_append_iff {p : List Char} (A B : List (List Char)) :
    (∃ r ∈ A ++ B, p <:+: r) ↔ (∃ r ∈ A, p <:+: r) ∨ (∃ r ∈ B, p <:+: r) := by
  constructor
  · rintro ⟨r, hr, hp⟩
    rcases List.mem_append.1 hr with h | h
    · exact Or.inl ⟨r, h, hp⟩
    · exact Or.inr ⟨r, h, hp⟩
  · rintro (⟨r, hr, hp⟩ | ⟨r, hr, hp⟩)
    · exact ⟨r, List.mem_append.2 (Or.inl hr), hp⟩
    · exact ⟨r, List.mem_append.2 (Or.inr hr), hp⟩

theorem exists_mem_append_congr {p : List Char} {A B A2 B2 : List (List Char)}
    (h1 : (∃ r ∈ A, p <:+: r) ↔ (∃ r ∈ A2, p <:+: r))
    (h2 : (∃ r ∈ B, p <:+: r) ↔ (∃ r ∈ B2, p <:+: r)) :
    (∃ r ∈ A ++ B, p <:+: r) ↔ (∃ r ∈ A2 ++ B2, p <:+: r) := by
  rw [exists_mem_append_iff, exists_mem_append_iff, h1, h2]

/-- Permuting serialized object entries permutes their run blocks, so the
existence of a run containing `p` is unchanged. -/
theorem exists_runsFields_perm {p : List Char} {l l2 : List (String × JsVal)}
    (h : l.Perm l2) :
    (∃ r ∈ runsFields l, p <:+: r) ↔ (∃ r ∈ runsFields l2, p <:+: r) := by
  induction h with
  | nil => exact Iff.rfl
  | cons x h ih =>
    obtain ⟨k, v⟩ := x
    simp only [runsFields, List.append_assoc, exists_mem_append_iff]
    rw [ih]
  | swap x y l =>
    obtain ⟨k1, v1⟩ := x
    obtain ⟨k2, v2⟩ := y
    simp only [runsFields, List.append_assoc, exists_mem_append_iff]
    generalize (∃ r ∈ runs (lowerL (escContent k1)), p <:+: r) = A
    generalize (∃ r ∈ runsOf v1, p <:+: r) = B
    generalize (∃ r ∈ runs (lowerL (escContent k2)), p <:+: r) = C
    generalize (∃ r ∈ runsOf v2, p <:+: r) = D
    generalize (∃ r ∈ runsFields l, p <:+: r) = E
    tauto
  | trans h1 h2 ih1 ih2 => exact ih1.trans ih2

mutual

/-- Whether some phrase run of the serialization contains `p` is invariant
under recursively sorting object keys. -/
theorem exists_run_sort (p : List Char) : ∀ v : JsVal,
    ((∃ r ∈ runsOf v, p <:+: r) ↔ ∃ r ∈ runsOf (sortKeysRec v), p <:+: r)
  | vNull => Iff.rfl
  | vBool b => Iff.rfl
  | vNum f n => Iff.rfl
  | vStr s => Iff.rfl
  | vArr elems => by
    rw [show sortKeysRec (vArr elems) = vArr (sortKeysList elems) from rfl,
      runsOf_vArr, runsOf_vArr]
    exact exists_run_sortArr p elems
  | vObj fields => by
    rw [show sortKeysRec (vObj fields) =
      vObj (List.insertionSort keyLE (sortKeysFields fields)) from rfl,
      runsOf_vObj, runsOf_vObj]
    exact (exists_run_sortFields p fields).trans
      (exists_runsFields_perm (List.perm_insertionSort keyLE _)).symm

/-- Array part of `exists_run_sort`. -/
theorem exists_run_sortArr (p : List Char) : ∀ l : List JsVal,
    ((∃ r ∈ runsArr l, p <:+: r) ↔ ∃ r ∈ runsArr (sortKeysList l), p <:+: r)
  | [] => Iff.rfl
  | x :: xs => by
    rw [show sortKeysList (x :: xs) = sortKeysRec x :: sortKeysList xs from rfl,
      runsArr, runsArr]
    exact exists_mem_append_congr (exists_run_sort p x) (exists_run_sortArr p xs)

/-- Object-field part of `exists_run_sort`. -/
theorem exists_run_sortFields (p : List Char) : ∀ l : List (String × JsVal),
    ((∃ r ∈ runsFields l, p <:+: r) ↔ ∃ r ∈ runsFields (sortKeysFields l), p <:+: r)
  | [] => Iff.rfl
  | (k, v) :: xs => by
    rw [show sortKeysFields ((k, v) :: xs) =
      (k, sortKeysRec v) :: sortKeysFields xs from rfl, runsFields, runsFields]
    exact exists_mem_append_congr
      (exists_mem_append_congr Iff.rfl (exists_run_sort p v))
      (exists_run_sortFields p xs)

end

/-- Occurrence of a nonempty all-phrase-character word in the lowered
serialization is invariant under recursively sorting object keys. -/
theorem infix_lower_stringify_sort {p : List Char} (hne : p ≠ [])
    (hall : ∀ c ∈ p, phraseChar c) (v : JsVal) :
    (p <:+: lowerL (stringifyVal v)) ↔ (p <:+: lowerL (stableStringifyL v)) := by
  rw [infix_iff_exists_run hne hall, infix_iff_exists_run hne hall]
  exact exists_run_sort p v

theorem handwavePhrases_wf :
    ∀ q ∈ handwavePhrases, q ≠ [] ∧ ∀ c ∈ q, phraseChar c := by decide

theorem firstContained_congr {t t2 : List Char} :
    ∀ ps : List (List Char), (∀ q ∈ ps, ((q <:+: t) ↔ (q <:+: t2))) →
      firstContained t ps = firstContained t2 ps
  | [], _ => rfl
  | q :: ps, h => by
    have hq : infixB q t = infixB q t2 := by
      rw [Bool.eq_iff_iff, infixB_iff, infixB_iff]
      exact h q (by simp)
    rw [firstContained, firstContained, hq]
    by_cases hb : infixB q t2 = true
    · rw [if_pos hb, if_pos hb]
    · rw [if_neg hb, if_neg hb]
      exact firstContained_congr ps (fun r hr => h r (by simp [hr]))

/-- The handwave scan gives the same verdict on the plain and on the
canonical (key-sorted) serialization: phrases never straddle the structural
characters that key sorting moves around. -/
theorem containsBadPhrases_sort (v : JsVal) :
    containsBadPhrases (stringifyVal v) = containsBadPhrases (stableStringifyL v) := by
  rw [containsBadPhrases, containsBadPhrases]
  apply firstContained_congr
  intro q hq
  obtain ⟨hne, hall⟩ := handwavePhrases_wf q hq
  exact infix_lower_stringify_sort hne hall v

/-! ## Claim C4: quality gate characterization -/

/-- The error list as the specification describes it — written from the
spec's words for comparison with `qualityGate`: one `missing_key` error per
absent required key, the numeric-floor error, and the handwave error judged
on the canonical (key-sorted) serialization. -/
def specQualityErrors (output : JsVal) (requiredKeys : List String)
    (minNumericCount : Int) : List String :=
  ((requiredKeys.filter (fun k => ! hasKeyJs output k)).map
      (fun k => "missing_key:" ++ k))
    ++ (if (countNumericValues output : Int) < minNumericCount then
        ["too_few_numeric_values:" ++ toString (countNumericValues output) ++ "<"
          ++ toString minNumericCount]
      else [])
    ++ (match containsBadPhrases (stableStringifyL output) with
        | some m => ["handwave_phrase:" ++ String.mk m]
        | none => [])

/-- C4: `qualityGate` returns `ok = true` iff all checks pass, with exactly
the described error codes: a non-object yields exactly `output_not_object`;
otherwise the errors are `missing_key:<k>` for each absent required key,
`too_few_numeric_values:n<m` when the finite-numeric count is below the
floor, and `handwave_phrase:<match>` when the canonical JSON serialization
contains a handwave phrase (case-insensitively). -/
theorem C4_quality_gate (output : JsVal) (requiredKeys : List String)
    (minNumericCount : Int) :
    (output.isObjectLike = false →
      qualityGate output requiredKeys minNumericCount =
        ⟨false, ["output_not_object"], 0⟩) ∧
    (output.isObjectLike = true →
      (qualityGate output requiredKeys minNumericCount).errors =
        specQualityErrors output requiredKeys minNumericCount ∧
      (qualityGate output requiredKeys minNumericCount).numericCount =
        countNumericValues output ∧
      ((qualityGate output requiredKeys minNumericCount).ok = true ↔
        (∀ k ∈ requiredKeys, hasKeyJs output k = true) ∧
        minNumericCount ≤ (countNumericValues output : Int) ∧
        containsBadPhrases (stableStringifyL output) = none)) := by
  constructor
  · intro h
    rw [qualityGate, if_pos]
    simp [h]
  · intro h
    have herr : (qualityGate output requiredKeys minNumericCount).errors =
        specQualityErrors output requiredKeys minNumericCount := by
      rw [qualityGate, if_neg (by simp [h]), specQualityErrors,
        containsBadPhrases_sort]
    refine ⟨herr, ?_, ?_⟩
    · rw [qualityGate, if_neg (by simp [h])]
    · have hok : (qualityGate output requiredKeys minNumericCount).ok =
          (qualityGate output requiredKeys minNumericCount).errors.isEmpty := by
        rw [qualityGate, if_neg (by simp [h])]
      rw [hok, herr, List.isEmpty_iff, specQualityErrors]
      rw [List.append_eq_nil, List.append_eq_nil]
      constructor
      · rintro ⟨⟨hmiss, hnum⟩, hhw⟩
        refine ⟨?_, ?_, ?_⟩
        · intro k hk
          by_contra hno
          have : k ∈ requiredKeys.filter (fun k => ! hasKeyJs output k) :=
            List.mem_filter.2 ⟨hk, by simp [Bool.eq_false_iff.2 hno]⟩
          rw [List.map_eq_nil_iff] at hmiss
          simp [hmiss] at this
        · by_contra hlt
          rw [if_pos (by omega)] at hnum
          exact absurd hnum (by simp)
        · rcases hcb : containsBadPhrases (stableStringifyL output) with - | m
          · rfl
          · rw [hcb] at hhw
            exact absurd hhw (by simp)
      · rintro ⟨hall, hle, hnone⟩
        refine ⟨⟨?_, ?_⟩, ?_⟩
        · rw [List.map_eq_nil_iff, List.filter_eq_nil_iff]
          intro k hk
          simp [hall k hk]
        · rw [if_neg (by omega)]
        · rw [hnone]

/-! ## Crypto primitives (`supervisor-crypto.ts`)

SHA-256 and HMAC-SHA-256 are Node library code; they enter the model as
function parameters (`ShaFn`, `HmacFn`) producing byte lists, which the
embedded helpers hex-encode exactly as `digest('hex')` does.  Nothing below
depends on more than the output length of these parameters. -/

/-- Byte-level SHA-256 as an abstract parameter. -/
def ShaFn : Type := List Char → List Nat

/-- Byte-level HMAC-SHA-256 (secret, message) as an abstract parameter. -/
def HmacFn : Type := List Nat → List Char → List Nat

/-- Lower-case hex digit of a value below 16. -/
def hexDigit (n : Nat) : Char :=
  if n < 10 then Char.ofNat (48 + n) else Char.ofNat (87 + n)

/-- Hex encoding of a byte list, two digits per byte, as
`Buffer.toString('hex')` renders it. -/
def hexEncode (bytes : List Nat) : List Char :=
  bytes.flatMap (fun b => [hexDigit (b / 16 % 16), hexDigit (b % 16)])

/-- `hexEncode` as a `String`. -/
def hexEncodeStr (bytes : List Nat) : String := String.mk (hexEncode bytes)

/-- Value of one hex digit, `none` for a non-hex character. -/
def hexVal (c : Char) : Option Nat :=
  if '0' ≤ c ∧ c ≤ '9' then some (c.toNat - 48)
  else if 'a' ≤ c ∧ c ≤ 'f' then some (c.toNat - 87)
  else if 'A' ≤ c ∧ c ≤ 'F' then some (c.toNat - 55)
  else none

/-- Node's lenient hex decoding (`Buffer.from(s, 'hex')`): consume pairs of
hex digits, stopping at the first invalid pair or odd remainder. -/
def hexDecode : List Char → List Nat
  | c1 :: c2 :: rest =>
    match hexVal c1, hexVal c2 with
    | some h, some l => (16 * h + l) :: hexDecode rest
    | _, _ => []
  | _ => []

/-- Embeds `sha256Hex`: SHA-256 of a string as a hex string. -/
def sha256Hex (sha : ShaFn) (input : String) : String := hexEncodeStr (sha input.data)

/-- Embeds `hmacHex`: HMAC-SHA-256 of a string as a hex string. -/
def hmacHex (hmac : HmacFn) (secret : List Nat) (input : String) : String :=
  hexEncodeStr (hmac secret input.data)

/-- Embeds `signEvent`: HMAC over the canonical serialization of the
payload. -/
def signEvent (hmac : HmacFn) (secret : List Nat) (payload : JsVal) : String :=
  hmacHex hmac secret (stableStringify payload)

/-- Embeds `crypto.timingSafeEqual`: throws when the buffers have different
lengths, otherwise compares them. -/
def timingSafeEqual (a b : List Nat) : Except String Bool :=
  if a.length = b.length then .ok (a == b)
  else .error "Input buffers must have the same byte length"

/-- Embeds `verifyEventSig`: recompute the signature and compare the
hex-decoded buffers timing-safely; a length mismatch propagates the
`timingSafeEqual` exception. -/
def verifyEventSig (hmac : HmacFn) (secret : List Nat) (payload : JsVal)
    (supervisorSig : String) : Except String Bool :=
  timingSafeEqual (hexDecode (signEvent hmac secret payload).data)
    (hexDecode supervisorSig.data)

/-! ## Signed trace (`signed-trace.ts`) -/

/-- A signed trace event, with `none` modelling `null` fields. -/
structure TraceEvent where
  eventId : Nat
  ts : Int
  kind : String
  depth : Int
  agentName : String
  parentRunId : Option String
  childRunId : Option String
  inputHash : Option String
  outputHash : Option String
  note : Option String
  supervisorSig : String
deriving Repr, DecidableEq

/-- JavaScript `x || null` on an optional string: the empty string is falsy
and collapses to `null`. -/
def orNullStr : Option String → Option String
  | some str => if str = "" then none else some str
  | none => none

/-- An optional string as a JSON value (`null` when absent). -/
def optStr : Option String → JsVal
  | some str => vStr str
  | none => vNull

/-- The canonical payload object of an event, without `supervisorSig`, with
the field layout `addEvent` and `validateTrace` both construct. -/
def eventPayload (eventId : Nat) (ts : Int) (kind : String) (depth : Int)
    (agentName : String) (parentRunId childRunId inputHash outputHash note :
      Option String) : JsVal :=
  vObj [("eventId", vNum true eventId), ("ts", vNum true ts),
    ("kind", vStr kind), ("depth", vNum true depth),
    ("agentName", vStr agentName), ("parentRunId", optStr parentRunId),
    ("childRunId", optStr childRunId), ("inputHash", optStr inputHash),
    ("outputHash", optStr outputHash), ("note", optStr note)]

/-- The signed-trace state: the event list and the id sequence. -/
structure SignedTrace where
  events : List TraceEvent
  eventSeq : Nat
deriving Repr, DecidableEq

/-- Embeds `SignedTrace.addEvent`: assign the next event id, normalize
optional fields with `|| null`, sign the canonical payload and append.
`now` stands for `Date.now()` at the moment of the call. -/
def SignedTrace.addEvent (hmac : HmacFn) (secret : List Nat) (tr : SignedTrace)
    (now : Int) (kind : String) (depth : Int) (agentName : String)
    (parentRunId childRunId inputHash outputHash note : Option String) :
    SignedTrace × TraceEvent :=
  let eid := tr.eventSeq + 1
  let pr := orNullStr parentRunId
  let cr := orNullStr childRunId
  let ih := orNullStr inputHash
  let oh := orNullStr outputHash
  let nt := orNullStr note
  let sig := signEvent hmac secret (eventPayload eid now kind depth agentName pr cr ih oh nt)
  let ev : TraceEvent :=
    { eventId := eid, ts := now, kind := kind, depth := depth,
      agentName := agentName, parentRunId := pr, childRunId := cr,
      inputHash := ih, outputHash := oh, note := nt, supervisorSig := sig }
  ({ events := tr.events ++ [ev], eventSeq := eid }, ev)

/-- Embeds `SignedTrace.hashOf`: SHA-256 of the canonical serialization. -/
def hashOf (sha : ShaFn) (obj : JsVal) : String := sha256Hex sha (stableStringify obj)

/-! ## Run registry (`supervisor-registry.ts`) -/

/-- Status of a run record. -/
inductive RunStatus where
  | spawned : RunStatus
  | returned : RunStatus
deriving Repr, DecidableEq

/-- A registry run record. -/
structure RunRecord where
  runId : String
  parentRunId : Option String
  agentName : String
  depth : Int
  inputHash : String
  outputHash : Option String
  nonce : Option String
  status : RunStatus
  spawnedAt : Int
  returnedAt : Option Int
deriving Repr, DecidableEq

/-- The registry state.  `returnLog` is ghost instrumentation recording each
`runId` passed to `registerReturn`, used to state how often the source
invokes it; it influences nothing else. -/
structure Registry where
  runs : List RunRecord
  totalSpawns : Nat
  returnLog : List String
deriving Repr, DecidableEq

/-- Embeds `hasRun`. -/
def Registry.hasRun (reg : Registry) (runId : String) : Bool :=
  reg.runs.any (fun r => r.runId = runId)

/-- Embeds `getRun` (`null` for a missing id). -/
def Registry.getRun (reg : Registry) (runId : String) : Option RunRecord :=
  reg.runs.find? (fun r => r.runId = runId)

/-- Embeds `registerSpawn`: insert a fresh record with `status = spawned` and
no output hash, bumping `totalSpawns`; a duplicate id throws. -/
def Registry.registerSpawn (reg : Registry) (runId : String)
    (parentRunId : Option String) (agentName : String) (depth : Int)
    (inputHash : String) (nonce : Option String) (now : Int) :
    Except String Registry :=
  if reg.hasRun runId then .error ("Duplicate runId: " ++ runId)
  else .ok
    { runs := reg.runs ++
        [{ runId := runId, parentRunId := orNullStr parentRunId,
           agentName := agentName, depth := depth, inputHash := inputHash,
           outputHash := none, nonce := nonce, status := RunStatus.spawned,
           spawnedAt := now, returnedAt := none }],
      totalSpawns := reg.totalSpawns + 1,
      returnLog := reg.returnLog }

/-- Embeds `registerReturn`: mutate the record in place, setting the output
hash, the returned status and `returnedAt`; an unknown id throws.  The ghost
`returnLog` records the invocation. -/
def Registry.registerReturn (reg : Registry) (runId : String)
    (outputHash : String) (now : Int) : Except String Registry :=
  if reg.hasRun runId then .ok
    { runs := reg.runs.map (fun r =>
        if r.runId = runId then
          { r with
            outputHash := some outputHash
            status := RunStatus.returned
            returnedAt := some now }
        else r),
      totalSpawns := reg.totalSpawns,
      returnLog := reg.returnLog ++ [runId] }
  else .error ("Unknown runId return: " ++ runId)

/-! ## Orchestrator (`quality-gates.ts`, `RecursionProofOrchestratorHardened`)

The orchestrator's interaction with the outside world is captured by
oracles: `mintedRunId` stands for the id `mintRunId` mints (timestamp plus
random hex), `nonceBytes` for the 16 bytes `crypto.randomBytes(16)` draws,
`exec` for the per-attempt outcome of `simulateSubagentExecution` (adapter
call, host `runSubagent`, or built-in simulation — any of which may also
throw, modelled by `Except`), and `now` for `Date.now()`. -/

/-- A verified depth-3 proof record. -/
structure Depth3Proof where
  runId : String
  nonce : String
  hashProof : String
deriving Repr, DecidableEq

/-- Mutable orchestrator state: registry, trace and the verified depth-3
proof list. -/
structure OrchState where
  registry : Registry
  trace : SignedTrace
  depth3Proofs : List Depth3Proof
deriving Repr, DecidableEq

/-- Result of the spawn gate. -/
structure SpawnGateResult where
  ok : Bool
  reason : Option String
deriving Repr, DecidableEq

/-- Embeds `enforceSpawnGate`: depth limit first, then the spawn budget. -/
def enforceSpawnGate (maxDepth maxSpawns : Int) (totalSpawns : Nat)
    (requestedDepth : Int) : SpawnGateResult :=
  if requestedDepth ≥ maxDepth then ⟨false, some "depth_limit"⟩
  else if (totalSpawns : Int) ≥ maxSpawns then ⟨false, some "spawn_limit"⟩
  else ⟨true, none⟩

/-- Setting a property on a plain object: replace the value in place when
the key exists, append otherwise (JavaScript assignment semantics on the
insertion-ordered field list). -/
def objSet (fields : List (String × JsVal)) (k : String) (v : JsVal) :
    List (String × JsVal) :=
  if fields.any (fun kv => kv.1 = k) then
    fields.map (fun kv => if kv.1 = k then (k, v) else kv)
  else fields ++ [(k, v)]

/-- Embeds `verifyDepth3Proof`: require a nonempty nonce and a truthy
`hashProof` equal to `sha256(nonce + ":" + runId)`; on success the proof is
pushed onto the verified list. -/
def verifyDepth3Proof (sha : ShaFn) (proofs : List Depth3Proof)
    (runId : String) (output : JsVal) (nonce : String) :
    QualityGateResult × List Depth3Proof :=
  if nonce = "" then (⟨false, ["depth3_missing_nonce"], 0⟩, proofs)
  else
    let hp := output.get "hashProof"
    if ¬ ((hp.map truthy).getD false = true) then
      (⟨false, ["depth3_missing_hashProof"], 0⟩, proofs)
    else
      let expectedHash := sha256Hex sha (nonce ++ ":" ++ runId)
      if hp = some (vStr expectedHash) then
        (⟨true, [], 0⟩, proofs ++ [⟨runId, nonce, expectedHash⟩])
      else (⟨false, ["depth3_hash_proof_mismatch"], 0⟩, proofs)

/-- Result record of `runWithRetry`. -/
structure RetryResult where
  ok : Bool
  attempts : Nat
  result : Option (String × JsVal)
  lastResult : Option (String × JsVal)
  reason : Option String
deriving Repr, DecidableEq

/-- Embeds the loop of `runWithRetry` over an explicit state: run
`attemptFn`, gate the result, return on the first pass, give up after
`maxAttempts` with `quality_gate_failed_all_attempts`.  The recursion is on
the number of remaining attempts (`maxAttempts + 1 - attempt` in the
source's counting), which keeps it structural. -/
def runWithRetryGo {σ : Type} (attemptFn : Nat → σ → Except String ((String × JsVal) × σ))
    (gateFn : String × JsVal → σ → QualityGateResult × σ) (maxAttempts : Nat) :
    Nat → Nat → Option (String × JsVal) → σ → Except String (RetryResult × σ)
  | 0, _, last, st =>
    .ok ({ ok := false, attempts := maxAttempts, result := none,
           lastResult := last, reason := some "quality_gate_failed_all_attempts" }, st)
  | remaining + 1, attempt, _, st =>
    match attemptFn attempt st with
    | .error e => .error e
    | .ok (res, st1) =>
      let gs := gateFn res st1
      if gs.1.ok then
        .ok ({ ok := true, attempts := attempt, result := some res,
               lastResult := none, reason := none }, gs.2)
      else runWithRetryGo attemptFn gateFn maxAttempts remaining (attempt + 1) (some res) gs.2

/-- Embeds `runWithRetry` (state-threaded). -/
def runWithRetry {σ : Type} (attemptFn : Nat → σ → Except String ((String × JsVal) × σ))
    (gateFn : String × JsVal → σ → QualityGateResult × σ) (maxAttempts : Nat)
    (st : σ) : Except String (RetryResult × σ) :=
  runWithRetryGo attemptFn gateFn maxAttempts maxAttempts 1 none st

/-- Result of `supervisedSpawn`. -/
structure SupervisedSpawnResult where
  ok : Bool
  reason : Option String
  runId : String
  output : Option JsVal
  attempts : Option Nat
deriving Repr, DecidableEq

/-- The per-attempt body of `supervisedSpawn` (`attemptFn` in the source):
execute the subagent, hash the output, register the return and append a
signed `return` event — all before the gate sees the output. -/
def spawnAttemptFn (hmac : HmacFn) (sha : ShaFn) (secret : List Nat)
    (now : Int) (exec : Nat → Except String JsVal) (runId : String)
    (agentName : String) (depth : Int) (parentRunId : Option String)
    (attempt : Nat) (st : OrchState) :
    Except String ((String × JsVal) × OrchState) :=
  match exec attempt with
  | .error e => .error e
  | .ok output =>
    let outputHash := hashOf sha output
    match st.registry.registerReturn runId outputHash now with
    | .error e => .error e
    | .ok reg =>
      let (tr, _) := st.trace.addEvent hmac secret now "return" depth agentName
        parentRunId (some runId) none (some outputHash) none
      .ok ((runId, output), { registry := reg, trace := tr, depth3Proofs := st.depth3Proofs })

/-- The gate closure of `supervisedSpawn` (`gateFn` in the source): the
quality gate, strengthened at depth 3 by the nonce hash proof. -/
def spawnGateFn (sha : ShaFn) (runId : String) (depth : Int)
    (nonce : Option String) (requiredKeys : List String)
    (minNumericCount : Int) (out : String × JsVal) (st : OrchState) :
    QualityGateResult × OrchState :=
  let gate := qualityGate out.2 requiredKeys minNumericCount
  if depth = 3 ∧ gate.ok = true then
    let vr := verifyDepth3Proof sha st.depth3Proofs runId out.2 (nonce.getD "")
    (vr.1, { st with depth3Proofs := vr.2 })
  else (gate, st)

/-- Embeds `supervisedSpawn`: enforce the spawn gate (recording a `limit`
event on refusal), mint the run id, at depth 3 draw a nonce and inject
`{nonce, runId}` into the input, hash the input, register the spawn, append
a signed `spawn` event, then execute under `runWithRetry` with the gate. -/
def supervisedSpawn (hmac : HmacFn) (sha : ShaFn) (secret : List Nat)
    (maxDepth maxSpawns : Int) (now : Int) (mintedRunId : String)
    (nonceBytes : List Nat) (exec : Nat → Except String JsVal)
    (parentRunId : Option String) (agentName : String) (depth : Int)
    (input : List (String × JsVal)) (requiredKeys : List String)
    (minNumericCount : Int) (st : OrchState) :
    Except String (SupervisedSpawnResult × OrchState) :=
  let gate := enforceSpawnGate maxDepth maxSpawns st.registry.totalSpawns depth
  if gate.ok = true then
    let runId := mintedRunId
    let nonce : Option String :=
      if depth = 3 then some (hexEncodeStr nonceBytes) else none
    let input2 :=
      if depth = 3 then
        objSet (objSet input "nonce" (vStr (hexEncodeStr nonceBytes))) "runId" (vStr runId)
      else input
    let inputHash := hashOf sha (vObj input2)
    match st.registry.registerSpawn runId parentRunId agentName depth inputHash nonce now with
    | .error e => .error e
    | .ok reg =>
      let (tr, _) := st.trace.addEvent hmac secret now "spawn" depth agentName
        parentRunId (some runId) (some inputHash) none none
      let st1 : OrchState := { registry := reg, trace := tr, depth3Proofs := st.depth3Proofs }
      match runWithRetry
        (spawnAttemptFn hmac sha secret now exec runId agentName depth parentRunId)
        (spawnGateFn sha runId depth nonce requiredKeys minNumericCount) 2 st1 with
      | .error e => .error e
      | .ok (rr, st2) =>
        if rr.ok = true then
          .ok ({ ok := true, reason := none, runId := runId,
                 output := rr.result.map (fun r => r.2), attempts := none }, st2)
        else
          .ok ({ ok := false, reason := some "quality_gate_failed", runId := runId,
                 output := none, attempts := some rr.attempts }, st2)
  else
    let (tr, _) := st.trace.addEvent hmac secret now "limit" depth "supervisor"
      parentRunId none none none gate.reason
    .ok ({ ok := false, reason := gate.reason, runId := "",
           output := none, attempts := none }, { st with trace := tr })

/-! ## Helper lemmas about the retry loop and the registry -/

theorem runWithRetryGo_preserve {σ : Type} {P : σ → Prop}
    {A : Nat → σ → Except String ((String × JsVal) × σ)}
    {G : String × JsVal → σ → QualityGateResult × σ}
    (hA : ∀ a s r s2, A a s = .ok (r, s2) → P s → P s2)
    (hG : ∀ r s, P s → P (G r s).2) (maxA : Nat) :
    ∀ remaining att last st rr st2,
      runWithRetryGo A G maxA remaining att last st = .ok (rr, st2) →
      P st → P st2 := by
  intro remaining
  induction remaining with
  | zero =>
    intro att last st rr st2 hrun hP
    rw [runWithRetryGo] at hrun
    obtain ⟨-, rfl⟩ := Prod.mk.injEq .. ▸ (Except.ok.inj hrun)
    exact hP
  | succ remaining ih =>
    intro att last st rr st2 hrun hP
    rw [runWithRetryGo] at hrun
    cases hA1 : A att st with
    | error e => rw [hA1] at hrun; exact absurd hrun (by simp)
    | ok rs =>
      obtain ⟨res, s1⟩ := rs
      rw [hA1] at hrun
      simp only at hrun
      have hP1 : P s1 := hA att st res s1 hA1 hP
      have hP2 : P (G res s1).2 := hG res s1 hP1
      by_cases hgok : (G res s1).1.ok = true
      · rw [if_pos hgok] at hrun
        obtain ⟨-, rfl⟩ := Prod.mk.injEq .. ▸ (Except.ok.inj hrun)
        exact hP2
      · rw [if_neg hgok] at hrun
        exact ih (att + 1) (some res) (G res s1).2 rr st2 hrun hP2

theorem runWithRetryGo_ok_result {σ : Type}
    {A : Nat → σ → Except String ((String × JsVal) × σ)}
    {G : String × JsVal → σ → QualityGateResult × σ} (maxA : Nat) :
    ∀ remaining att last st rr st2,
      runWithRetryGo A G maxA remaining att last st = .ok (rr, st2) →
      rr.ok = true →
      ∃ res s1, rr.result = some res ∧ (G res s1).1.ok = true ∧
        st2 = (G res s1).2 := by
  intro remaining
  induction remaining with
  | zero =>
    intro att last st rr st2 hrun hok
    rw [runWithRetryGo] at hrun
    obtain ⟨h1, -⟩ := Prod.mk.injEq .. ▸ (Except.ok.inj hrun)
    rw [← h1] at hok
    simp at hok
  | succ remaining ih =>
    intro att last st rr st2 hrun hok
    rw [runWithRetryGo] at hrun
    cases hA1 : A att st with
    | error e => rw [hA1] at hrun; exact absurd hrun (by simp)
    | ok rs =>
      obtain ⟨res, s1⟩ := rs
      rw [hA1] at hrun
      simp only at hrun
      by_cases hgok : (G res s1).1.ok = true
      · rw [if_pos hgok] at hrun
        obtain ⟨h1, h2⟩ := Prod.mk.injEq .. ▸ (Except.ok.inj hrun)
        exact ⟨res, s1, by rw [← h1], hgok, h2.symm⟩
      · rw [if_neg hgok] at hrun
        exact ih (att + 1) (some res) (G res s1).2 rr st2 hrun hok

theorem runWithRetryGo_log {σ : Type} {f : σ → List String} {x : String}
    {A : Nat → σ → Except String ((String × JsVal) × σ)}
    {G : String × JsVal → σ → QualityGateResult × σ}
    (hA : ∀ a s r s2, A a s = .ok (r, s2) → f s2 = f s ++ [x])
    (hG : ∀ r s, f (G r s).2 = f s) (maxA : Nat) :
    ∀ remaining att last st rr st2,
      runWithRetryGo A G maxA remaining att last st = .ok (rr, st2) →
      ∃ n, f st2 = f st ++ List.replicate n x ∧ n ≤ remaining ∧
        (1 ≤ remaining → 1 ≤ n) := by
  intro remaining
  induction remaining with
  | zero =>
    intro att last st rr st2 hrun
    rw [runWithRetryGo] at hrun
    obtain ⟨-, rfl⟩ := Prod.mk.injEq .. ▸ (Except.ok.inj hrun)
    exact ⟨0, by simp, by omega, by omega⟩
  | succ remaining ih =>
    intro att last st rr st2 hrun
    rw [runWithRetryGo] at hrun
    cases hA1 : A att st with
    | error e => rw [hA1] at hrun; exact absurd hrun (by simp)
    | ok rs =>
      obtain ⟨res, s1⟩ := rs
      rw [hA1] at hrun
      simp only at hrun
      have h1 : f s1 = f st ++ [x] := hA att st res s1 hA1
      have h2 : f (G res s1).2 = f s1 := hG res s1
      by_cases hgok : (G res s1).1.ok = true
      · rw [if_pos hgok] at hrun
        obtain ⟨-, hst⟩ := Prod.mk.injEq .. ▸ (Except.ok.inj hrun)
        refine ⟨1, ?_, by omega, fun _ => le_refl 1⟩
        rw [← hst, h2, h1]
        simp
      · rw [if_neg hgok] at hrun
        obtain ⟨k, hk, hkle, -⟩ := ih (att + 1) (some res) (G res s1).2 rr st2 hrun
        refine ⟨k + 1, ?_, by omega, by omega⟩
        rw [hk, h2, h1]
        simp [List.replicate_succ, List.append_assoc]

theorem registerReturn_ok {reg : Registry} {rid oh : String} {now : Int}
    {reg2 : Registry} (h : reg.registerReturn rid oh now = .ok reg2) :
    reg2.runs = reg.runs.map (fun r => if r.runId = rid then
      { r with
        outputHash := some oh
        status := RunStatus.returned
        returnedAt := some now }
      else r) ∧
    reg2.totalSpawns = reg.totalSpawns ∧
    reg2.returnLog = reg.returnLog ++ [rid] := by
  rw [Registry.registerReturn] at h
  by_cases hr : reg.hasRun rid = true
  · rw [if_pos hr] at h
    have heq := Except.ok.inj h
    rw [← heq]
    exact ⟨rfl, rfl, rfl⟩
  · rw [if_neg hr] at h
    simp at h

theorem registerSpawn_ok {reg : Registry} {rid : String} {pr : Option String}
    {an : String} {d : Int} {ih : String} {nz : Option String} {now : Int}
    {reg2 : Registry}
    (h : reg.registerSpawn rid pr an d ih nz now = .ok reg2) :
    reg2.runs = reg.runs ++
      [{ runId := rid, parentRunId := orNullStr pr, agentName := an, depth := d,
         inputHash := ih, outputHash := none, nonce := nz,
         status := RunStatus.spawned, spawnedAt := now, returnedAt := none }] ∧
    reg2.totalSpawns = reg.totalSpawns + 1 ∧
    reg2.returnLog = reg.returnLog ∧
    reg.hasRun rid = false := by
  rw [Registry.registerSpawn] at h
  by_cases hr : reg.hasRun rid = true
  · rw [if_pos hr] at h
    simp at h
  · rw [if_neg hr] at h
    have heq := Except.ok.inj h
    rw [← heq]
    exact ⟨rfl, rfl, rfl, by simpa using hr⟩

theorem spawnGateFn_registry (sha : ShaFn) (runId : String) (depth : Int)
    (nonce : Option String) (requiredKeys : List String) (minNumericCount : Int)
    (out : String × JsVal) (s : OrchState) :
    (spawnGateFn sha runId depth nonce requiredKeys minNumericCount out s).2.registry
      = s.registry := by
  rw [spawnGateFn]
  split
  · rfl
  · rfl

theorem spawnAttemptFn_ok {hmac : HmacFn} {sha : ShaFn} {secret : List Nat}
    {now : Int} {exec : Nat → Except String JsVal} {runId agentName : String}
    {depth : Int} {parentRunId : Option String} {attempt : Nat}
    {s : OrchState} {r : String × JsVal} {s2 : OrchState}
    (h : spawnAttemptFn hmac sha secret now exec runId agentName depth
      parentRunId attempt s = .ok (r, s2)) :
    ∃ output reg, exec attempt = .ok output ∧
      s.registry.registerReturn runId (hashOf sha output) now = .ok reg ∧
      r = (runId, output) ∧ s2.registry = reg ∧
      s2.depth3Proofs = s.depth3Proofs := by
  rw [spawnAttemptFn] at h
  cases hex : exec attempt with
  | error e => rw [hex] at h; simp at h
  | ok output =>
    rw [hex] at h
    simp only at h
    cases hreg : s.registry.registerReturn runId (hashOf sha output) now with
    | error e => rw [hreg] at h; simp at h
    | ok reg =>
      rw [hreg] at h
      simp only at h
      obtain ⟨h1, h2⟩ := Prod.mk.injEq .. ▸ (Except.ok.inj h)
      exact ⟨output, reg, rfl, hreg, h1.symm, by rw [← h2], by rw [← h2]⟩

/-! ## Claim C2: spawn gate limits and budget invariants -/

/-- The budget invariant of the claim: every registered run record sits below
the depth cap and the spawn count stays within the budget. -/
def budgetInv (maxDepth maxSpawns : Int) (reg : Registry) : Prop :=
  (∀ r ∈ reg.runs, r.depth < maxDepth) ∧ (reg.totalSpawns : Int) ≤ maxSpawns

/-- C2: a spawn request at `depth ≥ maxDepth` is refused with `depth_limit`,
one at `totalSpawns ≥ maxSpawns` (below the depth cap, which the gate checks
first) with `spawn_limit`; each refusal appends exactly one `limit` event
whose note is the refusal reason and leaves the registry untouched; and any
completed call preserves the budget invariant, so every registered record
has `depth < maxDepth` and `totalSpawns ≤ maxSpawns` at all times. -/
theorem C2_spawn_gate_limits (hmac : HmacFn) (sha : ShaFn) (secret : List Nat)
    (maxDepth maxSpawns : Int) (now : Int) (mintedRunId : String)
    (nonceBytes : List Nat) (exec : Nat → Except String JsVal)
    (parentRunId : Option String) (agentName : String) (depth : Int)
    (input : List (String × JsVal)) (requiredKeys : List String)
    (minNumericCount : Int) (st : OrchState) :
    (depth ≥ maxDepth →
      supervisedSpawn hmac sha secret maxDepth maxSpawns now mintedRunId
          nonceBytes exec parentRunId agentName depth input requiredKeys
          minNumericCount st =
        .ok (⟨false, some "depth_limit", "", none, none⟩,
          { st with trace := (st.trace.addEvent hmac secret now "limit" depth
              "supervisor" parentRunId none none none (some "depth_limit")).1 }) ∧
      (st.trace.addEvent hmac secret now "limit" depth "supervisor" parentRunId
          none none none (some "depth_limit")).1.events =
        st.trace.events ++ [(st.trace.addEvent hmac secret now "limit" depth
          "supervisor" parentRunId none none none (some "depth_limit")).2] ∧
      (st.trace.addEvent hmac secret now "limit" depth "supervisor" parentRunId
          none none none (some "depth_limit")).2.kind = "limit" ∧
      (st.trace.addEvent hmac secret now "limit" depth "supervisor" parentRunId
          none none none (some "depth_limit")).2.note = some "depth_limit") ∧
    (depth < maxDepth → (st.registry.totalSpawns : Int) ≥ maxSpawns →
      supervisedSpawn hmac sha secret maxDepth maxSpawns now mintedRunId
          nonceBytes exec parentRunId agentName depth input requiredKeys
          minNumericCount st =
        .ok (⟨false, some "spawn_limit", "", none, none⟩,
          { st with trace := (st.trace.addEvent hmac secret now "limit" depth
              "supervisor" parentRunId none none none (some "spawn_limit")).1 }) ∧
      (st.trace.addEvent hmac secret now "limit" depth "supervisor" parentRunId
          none none none (some "spawn_limit")).1.events =
        st.trace.events ++ [(st.trace.addEvent hmac secret now "limit" depth
          "supervisor" parentRunId none none none (some "spawn_limit")).2] ∧
      (st.trace.addEvent hmac secret now "limit" depth "supervisor" parentRunId
          none none none (some "spawn_limit")).2.note = some "spawn_limit") ∧
    (∀ res st2,
      supervisedSpawn hmac sha secret maxDepth maxSpawns now mintedRunId
          nonceBytes exec parentRunId agentName depth input requiredKeys
          minNumericCount st = .ok (res, st2) →
      budgetInv maxDepth maxSpawns st.registry →
      budgetInv maxDepth maxSpawns st2.registry) := by
  refine ⟨?_, ?_, ?_⟩
  · intro h
    refine ⟨?_, rfl, rfl, rfl⟩
    rw [supervisedSpawn, enforceSpawnGate, if_pos h]
    rfl
  · intro h1 h2
    refine ⟨?_, rfl, rfl⟩
    have hd1 : ¬ (depth ≥ maxDepth) := by omega
    rw [supervisedSpawn, enforceSpawnGate, if_neg hd1, if_pos h2]
    rfl
  · intro res st2 hrun hinv
    simp only [supervisedSpawn, enforceSpawnGate] at hrun
    by_cases hd1 : depth ≥ maxDepth
    · rw [if_pos hd1] at hrun
      simp only at hrun
      obtain ⟨-, rfl⟩ := Prod.mk.injEq .. ▸ (Except.ok.inj hrun)
      exact hinv
    · by_cases hs1 : (st.registry.totalSpawns : Int) ≥ maxSpawns
      · rw [if_neg hd1, if_pos hs1] at hrun
        simp only at hrun
        obtain ⟨-, rfl⟩ := Prod.mk.injEq .. ▸ (Except.ok.inj hrun)
        exact hinv
      · rw [if_neg hd1, if_neg hs1] at hrun
        simp only at hrun
        cases hreg : st.registry.registerSpawn mintedRunId parentRunId agentName
            depth (hashOf sha (vObj (if depth = 3 then
              objSet (objSet input "nonce" (vStr (hexEncodeStr nonceBytes)))
                "runId" (vStr mintedRunId) else input))) (if depth = 3 then
              some (hexEncodeStr nonceBytes) else none) now with
        | error e => rw [hreg] at hrun; simp at hrun
        | ok reg =>
          rw [hreg] at hrun
          simp only at hrun
          obtain ⟨hruns, htot, -, -⟩ := registerSpawn_ok hreg
          have hinv1 : budgetInv maxDepth maxSpawns reg := by
            constructor
            · intro r hr
              rw [hruns] at hr
              rcases List.mem_append.1 hr with hr | hr
              · exact hinv.1 r hr
              · rw [List.mem_singleton.1 hr]
                show depth < maxDepth
                omega
            · rw [htot]
              push_cast
              omega
          cases hretry : runWithRetry
              (spawnAttemptFn hmac sha secret now exec mintedRunId agentName
                depth parentRunId)
              (spawnGateFn sha mintedRunId depth (if depth = 3 then
                some (hexEncodeStr nonceBytes) else none) requiredKeys
                minNumericCount) 2
              { registry := reg,
                trace := (st.trace.addEvent hmac secret now "spawn" depth
                  agentName parentRunId (some mintedRunId)
                  (some (hashOf sha (vObj (if depth = 3 then
                    objSet (objSet input "nonce" (vStr (hexEncodeStr nonceBytes)))
                      "runId" (vStr mintedRunId) else input)))) none none).1,
                depth3Proofs := st.depth3Proofs } with
          | error e => rw [hretry] at hrun; simp at hrun
          | ok rs =>
            obtain ⟨rr, stq⟩ := rs
            rw [hretry] at hrun
            simp only at hrun
            have hstq : budgetInv maxDepth maxSpawns stq.registry := by
              refine runWithRetryGo_preserve
                (P := fun s : OrchState => budgetInv maxDepth maxSpawns s.registry)
                ?_ ?_ 2 2 1 none _ rr stq hretry hinv1
              · intro a sA rA s2A hA hPA
                obtain ⟨output, regA, -, hregA, -, hs2A, -⟩ := spawnAttemptFn_ok hA
                obtain ⟨hrunsA, htotA, -⟩ := registerReturn_ok hregA
                rw [hs2A]
                constructor
                · intro r hr
                  rw [hrunsA] at hr
                  obtain ⟨r0, hr0, hfr0⟩ := List.mem_map.1 hr
                  have hd : r.depth = r0.depth := by
                    rw [← hfr0]
                    by_cases hc : r0.runId = mintedRunId <;> simp [hc]
                  rw [hd]
                  exact hPA.1 r0 hr0
                · rw [htotA]
                  exact hPA.2
              · intro rA sA hPA
                rw [spawnGateFn_registry]
                exact hPA
            by_cases hok : rr.ok = true
            · rw [if_pos hok] at hrun
              obtain ⟨-, rfl⟩ := Prod.mk.injEq .. ▸ (Except.ok.inj hrun)
              exact hstq
            · rw [if_neg hok] at hrun
              obtain ⟨-, rfl⟩ := Prod.mk.injEq .. ▸ (Except.ok.inj hrun)
              exact hstq

/-! ## Concrete instantiations used by witnesses and counterexamples -/

/-- A concrete SHA-256 stand-in producing 32 bytes, for instantiating the
crypto parameter in closed statements. -/
def shaTest : ShaFn := fun _ => List.replicate 32 0

/-- A concrete HMAC stand-in producing 32 bytes. -/
def hmacTest : HmacFn := fun _ _ => List.replicate 32 0

/-- The orchestrator state as the constructor builds it: empty registry,
empty trace, no verified proofs. -/
def emptyOrchState : OrchState := ⟨⟨[], 0, []⟩, ⟨[], 0⟩, []⟩

/-- Witness for C2: with `maxDepth = 0` a depth-1 spawn is refused with
`depth_limit` and one `limit` event, registering nothing; with
`maxSpawns = 0` the first spawn is refused with `spawn_limit`. -/
theorem C2_spawn_gate_limits_witness :
    (supervisedSpawn hmacTest shaTest [] 0 10 0 "rid" [] (fun _ => .ok vNull)
        none "agent" 1 [] [] 0 emptyOrchState).map
      (fun r => (r.1.reason, r.2.trace.events.length, r.2.registry.runs.length)) =
      .ok (some "depth_limit", 1, 0) ∧
    (supervisedSpawn hmacTest shaTest [] 4 0 0 "rid" [] (fun _ => .ok vNull)
        none "agent" 1 [] [] 0 emptyOrchState).map
      (fun r => r.1.reason) = .ok (some "spawn_limit") := by
  constructor
  · rw [((C2_spawn_gate_limits hmacTest shaTest [] 0 10 0 "rid" []
      (fun _ => .ok vNull) none "agent" 1 [] [] 0 emptyOrchState).1 (by decide)).1]
    rfl
  · rw [((C2_spawn_gate_limits hmacTest shaTest [] 4 0 0 "rid" []
      (fun _ => .ok vNull) none "agent" 1 [] [] 0 emptyOrchState).2.1 (by decide)
      (by decide)).1]
    rfl

/-! ## Claim C7: run record lifecycle and `registerReturn` invocations -/

/-- C7 counterexample: a run whose first attempt fails the quality gate and
is retried has `registerReturn` invoked twice for the same `runId` (the
ghost `returnLog` records both calls), refuting "at most once". -/
theorem C7_counterexample :
    (supervisedSpawn hmacTest shaTest [] 4 10 0 "rid" (List.replicate 16 0)
        (fun a => .ok (if a = 1 then vObj [] else vObj [("m", vNum true 1)]))
        none "worker" 2 [] ["m"] 1 emptyOrchState).map
      (fun r => (r.1.ok, r.2.registry.returnLog,
        (r.2.trace.events.filter (fun e => e.kind = "return")).length)) =
      .ok (true, ["rid", "rid"], 2) := by rfl

/-- C7 (amended): run records are created by `registerSpawn` with status
`spawned` and a null output hash; each `registerReturn` call appends one
entry to the invocation log and mutates the record; and `supervisedSpawn`
invokes `registerReturn` once per execution attempt — once or twice per run,
twice exactly when the first attempt fails the gate and is retried. -/
theorem C7_register_return_per_attempt :
    (∀ (reg : Registry) rid pr an d ih nz now reg2,
      Registry.registerSpawn reg rid pr an d ih nz now = .ok reg2 →
      ∃ rec, reg2.runs = reg.runs ++ [rec] ∧ rec.status = RunStatus.spawned ∧
        rec.outputHash = none ∧ reg2.returnLog = reg.returnLog) ∧
    (∀ (reg : Registry) rid oh now reg2,
      Registry.registerReturn reg rid oh now = .ok reg2 →
      reg2.returnLog = reg.returnLog ++ [rid] ∧
      reg2.runs = reg.runs.map (fun r => if r.runId = rid then
        { r with
          outputHash := some oh
          status := RunStatus.returned
          returnedAt := some now }
        else r)) ∧
    (∀ (hmac : HmacFn) (sha : ShaFn) (secret : List Nat)
        (maxDepth maxSpawns now : Int) (mintedRunId : String)
        (nonceBytes : List Nat) (exec : Nat → Except String JsVal)
        (parentRunId : Option String) (agentName : String) (depth : Int)
        (input : List (String × JsVal)) (requiredKeys : List String)
        (minNumericCount : Int) (st : OrchState) res st2,
      supervisedSpawn hmac sha secret maxDepth maxSpawns now mintedRunId
          nonceBytes exec parentRunId agentName depth input requiredKeys
          minNumericCount st = .ok (res, st2) →
      depth < maxDepth → (st.registry.totalSpawns : Int) < maxSpawns →
      ∃ n, (n = 1 ∨ n = 2) ∧
        st2.registry.returnLog = st.registry.returnLog ++
          List.replicate n mintedRunId) := by
  refine ⟨?_, ?_, ?_⟩
  · intro reg rid pr an d ih nz now reg2 h
    obtain ⟨hruns, -, hlog, -⟩ := registerSpawn_ok h
    exact ⟨_, hruns, rfl, rfl, hlog⟩
  · intro reg rid oh now reg2 h
    obtain ⟨hruns, -, hlog⟩ := registerReturn_ok h
    exact ⟨hlog, hruns⟩
  · intro hmac sha secret maxDepth maxSpawns now mintedRunId nonceBytes exec
      parentRunId agentName depth input requiredKeys minNumericCount st res st2
      hrun hd hs
    simp only [supervisedSpawn, enforceSpawnGate] at hrun
    have hd1 : ¬ (depth ≥ maxDepth) := by omega
    have hs1 : ¬ ((st.registry.totalSpawns : Int) ≥ maxSpawns) := by omega
    rw [if_neg hd1, if_neg hs1] at hrun
    simp only at hrun
    cases hreg : st.registry.registerSpawn mintedRunId parentRunId agentName
        depth (hashOf sha (vObj (if depth = 3 then
          objSet (objSet input "nonce" (vStr (hexEncodeStr nonceBytes)))
            "runId" (vStr mintedRunId) else input))) (if depth = 3 then
          some (hexEncodeStr nonceBytes) else none) now with
    | error e => rw [hreg] at hrun; simp at hrun
    | ok reg =>
      rw [hreg] at hrun
      simp only at hrun
      obtain ⟨-, -, hlog0, -⟩ := registerSpawn_ok hreg
      cases hretry : runWithRetry
          (spawnAttemptFn hmac sha secret now exec mintedRunId agentName
            depth parentRunId)
          (spawnGateFn sha mintedRunId depth (if depth = 3 then
            some (hexEncodeStr nonceBytes) else none) requiredKeys
            minNumericCount) 2
          { registry := reg,
            trace := (st.trace.addEvent hmac secret now "spawn" depth
              agentName parentRunId (some mintedRunId)
              (some (hashOf sha (vObj (if depth = 3 then
                objSet (objSet input "nonce" (vStr (hexEncodeStr nonceBytes)))
                  "runId" (vStr mintedRunId) else input)))) none none).1,
            depth3Proofs := st.depth3Proofs } with
      | error e => rw [hretry] at hrun; simp at hrun
      | ok rs =>
        obtain ⟨rr, stq⟩ := rs
        rw [hretry] at hrun
        simp only at hrun
        have hAlog : ∀ a sA rA s2A, spawnAttemptFn hmac sha secret now exec
            mintedRunId agentName depth parentRunId a sA = .ok (rA, s2A) →
            s2A.registry.returnLog = sA.registry.returnLog ++ [mintedRunId] := by
          intro a sA rA s2A hA
          obtain ⟨output, regA, -, hregA, -, hs2A, -⟩ := spawnAttemptFn_ok hA
          obtain ⟨-, -, hlogA⟩ := registerReturn_ok hregA
          rw [hs2A]
          exact hlogA
        have hGlog : ∀ rA sA, (spawnGateFn sha mintedRunId depth
            (if depth = 3 then some (hexEncodeStr nonceBytes) else none)
            requiredKeys minNumericCount rA sA).2.registry.returnLog =
            sA.registry.returnLog := by
          intro rA sA
          rw [spawnGateFn_registry]
        obtain ⟨n, hn, hnle, hnge⟩ := runWithRetryGo_log
          (f := fun s : OrchState => s.registry.returnLog) (x := mintedRunId)
          hAlog hGlog 2 2 1 none _ rr stq hretry
        have hst2 : st2 = stq := by
          by_cases hok : rr.ok = true
          · rw [if_pos hok] at hrun
            obtain ⟨-, h2⟩ := Prod.mk.injEq .. ▸ (Except.ok.inj hrun)
            exact h2.symm
          · rw [if_neg hok] at hrun
            obtain ⟨-, h2⟩ := Prod.mk.injEq .. ▸ (Except.ok.inj hrun)
            exact h2.symm
        refine ⟨n, by omega, ?_⟩
        rw [hst2, hn]
        simp only [hlog0]

/-- Witness for C7: the creation shape at a concrete spawn, the log append
at a concrete return, and the once-per-attempt log growth on a concrete
retried run. -/
theorem C7_register_return_per_attempt_witness :
    (∃ rec, (⟨[⟨"rid", none, "agent", 1, "h", none, none,
        RunStatus.spawned, 0, none⟩], 1, []⟩ : Registry).runs =
        ([] : List RunRecord) ++ [rec] ∧
      rec.status = RunStatus.spawned ∧ rec.outputHash = none ∧
      ([] : List String) = ([] : List String)) ∧
    (∃ n, (n = 1 ∨ n = 2) ∧
      (((supervisedSpawn hmacTest shaTest [] 4 10 0 "rid" (List.replicate 16 0)
        (fun a => .ok (if a = 1 then vObj [] else vObj [("m", vNum true 1)]))
        none "worker" 2 [] ["m"] 1 emptyOrchState).toOption.map
          Prod.snd).getD emptyOrchState).registry.returnLog =
        emptyOrchState.registry.returnLog ++ List.replicate n "rid") := by
  constructor
  · have h := C7_register_return_per_attempt.1 ⟨[], 0, []⟩ "rid" none "agent" 1
      "h" none 0 _ rfl
    obtain ⟨rec, h1, h2, h3, h4⟩ := h
    exact ⟨rec, h1, h2, h3, rfl⟩
  · exact C7_register_return_per_attempt.2.2 hmacTest shaTest [] 4 10 0 "rid"
      (List.replicate 16 0)
      (fun a => .ok (if a = 1 then vObj [] else vObj [("m", vNum true 1)]))
      none "worker" 2 [] ["m"] 1 emptyOrchState
      ⟨true, none, "rid", some (vObj [("m", vNum true 1)]), none⟩ _ rfl
      (by decide) (by decide)

/-! ## Claim C1: depth-3 frontier nonce and hash proof -/

theorem hexEncode_length : ∀ bytes : List Nat, (hexEncode bytes).length = 2 * bytes.length
  | [] => rfl
  | b :: bs => by
    have ih := hexEncode_length bs
    rw [show hexEncode (b :: bs) =
      [hexDigit (b / 16 % 16), hexDigit (b % 16)] ++ hexEncode bs from rfl]
    simp only [List.length_append, List.length_cons, List.length_nil, ih,
      List.length_cons]
    omega

theorem hexVal_hexDigit : ∀ x : Fin 16, (hexVal (hexDigit x.1)).isSome = true := by decide

theorem hexEncode_all_hex : ∀ bytes : List Nat, ∀ c ∈ hexEncode bytes,
    (hexVal c).isSome = true
  | [], c => by simp [hexEncode]
  | b :: bs, c => by
    simp only [hexEncode, List.flatMap_cons, List.mem_append, List.mem_cons]
    rintro ((rfl | rfl | h) | h)
    · exact hexVal_hexDigit ⟨b / 16 % 16, Nat.mod_lt _ (by omega)⟩
    · exact hexVal_hexDigit ⟨b % 16, Nat.mod_lt _ (by omega)⟩
    · simp at h
    · exact hexEncode_all_hex bs c h

/-- `registerReturn` does not alter the nonce, input hash or depth any
record is stored with. -/
theorem getRun_after_return {reg : Registry} {rid oh : String} {now : Int}
    {reg2 : Registry} (h : reg.registerReturn rid oh now = .ok reg2)
    (rid2 : String) :
    (reg2.getRun rid2).map (fun r => (r.nonce, r.inputHash, r.depth)) =
      (reg.getRun rid2).map (fun r => (r.nonce, r.inputHash, r.depth)) := by
  obtain ⟨hruns, -, -⟩ := registerReturn_ok h
  rw [Registry.getRun, Registry.getRun, hruns, List.find?_map]
  have hp : ((fun r : RunRecord => decide (r.runId = rid2)) ∘
      (fun r : RunRecord => if r.runId = rid then
        { r with
          outputHash := some oh
          status := RunStatus.returned
          returnedAt := some now }
        else r)) = (fun r : RunRecord => decide (r.runId = rid2)) := by
    funext r
    by_cases hc : r.runId = rid <;> simp [Function.comp, hc]
  rw [hp]
  cases hfind : reg.runs.find? (fun r => decide (r.runId = rid2)) with
  | none => rfl
  | some r =>
    by_cases hc : r.runId = rid <;> simp [hc]

/-- A record registered into a registry that did not hold its id is what
`getRun` finds afterwards. -/
theorem getRun_after_spawn {reg : Registry} {rid : String} {pr : Option String}
    {an : String} {d : Int} {ih : String} {nz : Option String} {now : Int}
    {reg2 : Registry}
    (h : reg.registerSpawn rid pr an d ih nz now = .ok reg2) :
    reg2.getRun rid = some
      { runId := rid, parentRunId := orNullStr pr, agentName := an, depth := d,
        inputHash := ih, outputHash := none, nonce := nz,
        status := RunStatus.spawned, spawnedAt := now, returnedAt := none } := by
  obtain ⟨hruns, -, -, hno⟩ := registerSpawn_ok h
  rw [Registry.getRun, hruns, List.find?_append]
  have h1 : reg.runs.find? (fun r => decide (r.runId = rid)) = none := by
    rw [List.find?_eq_none]
    intro r hr hc
    have hany : reg.runs.any (fun r => decide (r.runId = rid)) = true :=
      List.any_eq_true.2 ⟨r, hr, hc⟩
    rw [Registry.hasRun] at hno
    rw [hany] at hno
    exact absurd hno (by simp)
  rw [h1]
  simp

theorem verifyDepth3Proof_snd (sha : ShaFn) (proofs : List Depth3Proof)
    (runId : String) (output : JsVal) (nonce : String) :
    (verifyDepth3Proof sha proofs runId output nonce).2 = proofs ∨
    (verifyDepth3Proof sha proofs runId output nonce).2 =
      proofs ++ [⟨runId, nonce, sha256Hex sha (nonce ++ ":" ++ runId)⟩] := by
  simp only [verifyDepth3Proof]
  by_cases h0 : nonce = ""
  · rw [if_pos h0]
    exact Or.inl rfl
  · rw [if_neg h0]
    by_cases h1 : ¬ (((output.get "hashProof").map truthy).getD false = true)
    · rw [if_pos h1]
      exact Or.inl rfl
    · rw [if_neg h1]
      by_cases h2 : output.get "hashProof" =
          some (vStr (sha256Hex sha (nonce ++ ":" ++ runId)))
      · rw [if_pos h2]
        exact Or.inr rfl
      · rw [if_neg h2]
        exact Or.inl rfl

/-- When the depth-3 gate accepts, the output's `hashProof` is exactly the
string `sha256(nonce + ":" + runId)`. -/
theorem spawnGateFn_depth3_ok {sha : ShaFn} {runId nz : String}
    {rk : List String} {mnc : Int} {out : String × JsVal} {s : OrchState}
    (hok : (spawnGateFn sha runId 3 (some nz) rk mnc out s).1.ok = true) :
    out.2.get "hashProof" = some (vStr (sha256Hex sha (nz ++ ":" ++ runId))) := by
  simp only [spawnGateFn] at hok
  by_cases hq : (qualityGate out.2 rk mnc).ok = true
  · rw [if_pos ⟨trivial, hq⟩] at hok
    simp only [Option.getD_some] at hok
    simp only [verifyDepth3Proof] at hok
    by_cases h0 : nz = ""
    · rw [if_pos h0] at hok
      exact absurd hok (by simp)
    · rw [if_neg h0] at hok
      by_cases h1 : ¬ (((out.2.get "hashProof").map truthy).getD false = true)
      · rw [if_pos h1] at hok
        exact absurd hok (by simp)
      · rw [if_neg h1] at hok
        by_cases h2 : out.2.get "hashProof" =
            some (vStr (sha256Hex sha (nz ++ ":" ++ runId)))
        · exact h2
        · rw [if_neg h2] at hok
          exact absurd hok (by simp)
  · rw [if_neg (fun hc => hq hc.2)] at hok
    exact absurd hok hq

/-- The verified-proofs list only ever grows by entries satisfying the hash
equation. -/
theorem spawnGateFn_proofs_growth (sha : ShaFn) (runId : String) (depth : Int)
    (nonce : Option String) (rk : List String) (mnc : Int)
    (out : String × JsVal) (s : OrchState) :
    (spawnGateFn sha runId depth nonce rk mnc out s).2.depth3Proofs = s.depth3Proofs ∨
    (spawnGateFn sha runId depth nonce rk mnc out s).2.depth3Proofs =
      s.depth3Proofs ++ [⟨runId, nonce.getD "",
        sha256Hex sha ((nonce.getD "") ++ ":" ++ runId)⟩] := by
  simp only [spawnGateFn]
  by_cases hc : depth = 3 ∧ (qualityGate out.2 rk mnc).ok = true
  · rw [if_pos hc]
    rcases verifyDepth3Proof_snd sha s.depth3Proofs runId out.2 (nonce.getD "") with h | h
    · exact Or.inl h
    · exact Or.inr h
  · rw [if_neg hc]
    exact Or.inl rfl

/-- C1 counterexample: with `maxDepth = 5` a spawn at the frontier depth
`maxDepth - 1 = 4` passes the gate and succeeds, yet no nonce is generated
or stored — the source keys the nonce to the literal depth 3, not to
`maxDepth - 1`. -/
theorem C1_counterexample :
    (supervisedSpawn hmacTest shaTest [] 5 10 0 "rid" (List.replicate 16 0)
        (fun _ => .ok (vObj [("m", vNum true 1)]))
        none "worker" 4 [] [] 0 emptyOrchState).map
      (fun r => (r.1.ok, (r.2.registry.getRun "rid").map (fun rec => rec.nonce))) =
      .ok (true, some none) := by rfl

/-- C1 (amended): for every supervised spawn at depth 3 (the frontier under
the default `maxDepth = 4`) that passes the spawn gate, the orchestrator
draws a 16-byte nonce (32 hex characters), injects the nonce and the minted
run id into the input before the input hash is computed, stores the nonce in
the registry record, accepts the output only when `hashProof` equals
`sha256(nonce + ":" + runId)`, and every entry added to the verified
depth-3 proof list satisfies that equation. -/
theorem C1_depth3_frontier_proof (hmac : HmacFn) (sha : ShaFn)
    (secret : List Nat) (maxDepth maxSpawns now : Int) (mintedRunId : String)
    (nonceBytes : List Nat) (exec : Nat → Except String JsVal)
    (parentRunId : Option String) (agentName : String)
    (input : List (String × JsVal)) (requiredKeys : List String)
    (minNumericCount : Int) (st : OrchState) (res : SupervisedSpawnResult)
    (st2 : OrchState) (hlen : nonceBytes.length = 16)
    (hrun : supervisedSpawn hmac sha secret maxDepth maxSpawns now mintedRunId
      nonceBytes exec parentRunId agentName 3 input requiredKeys
      minNumericCount st = .ok (res, st2))
    (hd : (3 : Int) < maxDepth)
    (hs : (st.registry.totalSpawns : Int) < maxSpawns) :
    ((hexEncodeStr nonceBytes).length = 32 ∧
      ∀ c ∈ (hexEncodeStr nonceBytes).data, (hexVal c).isSome = true) ∧
    (st2.registry.getRun mintedRunId).map
        (fun r => (r.nonce, r.inputHash, r.depth)) =
      some (some (hexEncodeStr nonceBytes),
        hashOf sha (vObj (objSet (objSet input "nonce"
          (vStr (hexEncodeStr nonceBytes))) "runId" (vStr mintedRunId))), 3) ∧
    (res.ok = true → ∃ out, res.output = some out ∧
      out.get "hashProof" = some (vStr (sha256Hex sha
        (hexEncodeStr nonceBytes ++ ":" ++ mintedRunId)))) ∧
    (∀ pf ∈ st2.depth3Proofs, pf ∈ st.depth3Proofs ∨
      pf.hashProof = sha256Hex sha (pf.nonce ++ ":" ++ pf.runId)) := by
  have hhex : ((hexEncodeStr nonceBytes).length = 32 ∧
      ∀ c ∈ (hexEncodeStr nonceBytes).data, (hexVal c).isSome = true) := by
    constructor
    · show (hexEncode nonceBytes).length = 32
      rw [hexEncode_length, hlen]
    · exact hexEncode_all_hex nonceBytes
  simp only [supervisedSpawn, enforceSpawnGate] at hrun
  have hd1 : ¬ ((3 : Int) ≥ maxDepth) := by omega
  have hs1 : ¬ ((st.registry.totalSpawns : Int) ≥ maxSpawns) := by omega
  rw [if_neg hd1, if_neg hs1] at hrun
  simp only [eq_self_iff_true, if_true] at hrun
  cases hreg : st.registry.registerSpawn mintedRunId parentRunId agentName 3
      (hashOf sha (vObj (objSet (objSet input "nonce"
        (vStr (hexEncodeStr nonceBytes))) "runId" (vStr mintedRunId))))
      (some (hexEncodeStr nonceBytes)) now with
  | error e => rw [hreg] at hrun; simp at hrun
  | ok reg =>
    rw [hreg] at hrun
    simp only at hrun
    cases hretry : runWithRetry
        (spawnAttemptFn hmac sha secret now exec mintedRunId agentName 3
          parentRunId)
        (spawnGateFn sha mintedRunId 3 (some (hexEncodeStr nonceBytes))
          requiredKeys minNumericCount) 2
        { registry := reg,
          trace := (st.trace.addEvent hmac secret now "spawn" 3 agentName
            parentRunId (some mintedRunId)
            (some (hashOf sha (vObj (objSet (objSet input "nonce"
              (vStr (hexEncodeStr nonceBytes))) "runId"
              (vStr mintedRunId))))) none none).1,
          depth3Proofs := st.depth3Proofs } with
    | error e => rw [hretry] at hrun; simp at hrun
    | ok rs =>
      obtain ⟨rr, stq⟩ := rs
      rw [hretry] at hrun
      simp only at hrun
      have hrec : ∀ rid2 : String,
          (reg.getRun mintedRunId).map (fun r => (r.nonce, r.inputHash, r.depth)) =
          some (some (hexEncodeStr nonceBytes),
            hashOf sha (vObj (objSet (objSet input "nonce"
              (vStr (hexEncodeStr nonceBytes))) "runId" (vStr mintedRunId))), 3) := by
        intro _
        rw [getRun_after_spawn hreg]
        rfl
      have hP1 : (stq.registry.getRun mintedRunId).map
          (fun r => (r.nonce, r.inputHash, r.depth)) =
          some (some (hexEncodeStr nonceBytes),
            hashOf sha (vObj (objSet (objSet input "nonce"
              (vStr (hexEncodeStr nonceBytes))) "runId" (vStr mintedRunId))), 3) := by
        refine runWithRetryGo_preserve
          (P := fun s : OrchState => (s.registry.getRun mintedRunId).map
            (fun r => (r.nonce, r.inputHash, r.depth)) =
            some (some (hexEncodeStr nonceBytes),
              hashOf sha (vObj (objSet (objSet input "nonce"
                (vStr (hexEncodeStr nonceBytes))) "runId" (vStr mintedRunId))), 3))
          ?_ ?_ 2 2 1 none _ rr stq hretry (hrec "")
        · intro a sA rA s2A hA hPA
          obtain ⟨output, regA, -, hregA, -, hs2A, -⟩ := spawnAttemptFn_ok hA
          have := getRun_after_return hregA mintedRunId
          rw [hs2A, this]
          exact hPA
        · intro rA sA hPA
          rw [spawnGateFn_registry]
          exact hPA
      have hP2 : ∀ pf ∈ stq.depth3Proofs, pf ∈ st.depth3Proofs ∨
          pf.hashProof = sha256Hex sha (pf.nonce ++ ":" ++ pf.runId) := by
        refine runWithRetryGo_preserve
          (P := fun s : OrchState => ∀ pf ∈ s.depth3Proofs,
            pf ∈ st.depth3Proofs ∨
            pf.hashProof = sha256Hex sha (pf.nonce ++ ":" ++ pf.runId))
          ?_ ?_ 2 2 1 none _ rr stq hretry (fun pf hpf => Or.inl hpf)
        · intro a sA rA s2A hA hPA
          obtain ⟨output, regA, -, -, -, -, hproofs⟩ := spawnAttemptFn_ok hA
          rw [hproofs]
          exact hPA
        · intro rA sA hPA
          rcases spawnGateFn_proofs_growth sha mintedRunId 3
              (some (hexEncodeStr nonceBytes)) requiredKeys minNumericCount
              rA sA with h | h
          · rw [h]
            exact hPA
          · rw [h]
            intro pf hpf
            rcases List.mem_append.1 hpf with hpf | hpf
            · exact hPA pf hpf
            · right
              rw [List.mem_singleton.1 hpf]
      by_cases hok : rr.ok = true
      · rw [if_pos hok] at hrun
        obtain ⟨h1, h2⟩ := Prod.mk.injEq .. ▸ (Except.ok.inj hrun)
        refine ⟨hhex, by rw [← h2]; exact hP1, ?_, by rw [← h2]; exact hP2⟩
        intro _hok
        obtain ⟨resX, s1, hresX, hgok, -⟩ :=
          runWithRetryGo_ok_result 2 2 1 none _ rr stq hretry hok
        refine ⟨resX.2, ?_, spawnGateFn_depth3_ok hgok⟩
        rw [← h1]
        simp [hresX]
      · rw [if_neg hok] at hrun
        obtain ⟨h1, h2⟩ := Prod.mk.injEq .. ▸ (Except.ok.inj hrun)
        refine ⟨hhex, by rw [← h2]; exact hP1, ?_, by rw [← h2]; exact hP2⟩
        intro hro
        rw [← h1] at hro
        simp at hro

/-- Nonce byte oracle used by the C1 witness. -/
def c1nonce : List Nat := List.replicate 16 171

/-- Execution oracle for the C1 witness: a subagent that answers with the
correct depth-3 hash proof. -/
def c1exec : Nat → Except String JsVal := fun _ =>
  .ok (vObj [("hashProof", vStr (sha256Hex shaTest
    (hexEncodeStr c1nonce ++ ":" ++ "rid"))), ("timestamp", vNum true 5)])

/-- The concrete depth-3 supervised spawn of the C1 witness. -/
def c1run : Except String (SupervisedSpawnResult × OrchState) :=
  supervisedSpawn hmacTest shaTest [] 4 10 0 "rid" c1nonce c1exec none "d3" 3
    [("depth", vNum true 3)] ["hashProof", "timestamp"] 1 emptyOrchState

/-- The result component of `c1run`. -/
def c1res : SupervisedSpawnResult :=
  (c1run.toOption.map Prod.fst).getD ⟨false, none, "", none, none⟩

/-- The state component of `c1run`. -/
def c1st2 : OrchState := (c1run.toOption.map Prod.snd).getD emptyOrchState

/-- Witness for C1 at a concrete depth-3 spawn with the default
configuration. -/
theorem C1_depth3_frontier_proof_witness :
    ((hexEncodeStr c1nonce).length = 32 ∧
      ∀ c ∈ (hexEncodeStr c1nonce).data, (hexVal c).isSome = true) ∧
    (c1st2.registry.getRun "rid").map
        (fun r => (r.nonce, r.inputHash, r.depth)) =
      some (some (hexEncodeStr c1nonce),
        hashOf shaTest (vObj (objSet (objSet [("depth", vNum true 3)] "nonce"
          (vStr (hexEncodeStr c1nonce))) "runId" (vStr "rid"))), 3) ∧
    (c1res.ok = true → ∃ out, c1res.output = some out ∧
      out.get "hashProof" = some (vStr (sha256Hex shaTest
        (hexEncodeStr c1nonce ++ ":" ++ "rid")))) ∧
    (∀ pf ∈ c1st2.depth3Proofs, pf ∈ emptyOrchState.depth3Proofs ∨
      pf.hashProof = sha256Hex shaTest (pf.nonce ++ ":" ++ pf.runId)) :=
  C1_depth3_frontier_proof hmacTest shaTest [] 4 10 0 "rid" c1nonce c1exec
    none "d3" [("depth", vNum true 3)] ["hashProof", "timestamp"] 1
    emptyOrchState c1res c1st2 (by decide) rfl (by decide) (by decide)

/-! ## Trace validation (`trace-validation.ts`) -/

/-- An aggregated validation error; absent fields are `none`. -/
structure ValidationError where
  eventId : Nat
  reason : String
  kind : Option String
  childRunId : Option String
  expected : Option String
  actual : Option String
deriving Repr, DecidableEq

/-- The result record of `validateTrace`. -/
structure ValidationResult where
  ok : Bool
  errors : List ValidationError
  eventsChecked : Nat
deriving Repr, DecidableEq

/-- The `bad_signature` error block of the `validateTrace` loop body. -/
def sigErrsOf (ev : TraceEvent) (okSig : Bool) : List ValidationError :=
  if okSig = false then
    [{ eventId := ev.eventId, reason := "bad_signature", kind := some ev.kind,
       childRunId := none, expected := none, actual := none }]
  else []

/-- The `child_run_missing_in_registry` error block of the loop body:
fires when `ev.childRunId` is truthy but unknown to the registry. -/
def childErrsOf (registry : Registry) (ev : TraceEvent) :
    List ValidationError :=
  match orNullStr ev.childRunId with
  | some cid =>
    if registry.hasRun cid = false then
      [{ eventId := ev.eventId, reason := "child_run_missing_in_registry",
         kind := none, childRunId := some cid, expected := none,
         actual := none }]
    else []
  | none => []

/-- The `output_hash_mismatch` error block of the loop body: fires on a
`return` event with a truthy `childRunId` whose registry record exists and
whose stored `outputHash` and the event's are both truthy yet differ. -/
def hashErrsOf (registry : Registry) (ev : TraceEvent) :
    List ValidationError :=
  if ev.kind = "return" then
    match orNullStr ev.childRunId with
    | some cid =>
      match registry.getRun cid with
      | some rec =>
        match orNullStr rec.outputHash, orNullStr ev.outputHash with
        | some ro, some eo =>
          if ro ≠ eo then
            [{ eventId := ev.eventId, reason := "output_hash_mismatch",
               kind := none, childRunId := some cid, expected := some ro,
               actual := some eo }]
          else []
        | _, _ => []
      | none => []
    | none => []
  else []

/-- The per-event body of the `validateTrace` loop: reconstruct the
canonical payload (normalizing falsy fields with `|| null`), verify the
signature (which throws on a length mismatch), then collect the three
error blocks in push order. -/
def validateEvent (hmac : HmacFn) (secret : List Nat) (registry : Registry)
    (ev : TraceEvent) : Except String (List ValidationError) :=
  let payload := eventPayload ev.eventId ev.ts ev.kind ev.depth ev.agentName
    (orNullStr ev.parentRunId) (orNullStr ev.childRunId)
    (orNullStr ev.inputHash) (orNullStr ev.outputHash) (orNullStr ev.note)
  match verifyEventSig hmac secret payload ev.supervisorSig with
  | .error e => .error e
  | .ok okSig =>
    .ok (sigErrsOf ev okSig ++ childErrsOf registry ev ++ hashErrsOf registry ev)

/-- The `validateTrace` loop over all events, aggregating errors in order;
an exception from any event propagates. -/
def validateTraceGo (hmac : HmacFn) (secret : List Nat) (registry : Registry) :
    List TraceEvent → Except String (List ValidationError)
  | [] => .ok []
  | ev :: evs =>
    match validateEvent hmac secret registry ev with
    | .error e => .error e
    | .ok errs =>
      match validateTraceGo hmac secret registry evs with
      | .error e => .error e
      | .ok rest => .ok (errs ++ rest)

/-- Embeds `validateTrace`: aggregate the per-event errors; `ok` iff none. -/
def validateTrace (hmac : HmacFn) (secret : List Nat)
    (traceEvents : List TraceEvent) (registry : Registry) :
    Except String ValidationResult :=
  match validateTraceGo hmac secret registry traceEvents with
  | .error e => .error e
  | .ok errors => .ok ⟨errors.isEmpty, errors, traceEvents.length⟩

theorem sigErrsOf_iff (ev : TraceEvent) (okSig : Bool) (r : String) :
    (∃ e ∈ sigErrsOf ev okSig, e.reason = r) ↔
      okSig = false ∧ r = "bad_signature" := by
  cases okSig <;> simp [sigErrsOf, eq_comm]

theorem childErrsOf_iff (registry : Registry) (ev : TraceEvent) (r : String) :
    (∃ e ∈ childErrsOf registry ev, e.reason = r) ↔
      (∃ cid, orNullStr ev.childRunId = some cid ∧
        registry.hasRun cid = false) ∧ r = "child_run_missing_in_registry" := by
  cases hoc : orNullStr ev.childRunId with
  | none => simp [childErrsOf, hoc]
  | some cid =>
    by_cases hh : registry.hasRun cid = false
    · have hce : childErrsOf registry ev =
          [⟨ev.eventId, "child_run_missing_in_registry", none, some cid,
            none, none⟩] := by
        simp only [childErrsOf, hoc]
        rw [if_pos hh]
      constructor
      · rintro ⟨e, he, hr⟩
        rw [hce, List.mem_singleton] at he
        subst he
        exact ⟨⟨cid, rfl, hh⟩, hr.symm⟩
      · rintro ⟨_, hr⟩
        subst hr
        refine ⟨⟨ev.eventId, "child_run_missing_in_registry", none, some cid,
          none, none⟩, ?_, rfl⟩
        rw [hce]
        exact List.mem_singleton.mpr rfl
    · have hce : childErrsOf registry ev = [] := by
        simp only [childErrsOf, hoc]
        rw [if_neg hh]
      constructor
      · rintro ⟨e, he, hr⟩
        rw [hce] at he
        cases he
      · rintro ⟨⟨cid2, hc2, hh2⟩, hr⟩
        injection hc2 with hc2
        subst hc2
        exact absurd hh2 hh

theorem hashErrsOf_iff (registry : Registry) (ev : TraceEvent) (r : String) :
    (∃ e ∈ hashErrsOf registry ev, e.reason = r) ↔
      (ev.kind = "return" ∧ ∃ cid rec ro eo,
        orNullStr ev.childRunId = some cid ∧
        registry.getRun cid = some rec ∧
        orNullStr rec.outputHash = some ro ∧
        orNullStr ev.outputHash = some eo ∧ ro ≠ eo) ∧
      r = "output_hash_mismatch" := by
  by_cases hk : ev.kind = "return"
  · cases hoc : orNullStr ev.childRunId with
    | none => simp [hashErrsOf, hk, hoc]
    | some cid =>
      cases hgr : registry.getRun cid with
      | none => simp [hashErrsOf, hk, hoc, hgr]
      | some rec =>
        cases hro : orNullStr rec.outputHash with
        | none => simp [hashErrsOf, hk, hoc, hgr, hro]
        | some ro =>
          cases heo : orNullStr ev.outputHash with
          | none => simp [hashErrsOf, hk, hoc, hgr, hro, heo]
          | some eo =>
            by_cases hne : ro = eo
            · have hhe : hashErrsOf registry ev = [] := by
                simp only [hashErrsOf, hk, if_true, hoc, hgr, hro, heo]
                rw [if_neg (fun h => h hne)]
              constructor
              · rintro ⟨e, he, _⟩
                rw [hhe] at he
                cases he
              · rintro ⟨⟨_, cid2, rec2, ro2, eo2, hc2, hg2, hr2, he2, hne2⟩, _⟩
                injection hc2 with hc2; subst hc2
                rw [hgr] at hg2; injection hg2 with hg2; subst hg2
                rw [hro] at hr2; injection hr2 with hr2; subst hr2
                injection he2 with he2; subst he2
                exact absurd hne hne2
            · have hhe : hashErrsOf registry ev =
                  [⟨ev.eventId, "output_hash_mismatch", none, some cid,
                    some ro, some eo⟩] := by
                simp only [hashErrsOf, hk, if_true, hoc, hgr, hro, heo]
                rw [if_pos hne]
              constructor
              · rintro ⟨e, he, hr⟩
                rw [hhe, List.mem_singleton] at he
                subst he
                exact ⟨⟨hk, cid, rec, ro, eo, rfl, hgr, hro, rfl, hne⟩, hr.symm⟩
              · rintro ⟨_, hr⟩
                subst hr
                refine ⟨⟨ev.eventId, "output_hash_mismatch", none, some cid,
                  some ro, some eo⟩, ?_, rfl⟩
                rw [hhe]
                exact List.mem_singleton.mpr rfl
  · simp [hashErrsOf, hk]

theorem reason_mem_cat (A B C : List ValidationError) (r : String) :
    (∃ e ∈ A ++ B ++ C, e.reason = r) ↔
      (∃ e ∈ A, e.reason = r) ∨ (∃ e ∈ B, e.reason = r) ∨
      (∃ e ∈ C, e.reason = r) := by
  constructor
  · rintro ⟨e, he, hr⟩
    rcases List.mem_append.mp he with he | he
    · rcases List.mem_append.mp he with he | he
      · exact Or.inl ⟨e, he, hr⟩
      · exact Or.inr (Or.inl ⟨e, he, hr⟩)
    · exact Or.inr (Or.inr ⟨e, he, hr⟩)
  · rintro (⟨e, he, hr⟩ | ⟨e, he, hr⟩ | ⟨e, he, hr⟩)
    · exact ⟨e, List.mem_append.mpr (Or.inl (List.mem_append.mpr (Or.inl he))), hr⟩
    · exact ⟨e, List.mem_append.mpr (Or.inl (List.mem_append.mpr (Or.inr he))), hr⟩
    · exact ⟨e, List.mem_append.mpr (Or.inr he), hr⟩

/-- Membership in the aggregated error list: every event's errors occur
contiguously, in order. -/
theorem validateTraceGo_mem (hmac : HmacFn) (secret : List Nat)
    (registry : Registry) (events : List TraceEvent)
    (E : List ValidationError)
    (h : validateTraceGo hmac secret registry events = .ok E) :
    ∀ ev ∈ events, ∃ errs pre post,
      validateEvent hmac secret registry ev = .ok errs ∧
      E = pre ++ errs ++ post := by
  induction events generalizing E with
  | nil => intro ev hev; cases hev
  | cons e0 evs ih =>
    intro ev hev
    rw [validateTraceGo] at h
    cases hve : validateEvent hmac secret registry e0 with
    | error msg => rw [hve] at h; cases h
    | ok errs0 =>
      rw [hve] at h
      cases hgo : validateTraceGo hmac secret registry evs with
      | error msg => rw [hgo] at h; cases h
      | ok rest =>
        rw [hgo] at h
        injection h with h
        rcases List.mem_cons.mp hev with hev0 | hevt
        · subst hev0
          exact ⟨errs0, [], rest, hve, h.symm⟩
        · obtain ⟨errs, pre, post, hv, hE⟩ := ih rest hgo ev hevt
          exact ⟨errs, errs0 ++ pre, post, hv, by rw [← h, hE]; simp⟩


/-- A run record whose stored output hash is `"aaa"`. -/
def c3registry : Registry :=
  ⟨[⟨"r1", none, "w", 1, "h", some "aaa", none, RunStatus.returned, 0,
    some 0⟩], 1, []⟩

/-- A correctly signed `return` event for that run carrying no
`outputHash`. -/
def c3event : TraceEvent :=
  ⟨1, 0, "return", 1, "w", none, some "r1", none, none, none,
    hexEncodeStr (List.replicate 32 0)⟩

/-- **C3, counterexample.**  A `return` event whose `outputHash` (null)
differs from the registry record's stored hash `"aaa"` validates with
`ok = true` and no errors: the mismatch check is skipped whenever either
hash is falsy, so "every return event whose outputHash differs from the
registry's stored outputHash produces an output_hash_mismatch error" fails. -/
theorem C3_counterexample :
    validateTrace hmacTest [] [c3event] c3registry =
      .ok ⟨true, [], 1⟩ ∧
    (c3registry.getRun "r1").map (fun rec => rec.outputHash) =
      some (some "aaa") ∧
    c3event.kind = "return" ∧ c3event.childRunId = some "r1" ∧
    c3event.outputHash ≠ some "aaa" := by
  refine ⟨rfl, rfl, rfl, rfl, by simp [c3event]⟩


/-- **C3** (amended).  For a trace validation that completes without a
signature-length exception: `ok` holds iff the aggregated error list is
empty, every event is checked, each event's errors appear contiguously in
the aggregate, and per event: `bad_signature` is reported iff its signature
verifies false; `child_run_missing_in_registry` iff its `childRunId` is
truthy and unknown to the registry; `output_hash_mismatch` iff it is a
`return` event with a truthy `childRunId` whose registry record exists and
whose stored `outputHash` and the event's are both truthy yet differ — in
particular no mismatch is reported when either hash is null or empty. -/
theorem C3_validate_trace (hmac : HmacFn) (secret : List Nat)
    (events : List TraceEvent) (registry : Registry) (r : ValidationResult)
    (h : validateTrace hmac secret events registry = .ok r) :
    (r.ok = true ↔ r.errors = []) ∧
    r.eventsChecked = events.length ∧
    (∀ ev ∈ events, ∃ errs pre post,
      validateEvent hmac secret registry ev = .ok errs ∧
      r.errors = pre ++ errs ++ post ∧
      ((∃ e ∈ errs, e.reason = "bad_signature") ↔
        verifyEventSig hmac secret (eventPayload ev.eventId ev.ts ev.kind
          ev.depth ev.agentName (orNullStr ev.parentRunId)
          (orNullStr ev.childRunId) (orNullStr ev.inputHash)
          (orNullStr ev.outputHash) (orNullStr ev.note)) ev.supervisorSig =
          .ok false) ∧
      ((∃ e ∈ errs, e.reason = "child_run_missing_in_registry") ↔
        ∃ cid, orNullStr ev.childRunId = some cid ∧
          registry.hasRun cid = false) ∧
      ((∃ e ∈ errs, e.reason = "output_hash_mismatch") ↔
        ev.kind = "return" ∧ ∃ cid rec ro eo,
          orNullStr ev.childRunId = some cid ∧
          registry.getRun cid = some rec ∧
          orNullStr rec.outputHash = some ro ∧
          orNullStr ev.outputHash = some eo ∧ ro ≠ eo)) := by
  rw [validateTrace] at h
  cases hgo : validateTraceGo hmac secret registry events with
  | error msg => rw [hgo] at h; cases h
  | ok E =>
    rw [hgo] at h
    injection h with h
    subst h
    refine ⟨by simp [List.isEmpty_iff], rfl, ?_⟩
    intro ev hev
    obtain ⟨errs, pre, post, hve, hE⟩ :=
      validateTraceGo_mem hmac secret registry events E hgo ev hev
    simp only [validateEvent] at hve
    cases hv : verifyEventSig hmac secret (eventPayload ev.eventId ev.ts
        ev.kind ev.depth ev.agentName (orNullStr ev.parentRunId)
        (orNullStr ev.childRunId) (orNullStr ev.inputHash)
        (orNullStr ev.outputHash) (orNullStr ev.note)) ev.supervisorSig with
    | error msg => rw [hv] at hve; cases hve
    | ok okSig =>
      rw [hv] at hve
      injection hve with hve
      refine ⟨errs, pre, post, ?_, hE, ?_, ?_, ?_⟩
      · simp only [validateEvent, hv]
        rw [hve]
      · rw [← hve, reason_mem_cat, sigErrsOf_iff, childErrsOf_iff,
          hashErrsOf_iff]
        constructor
        · rintro (⟨hf, _⟩ | ⟨_, hbad⟩ | ⟨_, hbad⟩)
          · rw [hf]
          · exact absurd hbad (by decide)
          · exact absurd hbad (by decide)
        · intro hfalse
          injection hfalse with hfalse
          exact Or.inl ⟨hfalse, rfl⟩
      · rw [← hve, reason_mem_cat, sigErrsOf_iff, childErrsOf_iff,
          hashErrsOf_iff]
        constructor
        · rintro (⟨_, hbad⟩ | ⟨hc, _⟩ | ⟨_, hbad⟩)
          · exact absurd hbad (by decide)
          · exact hc
          · exact absurd hbad (by decide)
        · intro hc
          exact Or.inr (Or.inl ⟨hc, rfl⟩)
      · rw [← hve, reason_mem_cat, sigErrsOf_iff, childErrsOf_iff,
          hashErrsOf_iff]
        constructor
        · rintro (⟨_, hbad⟩ | ⟨_, hbad⟩ | ⟨hh2, _⟩)
          · exact absurd hbad (by decide)
          · exact absurd hbad (by decide)
          · exact hh2
        · intro hh2
          exact Or.inr (Or.inr ⟨hh2, rfl⟩)


/-- **C3, witness.**  The amended theorem applied to a concrete one-event
trace that validates cleanly. -/
theorem C3_validate_trace_witness :
    ((ValidationResult.mk true [] 1).ok = true ↔
      (ValidationResult.mk true [] 1).errors = []) ∧
    (ValidationResult.mk true [] 1).eventsChecked = [c3event].length ∧
    (∀ ev ∈ [c3event], ∃ errs pre post,
      validateEvent hmacTest [] c3registry ev = .ok errs ∧
      (ValidationResult.mk true [] 1).errors = pre ++ errs ++ post ∧
      ((∃ e ∈ errs, e.reason = "bad_signature") ↔
        verifyEventSig hmacTest [] (eventPayload ev.eventId ev.ts ev.kind
          ev.depth ev.agentName (orNullStr ev.parentRunId)
          (orNullStr ev.childRunId) (orNullStr ev.inputHash)
          (orNullStr ev.outputHash) (orNullStr ev.note)) ev.supervisorSig =
          .ok false) ∧
      ((∃ e ∈ errs, e.reason = "child_run_missing_in_registry") ↔
        ∃ cid, orNullStr ev.childRunId = some cid ∧
          c3registry.hasRun cid = false) ∧
      ((∃ e ∈ errs, e.reason = "output_hash_mismatch") ↔
        ev.kind = "return" ∧ ∃ cid rec ro eo,
          orNullStr ev.childRunId = some cid ∧
          c3registry.getRun cid = some rec ∧
          orNullStr rec.outputHash = some ro ∧
          orNullStr ev.outputHash = some eo ∧ ro ≠ eo)) :=
  C3_validate_trace hmacTest [] [c3event] c3registry ⟨true, [], 1⟩ rfl

/-- Hex decoding inverts hex encoding up to length. -/
theorem hexDecode_hexEncode_length : ∀ bytes : List Nat,
    (hexDecode (hexEncode bytes)).length = bytes.length
  | [] => rfl
  | b :: bs => by
    have ih := hexDecode_hexEncode_length bs
    rw [show hexEncode (b :: bs) =
      hexDigit (b / 16 % 16) :: hexDigit (b % 16) :: hexEncode bs from rfl,
      hexDecode]
    have h1 := hexVal_hexDigit ⟨b / 16 % 16, Nat.mod_lt _ (by omega)⟩
    have h2 := hexVal_hexDigit ⟨b % 16, Nat.mod_lt _ (by omega)⟩
    cases hv1 : hexVal (hexDigit (b / 16 % 16)) with
    | none => rw [hv1] at h1; cases h1
    | some x =>
      cases hv2 : hexVal (hexDigit (b % 16)) with
      | none => rw [hv2] at h2; cases h2
      | some y => simp [ih]

/-- `verifyEventSig` settles to a boolean exactly on signatures whose hex
decoding has the HMAC's 32-byte length. -/
theorem verifyEventSig_ok_iff (hmac : HmacFn) (secret : List Nat)
    (hlen : ∀ s m, (hmac s m).length = 32) (payload : JsVal) (sig : String) :
    ((∃ b, verifyEventSig hmac secret payload sig = .ok b) ↔
      (hexDecode sig.data).length = 32) ∧
    ((hexDecode sig.data).length ≠ 32 →
      verifyEventSig hmac secret payload sig =
        .error "Input buffers must have the same byte length") := by
  have hexp : (hexDecode (signEvent hmac secret payload).data).length = 32 := by
    rw [signEvent, hmacHex, hexEncodeStr]
    show (hexDecode (hexEncode (hmac secret
      (stableStringify payload).data))).length = 32
    rw [hexDecode_hexEncode_length, hlen]
  constructor
  · constructor
    · rintro ⟨b, hb⟩
      rw [verifyEventSig, timingSafeEqual] at hb
      by_cases hl : (hexDecode (signEvent hmac secret payload).data).length =
          (hexDecode sig.data).length
      · rw [← hl, hexp]
      · rw [if_neg hl] at hb; cases hb
    · intro hl
      refine ⟨hexDecode (signEvent hmac secret payload).data ==
        hexDecode sig.data, ?_⟩
      rw [verifyEventSig, timingSafeEqual, if_pos (by rw [hexp, hl])]
  · intro hl
    rw [verifyEventSig, timingSafeEqual, if_neg (by rw [hexp]; exact fun h => hl h.symm)]


/-- A tampered-length signature makes the per-event check throw. -/
theorem validateEvent_error_of_badlen (hmac : HmacFn) (secret : List Nat)
    (registry : Registry) (ev : TraceEvent)
    (hlen : ∀ s m, (hmac s m).length = 32)
    (h : (hexDecode ev.supervisorSig.data).length ≠ 32) :
    validateEvent hmac secret registry ev =
      .error "Input buffers must have the same byte length" := by
  have herr := (verifyEventSig_ok_iff hmac secret hlen (eventPayload ev.eventId
    ev.ts ev.kind ev.depth ev.agentName (orNullStr ev.parentRunId)
    (orNullStr ev.childRunId) (orNullStr ev.inputHash)
    (orNullStr ev.outputHash) (orNullStr ev.note)) ev.supervisorSig).2 h
  simp only [validateEvent, herr]

/-- A 32-byte signature decoding lets the per-event check settle. -/
theorem validateEvent_ok_of_goodlen (hmac : HmacFn) (secret : List Nat)
    (registry : Registry) (ev : TraceEvent)
    (hlen : ∀ s m, (hmac s m).length = 32)
    (h : (hexDecode ev.supervisorSig.data).length = 32) :
    ∃ errs, validateEvent hmac secret registry ev = .ok errs := by
  obtain ⟨b, hb⟩ := ((verifyEventSig_ok_iff hmac secret hlen (eventPayload
    ev.eventId ev.ts ev.kind ev.depth ev.agentName (orNullStr ev.parentRunId)
    (orNullStr ev.childRunId) (orNullStr ev.inputHash)
    (orNullStr ev.outputHash) (orNullStr ev.note)) ev.supervisorSig).1).mpr h
  exact ⟨sigErrsOf ev b ++ childErrsOf registry ev ++ hashErrsOf registry ev,
    by simp only [validateEvent, hb]⟩

/-- **C10.**  `verifyEventSig` returns a boolean exactly when the supplied
signature hex-decodes to the 32-byte length of the expected HMAC digest;
any other decoded length propagates the `timingSafeEqual` length exception,
and `validateTrace` over a trace containing such a signature raises the
exception instead of reporting `bad_signature`. -/
theorem C10_sig_length_exception (hmac : HmacFn) (secret : List Nat)
    (hlen : ∀ s m, (hmac s m).length = 32) :
    (∀ payload sig,
      ((∃ b, verifyEventSig hmac secret payload sig = .ok b) ↔
        (hexDecode sig.data).length = 32) ∧
      ((hexDecode sig.data).length ≠ 32 →
        verifyEventSig hmac secret payload sig =
          .error "Input buffers must have the same byte length")) ∧
    (∀ events registry,
      (∃ ev ∈ events, (hexDecode ev.supervisorSig.data).length ≠ 32) →
      ∃ msg, validateTrace hmac secret events registry = .error msg) := by
  refine ⟨fun payload sig => verifyEventSig_ok_iff hmac secret hlen payload sig,
    ?_⟩
  intro events registry hbad
  suffices h : ∃ msg, validateTraceGo hmac secret registry events = .error msg by
    obtain ⟨msg, hmsg⟩ := h
    exact ⟨msg, by rw [validateTrace, hmsg]⟩
  induction events with
  | nil =>
    obtain ⟨ev, hev, _⟩ := hbad
    cases hev
  | cons e0 evs ih =>
    by_cases hl0 : (hexDecode e0.supervisorSig.data).length = 32
    · obtain ⟨ev, hev, hlen2⟩ := hbad
      rcases List.mem_cons.mp hev with rfl | hevt
      · exact absurd hl0 hlen2
      · obtain ⟨msg, hmsg⟩ := ih ⟨ev, hevt, hlen2⟩
        obtain ⟨errs, herrs⟩ :=
          validateEvent_ok_of_goodlen hmac secret registry e0 hlen hl0
        refine ⟨msg, ?_⟩
        rw [validateTraceGo, herrs, hmsg]
    · refine ⟨"Input buffers must have the same byte length", ?_⟩
      rw [validateTraceGo,
        validateEvent_error_of_badlen hmac secret registry e0 hlen hl0]


/-- **C10, witness.**  The exception characterization applied to the
constant 32-byte test HMAC. -/
theorem C10_sig_length_exception_witness :
    (∀ payload sig,
      ((∃ b, verifyEventSig hmacTest [] payload sig = .ok b) ↔
        (hexDecode sig.data).length = 32) ∧
      ((hexDecode sig.data).length ≠ 32 →
        verifyEventSig hmacTest [] payload sig =
          .error "Input buffers must have the same byte length")) ∧
    (∀ events registry,
      (∃ ev ∈ events, (hexDecode ev.supervisorSig.data).length ≠ 32) →
      ∃ msg, validateTrace hmacTest [] events registry = .error msg) :=
  C10_sig_length_exception hmacTest [] (fun s m => rfl)

open JsVal

/-! ## Asleep detector (`asleep-detector.ts`) -/

/-- Embeds `hasAnyKind`: does some trace entry's `kind` property appear in
the list?  A missing, null or non-string `kind` never matches. -/
def hasAnyKind (trace : List JsVal) (kinds : List String) : Bool :=
  trace.any (fun t => match t.get "kind" with
    | some (vStr s) => kinds.contains s
    | _ => false)

/-- The engagement flags record. -/
structure EngagementFlags where
  hasPreflightOk : Bool
  hasPlanCreated : Bool
  hasProofVerified : Bool
  hasSpawnOrRequest : Bool
  hasQualityGatePass : Bool
deriving Repr, DecidableEq

/-- The asleep-detector result record. -/
structure AsleepDetectorResult where
  ok : Bool
  traceCount : Nat
  verificationOk : Bool
  engagement : EngagementFlags
  traceEvents : List JsVal
  contractMode : String
  contractSatisfied : Bool
deriving Repr, DecidableEq

/-- The detector's trace extraction: `result?.trace` when it is an array,
else `[]`. -/
def traceOf (result : JsVal) : List JsVal :=
  match result.get "trace" with
  | some (vArr l) => l
  | _ => []

/-- The detector's `result?.runtimeMode || 'unknown'` fallback. -/
def runtimeModeOf (result : JsVal) : JsVal :=
  match result.get "runtimeMode" with
  | some v => if v.truthy then v else vStr "unknown"
  | none => vStr "unknown"

/-- Embeds `asleepDetector`: extract the trace, compute the engagement
flags, and decide the contract in agentic (strict) or local mode; `ok`
mirrors `contractSatisfied`. -/
def asleepDetector (result : JsVal) (strictMode : Bool) :
    AsleepDetectorResult :=
  let trace := traceOf result
  let verificationOk := decide (((result.get "verification").bind
    (fun v => v.get "allSignaturesValid")) = some (vBool true))
  let runtimeMode := runtimeModeOf result
  let hasPreflightOk := hasAnyKind trace ["preflight_ok"]
  let hasPlanCreated := hasAnyKind trace ["plan_created"]
  let hasProofVerified := verificationOk && decide (trace.length > 0)
  let hasSpawnOrRequest := hasAnyKind trace
    ["spawn", "spawn_request_detected", "supervisor_spawn"]
  let hasQualityGatePass := hasAnyKind trace ["quality_gate_pass"]
  let contractSatisfied :=
    if strictMode then
      hasPreflightOk && hasPlanCreated && hasSpawnOrRequest &&
        verificationOk && decide (runtimeMode = vStr "real")
    else
      decide (trace.length > 0) &&
        (hasSpawnOrRequest || hasAnyKind trace ["merge", "return"] ||
          hasQualityGatePass)
  ⟨contractSatisfied, trace.length, verificationOk,
    ⟨hasPreflightOk, hasPlanCreated, hasProofVerified, hasSpawnOrRequest,
      hasQualityGatePass⟩,
    (trace.map (fun t => (t.get "kind").getD vNull)).filter
      (fun v => v.truthy),
    if strictMode then "agentic" else "local", contractSatisfied⟩

/-- A one-event trace whose only kind is `spawn_request_detected`. -/
def c6trace : List JsVal := [vObj [("kind", vStr "spawn_request_detected")]]

/-- A result object wrapping that trace. -/
def c6result : JsVal := vObj [("trace", vArr c6trace)]

/-- **C6, counterexample.**  In local mode a trace containing only a
`spawn_request_detected` event satisfies the contract, although none of
the kinds `spawn`, `merge`, `return`, `quality_gate_pass` named by the
claim appears in it: the code also accepts `spawn_request_detected` and
`supervisor_spawn` via `hasSpawnOrRequest`. -/
theorem C6_counterexample :
    (asleepDetector c6result false).contractSatisfied = true ∧
    hasAnyKind c6trace ["spawn", "merge", "return", "quality_gate_pass"] =
      false ∧
    traceOf c6result = c6trace :=
  ⟨rfl, rfl, rfl⟩


theorem hasAnyKind_append (trace : List JsVal) (k1 k2 : List String) :
    hasAnyKind trace (k1 ++ k2) =
      (hasAnyKind trace k1 || hasAnyKind trace k2) := by
  induction trace with
  | nil => rfl
  | cons t ts ih =>
    simp only [hasAnyKind, List.any_cons] at ih ⊢
    rw [ih]
    have helem : (match t.get "kind" with
        | some (vStr s) => (k1 ++ k2).contains s
        | _ => false) =
        ((match t.get "kind" with
          | some (vStr s) => k1.contains s
          | _ => false) ||
         (match t.get "kind" with
          | some (vStr s) => k2.contains s
          | _ => false) : Bool) := by
      cases hk : t.get "kind" with
      | none => rfl
      | some v =>
        cases v with
        | vStr s => simp [List.elem_eq_mem, List.mem_append]
        | vNull => rfl
        | vBool b => rfl
        | vNum f n => rfl
        | vArr l => rfl
        | vObj fs => rfl
    rw [helem]
    cases hm : (match t.get "kind" with
        | some (vStr s) => k1.contains s
        | _ => false : Bool) <;>
      cases hm2 : (match t.get "kind" with
        | some (vStr s) => k2.contains s
        | _ => false : Bool) <;> simp

theorem runtimeModeOf_real_iff (result : JsVal) :
    runtimeModeOf result = vStr "real" ↔
      result.get "runtimeMode" = some (vStr "real") := by
  cases hg : result.get "runtimeMode" with
  | none =>
    simp only [runtimeModeOf, hg]
    constructor
    · intro h; exact absurd h (by decide)
    · intro h; cases h
  | some v =>
    simp only [runtimeModeOf, hg]
    by_cases hv : v.truthy = true
    · rw [if_pos hv]
      exact ⟨fun h => by rw [h], fun h => by injection h⟩
    · rw [if_neg hv]
      constructor
      · intro h; exact absurd h (by decide)
      · intro h
        injection h with h
        subst h
        exact absurd rfl hv


/-- **C6** (amended).  `ok` always equals `contractSatisfied`; in agentic
mode (strictMode) the contract holds iff the trace has a `preflight_ok`
and a `plan_created` and one of `spawn`, `spawn_request_detected`,
`supervisor_spawn`, the verification block reports
`allSignaturesValid === true`, and `runtimeMode` is `'real'`; in local
mode iff the trace is non-empty and one of `spawn`,
`spawn_request_detected`, `supervisor_spawn`, `merge`, `return`,
`quality_gate_pass` appears — two spawn-like kinds more than the claim's
local list. -/
theorem C6_asleep_detector (result : JsVal) (strictMode : Bool) :
    (asleepDetector result strictMode).ok =
      (asleepDetector result strictMode).contractSatisfied ∧
    ((asleepDetector result true).contractSatisfied = true ↔
      hasAnyKind (traceOf result) ["preflight_ok"] = true ∧
      hasAnyKind (traceOf result) ["plan_created"] = true ∧
      hasAnyKind (traceOf result)
        ["spawn", "spawn_request_detected", "supervisor_spawn"] = true ∧
      ((result.get "verification").bind
        (fun v => v.get "allSignaturesValid")) = some (vBool true) ∧
      result.get "runtimeMode" = some (vStr "real")) ∧
    ((asleepDetector result false).contractSatisfied = true ↔
      traceOf result ≠ [] ∧
      hasAnyKind (traceOf result)
        ["spawn", "spawn_request_detected", "supervisor_spawn", "merge",
          "return", "quality_gate_pass"] = true) := by
  refine ⟨rfl, ?_, ?_⟩
  · have hs : (asleepDetector result true).contractSatisfied =
        (hasAnyKind (traceOf result) ["preflight_ok"] &&
         hasAnyKind (traceOf result) ["plan_created"] &&
         hasAnyKind (traceOf result)
           ["spawn", "spawn_request_detected", "supervisor_spawn"] &&
         decide (((result.get "verification").bind
           (fun v => v.get "allSignaturesValid")) = some (vBool true)) &&
         decide (runtimeModeOf result = vStr "real")) := rfl
    rw [hs]
    simp only [Bool.and_eq_true, decide_eq_true_iff, runtimeModeOf_real_iff]
    tauto
  · have hl : (asleepDetector result false).contractSatisfied =
        (decide ((traceOf result).length > 0) &&
          (hasAnyKind (traceOf result)
            ["spawn", "spawn_request_detected", "supervisor_spawn"] ||
           hasAnyKind (traceOf result) ["merge", "return"] ||
           hasAnyKind (traceOf result) ["quality_gate_pass"])) := rfl
    rw [hl, show (["spawn", "spawn_request_detected", "supervisor_spawn",
        "merge", "return", "quality_gate_pass"] : List String) =
        ["spawn", "spawn_request_detected", "supervisor_spawn"] ++
        (["merge", "return"] ++ ["quality_gate_pass"]) from rfl,
      hasAnyKind_append, hasAnyKind_append]
    simp only [Bool.and_eq_true, Bool.or_eq_true, decide_eq_true_iff,
      List.length_pos]
    tauto

/-! ## Supervisor secret loading (`supervisor-crypto.ts`) -/

/-- Value of one base64 alphabet character, `none` otherwise. -/
def b64Val (c : Char) : Option Nat :=
  if 'A' ≤ c ∧ c ≤ 'Z' then some (c.toNat - 65)
  else if 'a' ≤ c ∧ c ≤ 'z' then some (c.toNat - 71)
  else if '0' ≤ c ∧ c ≤ '9' then some (c.toNat + 4)
  else if c = '+' then some 62
  else if c = '/' then some 63
  else none

/-- Base64 sextet groups to bytes: 4 sextets give 3 bytes, a trailing pair
or triple gives 1 or 2, a lone leftover gives none. -/
def sextetsToBytes : List Nat → List Nat
  | a :: b :: c :: d :: rest =>
    (a * 4 + b / 16) :: ((b % 16) * 16 + c / 4) :: ((c % 4) * 64 + d) ::
      sextetsToBytes rest
  | [a, b] => [a * 4 + b / 16]
  | [a, b, c] => [a * 4 + b / 16, (b % 16) * 16 + c / 4]
  | _ => []

/-- Node's forgiving `Buffer.from(s, 'base64')`: stop at the first `=`,
skip characters outside the alphabet, regroup sextets into bytes. -/
def base64Decode (s : String) : List Nat :=
  sextetsToBytes ((s.data.takeWhile (fun c => c ≠ '=')).filterMap b64Val)

/-- Embeds `loadSupervisorSecret` with the environment variable and the
`crypto.randomBytes(32)` result as parameters.  The boolean records whether
the dev-fallback warning was emitted. -/
def loadSupervisorSecret (env : Option String) (rand32 : List Nat) :
    List Nat × Bool :=
  match env with
  | some s =>
    if s ≠ "" ∧ 32 ≤ s.length then (base64Decode s, false)
    else (rand32, true)
  | none => (rand32, true)

/-- A 32-character base64 string that decodes to only 24 bytes. -/
def c9env : String := String.mk (List.replicate 32 'A')

/-- **C9, counterexample.**  The length test is on the base64 *string*, not
on the decoded bytes: 32 `'A'` characters pass the check without any
warning, yet decode to 24 zero bytes, so the returned secret is shorter
than 32 bytes. -/
theorem C9_counterexample :
    loadSupervisorSecret (some c9env) (List.replicate 32 7) =
      (List.replicate 24 0, false) ∧
    (base64Decode c9env).length = 24 ∧ c9env.length = 32 :=
  ⟨rfl, rfl, rfl⟩

/-- **C9** (amended).  `loadSupervisorSecret` returns the base64 decoding
of the environment value exactly when that value is a non-empty string of
at least 32 *characters*; otherwise it falls back to 32 fresh random bytes
and warns.  The decoded secret may be shorter than 32 bytes. -/
theorem C9_load_supervisor_secret (env : Option String) (rand32 : List Nat) :
    (∀ s, env = some s →
      ((s ≠ "" ∧ 32 ≤ s.length) →
        loadSupervisorSecret env rand32 = (base64Decode s, false)) ∧
      (¬ (s ≠ "" ∧ 32 ≤ s.length) →
        loadSupervisorSecret env rand32 = (rand32, true))) ∧
    (env = none → loadSupervisorSecret env rand32 = (rand32, true)) := by
  constructor
  · intro s hs
    subst hs
    constructor
    · intro h
      simp only [loadSupervisorSecret, if_pos h]
    · intro h
      simp only [loadSupervisorSecret, if_neg h]
  · intro h
    subst h
    rfl

open JsVal

/-! ## Agentic guard (`scripts/guard-agentic.mjs`, strict-aware version) -/

/-- The guard's observable outcome: the exit code and the `error` field of
the JSON it prints on failure. -/
structure GuardResult where
  exitCode : Nat
  error : Option String
deriving Repr, DecidableEq

/-- The guard's error vocabulary. -/
def guardErrors : List String :=
  ["proof_missing", "proof_invalid_json", "proof_timestamp_invalid",
   "missing_timestamp", "proof_stale", "proof_failed",
   "agentic_contract_violated_runtime",
   "agentic_contract_violated_engagement"]

/-- `typeof proof[k] === 'number'` with the number's value (finite flag and
integral part). -/
def numField (proof : JsVal) (k : String) : Option (Bool × Int) :=
  match proof.get k with
  | some (vNum fin n) => some (fin, n)
  | _ => none

/-- `typeof proof[k] === 'string'` with the string. -/
def strField (proof : JsVal) (k : String) : Option String :=
  match proof.get k with
  | some (vStr s) => some s
  | _ => none

/-- The guard's timestamp resolution chain: a numeric `timestampMs`, else a
string `timestamp` through `Date.parse` (error when it yields NaN), else a
numeric `writtenAtMs`, else the `missing_timestamp` error.  `dateParse`
stands for `Date.parse`, `none` modelling NaN. -/
def resolveTimestamp (proof : JsVal) (dateParse : String → Option Int) :
    Except String (Bool × Int) :=
  match numField proof "timestampMs" with
  | some ft => .ok ft
  | none =>
    match strField proof "timestamp" with
    | some ts =>
      match dateParse ts with
      | some t => .ok (true, t)
      | none => .error "proof_timestamp_invalid"
    | none =>
      match numField proof "writtenAtMs" with
      | some ft => .ok ft
      | none => .error "missing_timestamp"

/-- The four engagement flags the agentic contract requires. -/
def requiredEngagement : List String :=
  ["hasPreflightOk", "hasPlanCreated", "hasSpawnOrRequest",
   "hasProofVerified"]

/-- Truthiness of `(proof.engagement || {})[flag]` — a falsy or non-object
`engagement` leaves every flag falsy. -/
def engagementFlag (proof : JsVal) (flag : String) : Bool :=
  (((proof.get "engagement").bind (fun e => e.get flag)).map truthy).getD
    false

/-- Embeds `guardAgenticWork`: missing file, unparsable JSON, the timestamp
chain, staleness (`ageMs > MAX_AGE_MS`, never stale for a non-finite
timestamp, as a NaN comparison is false), the truthiness check on
`proof.ok`, and — when `proof.strictMode === true` or the agentic
environment flag is set — the `runtimeMode === 'real'` and engagement-flag
checks.  `now` stands for `Date.now()`, `fileExists`/`parsed` for the
filesystem read and `JSON.parse`, `agenticEnv` for
`CONFUCIUS_AGENTIC === 'true'` and `maxAgeMin` for the parsed
`CONFUCIUS_PROOF_MAX_AGE_MIN`. -/
def guardAgenticWork (fileExists : Bool) (parsed : Option JsVal)
    (agenticEnv : Bool) (maxAgeMin : Int) (now : Int)
    (dateParse : String → Option Int) : GuardResult :=
  if fileExists = false then ⟨5, some "proof_missing"⟩
  else
    match parsed with
    | none => ⟨5, some "proof_invalid_json"⟩
    | some proof =>
      match resolveTimestamp proof dateParse with
      | .error e => ⟨5, some e⟩
      | .ok ft =>
        if ft.1 = true ∧ now - ft.2 > maxAgeMin * 60 * 1000 then
          ⟨5, some "proof_stale"⟩
        else if ((proof.get "ok").map truthy).getD false = false then
          ⟨5, some "proof_failed"⟩
        else if proof.get "strictMode" = some (vBool true) ∨
            agenticEnv = true then
          if proof.get "runtimeMode" ≠ some (vStr "real") then
            ⟨5, some "agentic_contract_violated_runtime"⟩
          else if requiredEngagement.filter
              (fun flag => engagementFlag proof flag = false) ≠ [] then
            ⟨5, some "agentic_contract_violated_engagement"⟩
          else ⟨0, none⟩
        else ⟨0, none⟩


/-- A proof artifact with no `timestampMs`, a truthy non-`true` `ok`, and
truthy non-`true` engagement flags. -/
def c5proof : JsVal :=
  vObj [("ok", vNum true 1), ("writtenAtMs", vNum true 0),
    ("strictMode", vBool true), ("runtimeMode", vStr "real"),
    ("engagement", vObj [("hasPreflightOk", vNum true 1),
      ("hasPlanCreated", vStr "yes"), ("hasSpawnOrRequest", vBool true),
      ("hasProofVerified", vNum true 2)])]

/-- **C5, counterexample.**  The guard exits 0 for an artifact that has no
`timestampMs` (its age comes from the `writtenAtMs` fallback), whose `ok`
is the number 1 rather than `true`, and whose engagement flags are merely
truthy — against the claim's "ok = true", "age computed from the canonical
timestampMs field" and "all four engagement flags are true". -/
theorem C5_counterexample :
    guardAgenticWork true (some c5proof) false 10 0 (fun _ => none) =
      ⟨0, none⟩ ∧
    c5proof.get "timestampMs" = none ∧
    c5proof.get "ok" ≠ some (vBool true) ∧
    ((c5proof.get "engagement").bind (fun e => e.get "hasPreflightOk")) ≠
      some (vBool true) :=
  ⟨rfl, rfl, by decide, by decide⟩


/-- The timestamp chain only ever fails with one of its two errors. -/
theorem resolveTimestamp_error (proof : JsVal)
    (dateParse : String → Option Int) (e : String)
    (h : resolveTimestamp proof dateParse = .error e) :
    e = "proof_timestamp_invalid" ∨ e = "missing_timestamp" := by
  rw [resolveTimestamp] at h
  cases h1 : numField proof "timestampMs" with
  | some ft => simp only [h1] at h; cases h
  | none =>
    simp only [h1] at h
    cases h2 : strField proof "timestamp" with
    | some ts =>
      simp only [h2] at h
      cases h3 : dateParse ts with
      | some t => simp only [h3] at h; cases h
      | none =>
        simp only [h3] at h
        injection h with h
        exact Or.inl h.symm
    | none =>
      simp only [h2] at h
      cases h4 : numField proof "writtenAtMs" with
      | some ft => simp only [h4] at h; cases h
      | none =>
        simp only [h4] at h
        injection h with h
        exact Or.inr h.symm


/-- **C5** (amended).  The guard exits 0 or 5; on 5 the error field comes
from the fixed vocabulary; it exits 0 iff the artifact exists, parses, a
timestamp resolves through the `timestampMs` / `timestamp` / `writtenAtMs`
chain, the artifact is not stale (`now - t > maxAgeMin·60000` with a finite
timestamp), `proof.ok` is truthy (not necessarily `true`), and — when
`proof.strictMode === true` or the agentic environment flag is set —
`runtimeMode` is `'real'` and the four engagement flags are truthy; a
fresh-enough artifact is accepted and one past the window fails as
`proof_stale`. -/
theorem C5_guard (fileExists : Bool) (parsed : Option JsVal)
    (agenticEnv : Bool) (maxAgeMin : Int) (now : Int)
    (dateParse : String → Option Int) :
    ((guardAgenticWork fileExists parsed agenticEnv maxAgeMin now
        dateParse).exitCode = 0 ∨
      (guardAgenticWork fileExists parsed agenticEnv maxAgeMin now
        dateParse).exitCode = 5) ∧
    ((guardAgenticWork fileExists parsed agenticEnv maxAgeMin now
        dateParse).exitCode = 5 →
      ∃ e ∈ guardErrors,
        (guardAgenticWork fileExists parsed agenticEnv maxAgeMin now
          dateParse).error = some e) ∧
    ((guardAgenticWork fileExists parsed agenticEnv maxAgeMin now
        dateParse).exitCode = 0 ↔
      (guardAgenticWork fileExists parsed agenticEnv maxAgeMin now
        dateParse).error = none) ∧
    ((guardAgenticWork fileExists parsed agenticEnv maxAgeMin now
        dateParse).exitCode = 0 ↔
      fileExists = true ∧ ∃ proof ft, parsed = some proof ∧
        resolveTimestamp proof dateParse = .ok ft ∧
        ¬ (ft.1 = true ∧ now - ft.2 > maxAgeMin * 60 * 1000) ∧
        ((proof.get "ok").map truthy).getD false = true ∧
        ((proof.get "strictMode" = some (vBool true) ∨ agenticEnv = true) →
          proof.get "runtimeMode" = some (vStr "real") ∧
          ∀ flag ∈ requiredEngagement,
            engagementFlag proof flag = true)) ∧
    (∀ proof ft, fileExists = true → parsed = some proof →
      resolveTimestamp proof dateParse = .ok ft → ft.1 = true →
      now - ft.2 > maxAgeMin * 60 * 1000 →
      guardAgenticWork fileExists parsed agenticEnv maxAgeMin now
        dateParse = ⟨5, some "proof_stale"⟩) := by
  by_cases hf : fileExists = false
  · have hG : guardAgenticWork fileExists parsed agenticEnv maxAgeMin now
        dateParse = ⟨5, some "proof_missing"⟩ := by
      simp only [guardAgenticWork, if_pos hf]
    rw [hG]
    refine ⟨Or.inr rfl, fun _ => ⟨"proof_missing", by decide, rfl⟩,
      iff_of_false (by decide) (by simp),
      iff_of_false (by decide) ?_, ?_⟩
    · rintro ⟨hfe, -⟩
      rw [hf] at hfe
      exact Bool.noConfusion hfe
    · intro proof ft hfe _ _ _ _
      rw [hf] at hfe
      exact Bool.noConfusion hfe
  · have hf2 : fileExists = true := by
      revert hf
      cases fileExists <;> simp
    cases parsed with
    | none =>
      have hG : guardAgenticWork fileExists none agenticEnv maxAgeMin now
          dateParse = ⟨5, some "proof_invalid_json"⟩ := by
        simp only [guardAgenticWork, if_neg hf]
      rw [hG]
      refine ⟨Or.inr rfl, fun _ => ⟨"proof_invalid_json", by decide, rfl⟩,
        iff_of_false (by decide) (by simp),
        iff_of_false (by decide) ?_, ?_⟩
      · rintro ⟨-, proof, ft, hp, -⟩
        exact Option.noConfusion hp
      · intro proof ft _ hp _ _ _
        exact Option.noConfusion hp
    | some proof =>
      cases hts : resolveTimestamp proof dateParse with
      | error e =>
        have hG : guardAgenticWork fileExists (some proof) agenticEnv
            maxAgeMin now dateParse = ⟨5, some e⟩ := by
          simp only [guardAgenticWork, if_neg hf, hts]
        rw [hG]
        refine ⟨Or.inr rfl, fun _ => ⟨e, ?_, rfl⟩,
          iff_of_false (by simp) (by simp),
          iff_of_false (by simp) ?_, ?_⟩
        · rcases resolveTimestamp_error proof dateParse e hts with he | he <;>
            rw [he] <;> decide
        · rintro ⟨-, proof2, ft, hp, hres, -⟩
          injection hp with hp
          subst hp
          rw [hts] at hres
          exact Except.noConfusion hres
        · intro proof2 ft _ hp hres _ _
          injection hp with hp
          subst hp
          rw [hts] at hres
          exact Except.noConfusion hres
      | ok ft =>
        by_cases hstale : ft.1 = true ∧ now - ft.2 > maxAgeMin * 60 * 1000
        · have hG : guardAgenticWork fileExists (some proof) agenticEnv
              maxAgeMin now dateParse = ⟨5, some "proof_stale"⟩ := by
            simp only [guardAgenticWork, if_neg hf, hts]
            rw [if_pos hstale]
          rw [hG]
          refine ⟨Or.inr rfl, fun _ => ⟨"proof_stale", by decide, rfl⟩,
            iff_of_false (by decide) (by simp),
            iff_of_false (by decide) ?_, fun _ _ _ _ _ _ _ => rfl⟩
          rintro ⟨-, proof2, ft2, hp, hres, hnst, -⟩
          injection hp with hp
          subst hp
          rw [hts] at hres
          injection hres with hres
          subst hres
          exact hnst hstale
        · by_cases hok : ((proof.get "ok").map truthy).getD false = false
          · have hG : guardAgenticWork fileExists (some proof) agenticEnv
                maxAgeMin now dateParse = ⟨5, some "proof_failed"⟩ := by
              simp only [guardAgenticWork, if_neg hf, hts]
              rw [if_neg hstale, if_pos hok]
            rw [hG]
            refine ⟨Or.inr rfl, fun _ => ⟨"proof_failed", by decide, rfl⟩,
              iff_of_false (by decide) (by simp),
              iff_of_false (by decide) ?_, ?_⟩
            · rintro ⟨-, proof2, ft2, hp, hres, -, hok2, -⟩
              injection hp with hp
              subst hp
              rw [hok] at hok2
              exact Bool.noConfusion hok2
            · intro proof2 ft2 _ hp hres hfin hgt
              injection hp with hp
              subst hp
              rw [hts] at hres
              injection hres with hres
              subst hres
              exact absurd ⟨hfin, hgt⟩ hstale
          · have hok2 : ((proof.get "ok").map truthy).getD false = true := by
              revert hok
              cases ((proof.get "ok").map truthy).getD false <;> simp
            by_cases hreq : proof.get "strictMode" = some (vBool true) ∨
                agenticEnv = true
            · by_cases hrm : proof.get "runtimeMode" = some (vStr "real")
              · by_cases hmiss : requiredEngagement.filter
                    (fun flag => engagementFlag proof flag = false) ≠ []
                · have hG : guardAgenticWork fileExists (some proof)
                      agenticEnv maxAgeMin now dateParse =
                      ⟨5, some "agentic_contract_violated_engagement"⟩ := by
                    simp only [guardAgenticWork, if_neg hf, hts]
                    rw [if_neg hstale, if_neg hok, if_pos hreq,
                      if_neg (fun hne => hne hrm), if_pos hmiss]
                  rw [hG]
                  refine ⟨Or.inr rfl,
                    fun _ => ⟨"agentic_contract_violated_engagement",
                      by decide, rfl⟩,
                    iff_of_false (by decide) (by simp),
                    iff_of_false (by decide) ?_, ?_⟩
                  · rintro ⟨-, proof2, ft2, hp, hres, -, -, himp⟩
                    injection hp with hp
                    subst hp
                    obtain ⟨-, hflags⟩ := himp hreq
                    refine hmiss (List.filter_eq_nil_iff.mpr ?_)
                    intro flag hfl
                    simp [hflags flag hfl]
                  · intro proof2 ft2 _ hp hres hfin hgt
                    injection hp with hp
                    subst hp
                    rw [hts] at hres
                    injection hres with hres
                    subst hres
                    exact absurd ⟨hfin, hgt⟩ hstale
                · have hnil := not_not.mp hmiss
                  have hG : guardAgenticWork fileExists (some proof)
                      agenticEnv maxAgeMin now dateParse = ⟨0, none⟩ := by
                    simp only [guardAgenticWork, if_neg hf, hts]
                    rw [if_neg hstale, if_neg hok, if_pos hreq,
                      if_neg (fun hne => hne hrm), if_neg hmiss]
                  rw [hG]
                  refine ⟨Or.inl rfl, fun h => absurd h (by decide),
                    iff_of_true rfl rfl,
                    iff_of_true rfl ⟨hf2, proof, ft, rfl, hts, hstale, hok2,
                      fun _ => ⟨hrm, ?_⟩⟩, ?_⟩
                  · intro flag hfl
                    have h5 := List.filter_eq_nil_iff.mp hnil flag hfl
                    revert h5
                    cases hb : engagementFlag proof flag <;> simp
                  · intro proof2 ft2 _ hp hres hfin hgt
                    injection hp with hp
                    subst hp
                    rw [hts] at hres
                    injection hres with hres
                    subst hres
                    exact absurd ⟨hfin, hgt⟩ hstale
              · have hG : guardAgenticWork fileExists (some proof)
                    agenticEnv maxAgeMin now dateParse =
                    ⟨5, some "agentic_contract_violated_runtime"⟩ := by
                  simp only [guardAgenticWork, if_neg hf, hts]
                  rw [if_neg hstale, if_neg hok, if_pos hreq, if_pos hrm]
                rw [hG]
                refine ⟨Or.inr rfl,
                  fun _ => ⟨"agentic_contract_violated_runtime", by decide,
                    rfl⟩,
                  iff_of_false (by decide) (by simp),
                  iff_of_false (by decide) ?_, ?_⟩
                · rintro ⟨-, proof2, ft2, hp, hres, -, -, himp⟩
                  injection hp with hp
                  subst hp
                  exact hrm (himp hreq).1
                · intro proof2 ft2 _ hp hres hfin hgt
                  injection hp with hp
                  subst hp
                  rw [hts] at hres
                  injection hres with hres
                  subst hres
                  exact absurd ⟨hfin, hgt⟩ hstale
            · have hG : guardAgenticWork fileExists (some proof) agenticEnv
                  maxAgeMin now dateParse = ⟨0, none⟩ := by
                simp only [guardAgenticWork, if_neg hf, hts]
                rw [if_neg hstale, if_neg hok, if_neg hreq]
              rw [hG]
              refine ⟨Or.inl rfl, fun h => absurd h (by decide),
                iff_of_true rfl rfl,
                iff_of_true rfl ⟨hf2, proof, ft, rfl, hts, hstale, hok2,
                  fun hreq2 => absurd hreq2 hreq⟩, ?_⟩
              intro proof2 ft2 _ hp hres hfin hgt
              injection hp with hp
              subst hp
              rw [hts] at hres
              injection hres with hres
              subst hres
              exact absurd ⟨hfin, hgt⟩ hstale

open JsVal

/-! ## A JSON parser (modelling `JSON.parse` on the whitespace-free
serializations `JSON.stringify` produces here) -/

/-- ASCII decimal digit test. -/
def isDigitC (c : Char) : Bool :=
  decide (48 ≤ c.toNat) && decide (c.toNat ≤ 57)

/-- Value of a digit run, folded onto an accumulator. -/
def valDigits : List Char → Nat → Nat
  | [], acc => acc
  | c :: cs, acc => valDigits cs (acc * 10 + (c.toNat - 48))

/-- Consume a maximal digit run. -/
def parseDigitsAux : List Char → Nat → Nat × List Char
  | [], acc => (acc, [])
  | c :: rest, acc =>
    if isDigitC c then parseDigitsAux rest (acc * 10 + (c.toNat - 48))
    else (acc, c :: rest)

/-- A number literal: at least one digit, maximal munch. -/
def parseDigits : List Char → Option (Nat × List Char)
  | [] => none
  | c :: rest =>
    if isDigitC c then some (parseDigitsAux (c :: rest) 0) else none

/-- One escape code of a string literal. -/
def unescape (c : Char) : Option Char :=
  if c = '"' then some '"'
  else if c = '\\' then some '\\'
  else if c = 'n' then some '\n'
  else if c = 'r' then some '\r'
  else if c = 't' then some '\t'
  else none

/-- The body of a string literal after the opening quote: content up to the
closing quote, undoing escapes. -/
def parseStringBody : List Char → Option (List Char × List Char)
  | [] => none
  | c :: rest =>
    if c = '"' then some ([], rest)
    else if c = '\\' then
      match rest with
      | [] => none
      | e :: rest2 =>
        match unescape e with
        | some c2 => (parseStringBody rest2).map (fun p => (c2 :: p.1, p.2))
        | none => none
    else (parseStringBody rest).map (fun p => (c :: p.1, p.2))

/-- Match an expected literal character sequence. -/
def expectChars : List Char → List Char → Option (List Char)
  | [], cs => some cs
  | e :: es, c :: cs => if c = e then expectChars es cs else none
  | _ :: _, [] => none

mutual

/-- One JSON value.  Fuel bounds the nesting depth; `jsonParse` supplies
enough for any input of the given length. -/
def parseVal : Nat → List Char → Option (JsVal × List Char)
  | 0, _ => none
  | fuel + 1, cs =>
    match cs with
    | [] => none
    | c :: rest =>
      if c = 'n' then
        match expectChars ['u', 'l', 'l'] rest with
        | some rest2 => some (vNull, rest2)
        | none => none
      else if c = 't' then
        match expectChars ['r', 'u', 'e'] rest with
        | some rest2 => some (vBool true, rest2)
        | none => none
      else if c = 'f' then
        match expectChars ['a', 'l', 's', 'e'] rest with
        | some rest2 => some (vBool false, rest2)
        | none => none
      else if c = '"' then
        match parseStringBody rest with
        | some p => some (vStr (String.mk p.1), p.2)
        | none => none
      else if c = '[' then
        match rest with
        | [] => none
        | c2 :: rest2 =>
          if c2 = ']' then some (vArr [], rest2)
          else
            match parseArrElems fuel (c2 :: rest2) with
            | some p => some (vArr p.1, p.2)
            | none => none
      else if c = '{' then
        match rest with
        | [] => none
        | c2 :: rest2 =>
          if c2 = '}' then some (vObj [], rest2)
          else
            match parseObjFields fuel (c2 :: rest2) with
            | some p => some (vObj p.1, p.2)
            | none => none
      else if c = '-' then
        match parseDigits rest with
        | some p => some (vNum true (-(p.1 : Int)), p.2)
        | none => none
      else if isDigitC c then
        match parseDigits (c :: rest) with
        | some p => some (vNum true (p.1 : Int), p.2)
        | none => none
      else none

/-- One or more comma-separated array elements, then `]`. -/
def parseArrElems : Nat → List Char → Option (List JsVal × List Char)
  | 0, _ => none
  | fuel + 1, cs =>
    match parseVal fuel cs with
    | none => none
    | some (v, rest) =>
      match rest with
      | [] => none
      | c :: rest2 =>
        if c = ',' then
          match parseArrElems fuel rest2 with
          | some p => some (v :: p.1, p.2)
          | none => none
        else if c = ']' then some ([v], rest2)
        else none

/-- One or more comma-separated `"key":value` fields, then `}`. -/
def parseObjFields : Nat → List Char →
    Option (List (String × JsVal) × List Char)
  | 0, _ => none
  | fuel + 1, cs =>
    match cs with
    | [] => none
    | c :: rest =>
      if c = '"' then
        match parseStringBody rest with
        | none => none
        | some (k, rest2) =>
          match rest2 with
          | [] => none
          | c2 :: rest3 =>
            if c2 = ':' then
              match parseVal fuel rest3 with
              | none => none
              | some (v, rest4) =>
                match rest4 with
                | [] => none
                | c3 :: rest5 =>
                  if c3 = ',' then
                    match parseObjFields fuel rest5 with
                    | some p => some ((String.mk k, v) :: p.1, p.2)
                    | none => none
                  else if c3 = '}' then some ([(String.mk k, v)], rest5)
                  else none
            else none
      else none

end

/-- Embeds `JSON.parse` on whole inputs: the parse must consume everything. -/
def jsonParse (s : String) : Option JsVal :=
  match parseVal (s.data.length + 1) s.data with
  | some (v, []) => some v
  | _ => none

open JsVal

mutual

/-- Node count of a value tree (containers weigh 2), used to bound the
parser fuel. -/
def sizeJs : JsVal → Nat
  | vArr xs => sizeList xs + 2
  | vObj fs => sizeFields fs + 2
  | _ => 1

/-- Summed sizes of array elements. -/
def sizeList : List JsVal → Nat
  | [] => 0
  | x :: xs => sizeJs x + sizeList xs

/-- Summed sizes of field values. -/
def sizeFields : List (String × JsVal) → Nat
  | [] => 0
  | f :: fs => sizeJs f.2 + sizeFields fs

end

mutual

/-- JSON-representable: every number finite, every object's keys distinct
(a value `JSON.stringify` and `JSON.parse` transport faithfully). -/
def jsonSafe : JsVal → Bool
  | vNull => true
  | vBool _ => true
  | vNum f _ => f
  | vStr _ => true
  | vArr xs => jsonSafeList xs
  | vObj fs => decide ((fs.map Prod.fst).Nodup) && jsonSafeFields fs

/-- `jsonSafe` over array elements. -/
def jsonSafeList : List JsVal → Bool
  | [] => true
  | x :: xs => jsonSafe x && jsonSafeList xs

/-- `jsonSafe` over field values. -/
def jsonSafeFields : List (String × JsVal) → Bool
  | [] => true
  | f :: fs => jsonSafe f.2 && jsonSafeFields fs

end

/-- The next input character (if any) is not a digit, so a number literal
before it parses by maximal munch. -/
def headNotDigit (rest : List Char) : Prop :=
  ∀ c, rest.head? = some c → isDigitC c = false

theorem sizeJs_pos (v : JsVal) : 1 ≤ sizeJs v := by
  cases v <;> simp [sizeJs] <;> omega

theorem toNat_ofNat_small (n : Nat) (h : n < 256) :
    (Char.ofNat n).toNat = n := by
  rw [Char.ofNat, dif_pos (by constructor; omega)]
  rfl

theorem natDigitsAux_shift (n : Nat) : ∀ fuel acc, n < fuel →
    natDigitsAux fuel n acc = natDigits n ++ acc := by
  induction n using Nat.strong_induction_on with
  | _ n ih =>
    intro fuel acc hf
    match fuel, hf with
    | fuel + 1, _ =>
      rw [natDigitsAux]
      by_cases h10 : n < 10
      · rw [if_pos h10, natDigits, natDigitsAux, if_pos h10]
        rfl
      · have hdiv : n / 10 < n := Nat.div_lt_self (by omega) (by omega)
        rw [if_neg h10, ih (n / 10) hdiv fuel _ (by omega)]
        conv_rhs => rw [natDigits, natDigitsAux, if_neg h10,
          ih (n / 10) hdiv n _ (by omega)]
        simp

theorem natDigits_base (n : Nat) (h : n < 10) :
    natDigits n = [Char.ofNat (48 + n)] := by
  rw [natDigits, natDigitsAux, if_pos h]

theorem natDigits_decomp (n : Nat) (h : ¬ n < 10) :
    natDigits n = natDigits (n / 10) ++ [Char.ofNat (48 + n % 10)] := by
  rw [natDigits, natDigitsAux, if_neg h,
    natDigitsAux_shift (n / 10) n _ (Nat.div_lt_self (by omega) (by omega))]

theorem natDigits_all_digits (n : Nat) :
    ∀ c ∈ natDigits n, isDigitC c = true := by
  induction n using Nat.strong_induction_on with
  | _ n ih =>
    by_cases h10 : n < 10
    · rw [natDigits_base n h10]
      intro c hc
      rw [List.mem_singleton] at hc
      subst hc
      simp [isDigitC, toNat_ofNat_small (48 + n) (by omega)]
      omega
    · rw [natDigits_decomp n h10]
      intro c hc
      rcases List.mem_append.mp hc with hc | hc
      · exact ih (n / 10) (Nat.div_lt_self (by omega) (by omega)) c hc
      · rw [List.mem_singleton] at hc
        subst hc
        have hm : n % 10 < 10 := Nat.mod_lt _ (by omega)
        simp [isDigitC, toNat_ofNat_small (48 + n % 10) (by omega)]
        omega

theorem natDigits_ne_nil (n : Nat) : natDigits n ≠ [] := by
  by_cases h10 : n < 10
  · rw [natDigits_base n h10]; simp
  · rw [natDigits_decomp n h10]; simp

theorem valDigits_append (a b : List Char) : ∀ acc,
    valDigits (a ++ b) acc = valDigits b (valDigits a acc) := by
  induction a with
  | nil => intro acc; rfl
  | cons c cs ih =>
    intro acc
    simp only [List.cons_append, valDigits]
    exact ih _

theorem valDigits_natDigits (n : Nat) : ∀ acc,
    valDigits (natDigits n) acc = acc * 10 ^ (natDigits n).length + n := by
  induction n using Nat.strong_induction_on with
  | _ n ih =>
    intro acc
    by_cases h10 : n < 10
    · rw [natDigits_base n h10]
      simp [valDigits, toNat_ofNat_small (48 + n) (by omega)]
    · have hdiv : n / 10 < n := Nat.div_lt_self (by omega) (by omega)
      rw [natDigits_decomp n h10, valDigits_append, ih (n / 10) hdiv]
      simp [valDigits, toNat_ofNat_small (48 + n % 10)
        (by have := Nat.mod_lt n (show 0 < 10 from by omega); omega)]
      rw [pow_succ]
      have hdm := Nat.div_add_mod n 10
      ring_nf
      omega

theorem parseDigitsAux_digits : ∀ ds rest acc,
    (∀ c ∈ ds, isDigitC c = true) → headNotDigit rest →
    parseDigitsAux (ds ++ rest) acc = (valDigits ds acc, rest) := by
  intro ds
  induction ds with
  | nil =>
    intro rest acc _ hrest
    cases rest with
    | nil => rfl
    | cons c rs =>
      show parseDigitsAux (c :: rs) acc = (acc, c :: rs)
      rw [parseDigitsAux, if_neg (by rw [hrest c rfl]; exact Bool.noConfusion)]
  | cons d ds ih =>
    intro rest acc hds hrest
    rw [List.cons_append, parseDigitsAux, if_pos (hds d (by simp))]
    exact ih rest _ (fun c hc => hds c (by simp [hc])) hrest

theorem parseDigits_natDigits (n : Nat) (rest : List Char)
    (hrest : headNotDigit rest) :
    parseDigits (natDigits n ++ rest) = some (n, rest) := by
  cases hnd : natDigits n with
  | nil => exact absurd hnd (natDigits_ne_nil n)
  | cons d ds =>
    have hdig : ∀ c ∈ natDigits n, isDigitC c = true := natDigits_all_digits n
    rw [hnd] at hdig
    rw [List.cons_append, parseDigits, if_pos (hdig d (by simp)),
      ← List.cons_append, ← hnd,
      parseDigitsAux_digits (natDigits n) rest 0 (hnd ▸ hdig) hrest,
      valDigits_natDigits]
    simp

theorem string_mk_data (s : String) : String.mk s.data = s := rfl

theorem parseStringBody_esc (e c2 : Char) (tl : List Char)
    (hu : unescape e = some c2) :
    parseStringBody ('\\' :: e :: tl) =
      (parseStringBody tl).map (fun p => (c2 :: p.1, p.2)) := by
  rw [parseStringBody.eq_def]
  simp only [hu, if_neg (show ('\\' : Char) ≠ '"' from by decide),
    if_pos rfl]
  simp

theorem parseStringBody_raw (c : Char) (tl : List Char) (h1 : c ≠ '"')
    (h2 : c ≠ '\\') :
    parseStringBody (c :: tl) =
      (parseStringBody tl).map (fun p => (c :: p.1, p.2)) := by
  rw [parseStringBody.eq_def]
  simp only [if_neg h1, if_neg h2]

theorem parseStringBody_quote : ∀ (cs : List Char) (rest : List Char),
    parseStringBody (cs.flatMap escapeChar ++ '"' :: rest) =
      some (cs, rest) := by
  intro cs
  induction cs with
  | nil =>
    intro rest
    show parseStringBody ('"' :: rest) = some ([], rest)
    rw [parseStringBody.eq_def]
    simp
  | cons c cs ih =>
    intro rest
    by_cases h1 : c = '"'
    · subst h1
      have he : ('"' :: cs).flatMap escapeChar ++ '"' :: rest =
          '\\' :: '"' :: (cs.flatMap escapeChar ++ '"' :: rest) := by
        simp [escapeChar]
      rw [he, parseStringBody_esc '"' '"' _ (by decide), ih rest]
      rfl
    · by_cases h2 : c = '\\'
      · subst h2
        have he : ('\\' :: cs).flatMap escapeChar ++ '"' :: rest =
            '\\' :: '\\' :: (cs.flatMap escapeChar ++ '"' :: rest) := by
          simp [escapeChar]
        rw [he, parseStringBody_esc '\\' '\\' _ (by decide), ih rest]
        rfl
      · by_cases h3 : c = '\n'
        · subst h3
          have he : ('\n' :: cs).flatMap escapeChar ++ '"' :: rest =
              '\\' :: 'n' :: (cs.flatMap escapeChar ++ '"' :: rest) := by
            simp [escapeChar]
          rw [he, parseStringBody_esc 'n' '\n' _ (by decide), ih rest]
          rfl
        · by_cases h4 : c = '\r'
          · subst h4
            have he : ('\r' :: cs).flatMap escapeChar ++ '"' :: rest =
                '\\' :: 'r' :: (cs.flatMap escapeChar ++ '"' :: rest) := by
              simp [escapeChar]
            rw [he, parseStringBody_esc 'r' '\r' _ (by decide), ih rest]
            rfl
          · by_cases h5 : c = '\t'
            · subst h5
              have he : ('\t' :: cs).flatMap escapeChar ++ '"' :: rest =
                  '\\' :: 't' :: (cs.flatMap escapeChar ++ '"' :: rest) := by
                simp [escapeChar]
              rw [he, parseStringBody_esc 't' '\t' _ (by decide), ih rest]
              rfl
            · have hesc : escapeChar c = [c] := by
                rw [escapeChar, if_neg h1, if_neg h2, if_neg h3, if_neg h4,
                  if_neg h5]
              have he : (c :: cs).flatMap escapeChar ++ '"' :: rest =
                  c :: (cs.flatMap escapeChar ++ '"' :: rest) := by
                simp [hesc]
              rw [he, parseStringBody_raw c _ h1 h2, ih rest]
              rfl

open JsVal

theorem stringify_head (v : JsVal) : ∃ c tl, stringifyVal v = c :: tl ∧
    c ≠ ']' ∧ c ≠ '}' ∧ c ≠ ',' := by
  cases v with
  | vNull => exact ⟨'n', _, rfl, by decide, by decide, by decide⟩
  | vBool b =>
    cases b with
    | true => exact ⟨'t', ['r', 'u', 'e'], rfl, by decide, by decide, by decide⟩
    | false =>
      exact ⟨'f', ['a', 'l', 's', 'e'], rfl, by decide, by decide, by decide⟩
  | vNum f n =>
    cases f with
    | false => exact ⟨'n', _, rfl, by decide, by decide, by decide⟩
    | true =>
      show ∃ c tl, intRepr n = c :: tl ∧ _
      rw [intRepr]
      by_cases hn : n < 0
      · rw [if_pos hn]
        exact ⟨'-', _, rfl, by decide, by decide, by decide⟩
      · rw [if_neg hn]
        cases hnd : natDigits n.natAbs with
        | nil => exact absurd hnd (natDigits_ne_nil _)
        | cons d ds =>
          have hd : isDigitC d = true :=
            natDigits_all_digits _ d (by rw [hnd]; simp)
          simp only [isDigitC, Bool.and_eq_true, decide_eq_true_iff] at hd
          refine ⟨d, ds, rfl, ?_, ?_, ?_⟩ <;>
            (intro h; subst h; revert hd; decide)
  | vStr s => exact ⟨'"', _, rfl, by decide, by decide, by decide⟩
  | vArr xs => exact ⟨'[', _, rfl, by decide, by decide, by decide⟩
  | vObj fs => exact ⟨'{', _, rfl, by decide, by decide, by decide⟩

open JsVal

/-- Manual unfolding of `parseVal` at a cons cell. -/
theorem parseVal_cons (fuel : Nat) (c : Char) (rest : List Char) :
    parseVal (fuel + 1) (c :: rest) =
      (if c = 'n' then
        match expectChars ['u', 'l', 'l'] rest with
        | some rest2 => some (vNull, rest2)
        | none => none
      else if c = 't' then
        match expectChars ['r', 'u', 'e'] rest with
        | some rest2 => some (vBool true, rest2)
        | none => none
      else if c = 'f' then
        match expectChars ['a', 'l', 's', 'e'] rest with
        | some rest2 => some (vBool false, rest2)
        | none => none
      else if c = '"' then
        match parseStringBody rest with
        | some p => some (vStr (String.mk p.1), p.2)
        | none => none
      else if c = '[' then
        match rest with
        | [] => none
        | c2 :: rest2 =>
          if c2 = ']' then some (vArr [], rest2)
          else
            match parseArrElems fuel (c2 :: rest2) with
            | some p => some (vArr p.1, p.2)
            | none => none
      else if c = '{' then
        match rest with
        | [] => none
        | c2 :: rest2 =>
          if c2 = '}' then some (vObj [], rest2)
          else
            match parseObjFields fuel (c2 :: rest2) with
            | some p => some (vObj p.1, p.2)
            | none => none
      else if c = '-' then
        match parseDigits rest with
        | some p => some (vNum true (-(p.1 : Int)), p.2)
        | none => none
      else if isDigitC c then
        match parseDigits (c :: rest) with
        | some p => some (vNum true (p.1 : Int), p.2)
        | none => none
      else none) := rfl

/-- Manual unfolding of `parseArrElems` at positive fuel. -/
theorem parseArrElems_succ (fuel : Nat) (cs : List Char) :
    parseArrElems (fuel + 1) cs =
      (match parseVal fuel cs with
      | none => none
      | some (v, rest) =>
        match rest with
        | [] => none
        | c :: rest2 =>
          if c = ',' then
            match parseArrElems fuel rest2 with
            | some p => some (v :: p.1, p.2)
            | none => none
          else if c = ']' then some ([v], rest2)
          else none) := rfl

/-- Manual unfolding of `parseObjFields` at a cons cell. -/
theorem parseObjFields_cons (fuel : Nat) (c : Char) (rest : List Char) :
    parseObjFields (fuel + 1) (c :: rest) =
      (if c = '"' then
        match parseStringBody rest with
        | none => none
        | some (k, rest2) =>
          match rest2 with
          | [] => none
          | c2 :: rest3 =>
            if c2 = ':' then
              match parseVal fuel rest3 with
              | none => none
              | some (v, rest4) =>
                match rest4 with
                | [] => none
                | c3 :: rest5 =>
                  if c3 = ',' then
                    match parseObjFields fuel rest5 with
                    | some p => some ((String.mk k, v) :: p.1, p.2)
                    | none => none
                  else if c3 = '}' then some ([(String.mk k, v)], rest5)
                  else none
            else none
      else none) := rfl

open JsVal

theorem headNotDigit_cons (c : Char) (rest : List Char)
    (h : isDigitC c = false) : headNotDigit (c :: rest) := by
  intro c2 hc2
  simp only [List.head?_cons, Option.some.injEq] at hc2
  subst hc2
  exact h

theorem stringifyArr_head (x : JsVal) (xs : List JsVal) :
    ∃ c tl, stringifyArr (x :: xs) = c :: tl ∧ c ≠ ']' ∧ c ≠ '}' ∧
      c ≠ ',' := by
  obtain ⟨c, tl, hx, h1, h2, h3⟩ := stringify_head x
  cases xs with
  | nil => exact ⟨c, tl, by rw [stringifyArr, hx], h1, h2, h3⟩
  | cons y ys =>
    refine ⟨c, tl ++ ',' :: stringifyArr (y :: ys), ?_, h1, h2, h3⟩
    rw [stringifyArr, hx]
    simp

theorem stringifyObj_head (k : String) (v : JsVal)
    (fs : List (String × JsVal)) :
    ∃ tl, stringifyObj ((k, v) :: fs) = '"' :: tl := by
  cases fs with
  | nil =>
    refine ⟨(k.data.flatMap escapeChar ++ ['"']) ++ ':' :: stringifyVal v, ?_⟩
    rw [stringifyObj, quoteChars]
    simp
  | cons g gs =>
    refine ⟨(k.data.flatMap escapeChar ++ ['"']) ++ ':' :: stringifyVal v ++
      ',' :: stringifyObj (g :: gs), ?_⟩
    rw [stringifyObj, quoteChars]
    simp

mutual

/-- The parser inverts the serializer on JSON-safe values (followed by any
non-digit continuation), given fuel at least the value's size. -/
theorem parse_stringify : ∀ (v : JsVal) (fuel : Nat) (rest : List Char),
    sizeJs v ≤ fuel → jsonSafe v = true → headNotDigit rest →
    parseVal fuel (stringifyVal v ++ rest) = some (v, rest)
  | vNull => by
    intro fuel rest hsz _ _
    obtain ⟨f, rfl⟩ : ∃ f, fuel = f + 1 :=
      ⟨fuel - 1, by simp [sizeJs] at hsz; omega⟩
    show parseVal (f + 1) ('n' :: 'u' :: 'l' :: 'l' :: rest) =
      some (vNull, rest)
    simp [parseVal, expectChars]
  | vBool b => by
    intro fuel rest hsz _ _
    obtain ⟨f, rfl⟩ : ∃ f, fuel = f + 1 :=
      ⟨fuel - 1, by simp [sizeJs] at hsz; omega⟩
    cases b with
    | true =>
      show parseVal (f + 1) ('t' :: 'r' :: 'u' :: 'e' :: rest) =
        some (vBool true, rest)
      simp [parseVal, expectChars]
    | false =>
      show parseVal (f + 1) ('f' :: 'a' :: 'l' :: 's' :: 'e' :: rest) =
        some (vBool false, rest)
      simp [parseVal, expectChars]
  | vNum fin n => by
    intro fuel rest hsz hsafe hrest
    obtain ⟨f, rfl⟩ : ∃ f, fuel = f + 1 :=
      ⟨fuel - 1, by simp [sizeJs] at hsz; omega⟩
    have hfin : fin = true := hsafe
    subst hfin
    show parseVal (f + 1) (intRepr n ++ rest) = some (vNum true n, rest)
    rw [intRepr]
    by_cases hn : n < 0
    · rw [if_pos hn]
      show parseVal (f + 1) ('-' :: (natDigits n.natAbs ++ rest)) = _
      rw [parseVal_cons,
        if_neg (show ('-' : Char) ≠ 'n' from by decide),
        if_neg (show ('-' : Char) ≠ 't' from by decide),
        if_neg (show ('-' : Char) ≠ 'f' from by decide),
        if_neg (show ('-' : Char) ≠ '"' from by decide),
        if_neg (show ('-' : Char) ≠ '[' from by decide),
        if_neg (show ('-' : Char) ≠ '{' from by decide),
        if_pos rfl, parseDigits_natDigits n.natAbs rest hrest]
      have hval : -((n.natAbs : Nat) : Int) = n := by omega
      show some (vNum true (-((n.natAbs : Nat) : Int)), rest) =
        some (vNum true n, rest)
      rw [hval]
    · rw [if_neg hn]
      cases hnd : natDigits n.natAbs with
      | nil => exact absurd hnd (natDigits_ne_nil _)
      | cons d ds =>
        have hd0 : isDigitC d = true :=
          natDigits_all_digits _ d (by rw [hnd]; simp)
        have hd : 48 ≤ d.toNat ∧ d.toNat ≤ 57 := by
          simpa [isDigitC, Bool.and_eq_true, decide_eq_true_iff] using hd0
        show parseVal (f + 1) (d :: (ds ++ rest)) = _
        rw [parseVal_cons,
          if_neg (show d ≠ 'n' from by intro h; subst h; revert hd; decide),
          if_neg (show d ≠ 't' from by intro h; subst h; revert hd; decide),
          if_neg (show d ≠ 'f' from by intro h; subst h; revert hd; decide),
          if_neg (show d ≠ '"' from by intro h; subst h; revert hd; decide),
          if_neg (show d ≠ '[' from by intro h; subst h; revert hd; decide),
          if_neg (show d ≠ '{' from by intro h; subst h; revert hd; decide),
          if_neg (show d ≠ '-' from by intro h; subst h; revert hd; decide),
          if_pos hd0,
          show d :: (ds ++ rest) = natDigits n.natAbs ++ rest from by
            rw [hnd]; rfl,
          parseDigits_natDigits n.natAbs rest hrest]
        have hval : ((n.natAbs : Nat) : Int) = n := by omega
        show some (vNum true ((n.natAbs : Nat) : Int), rest) =
          some (vNum true n, rest)
        rw [hval]
  | vStr s => by
    intro fuel rest hsz _ _
    obtain ⟨f, rfl⟩ : ∃ f, fuel = f + 1 :=
      ⟨fuel - 1, by simp [sizeJs] at hsz; omega⟩
    show parseVal (f + 1)
      (('"' :: (s.data.flatMap escapeChar ++ ['"'])) ++ rest) = _
    rw [show ('"' :: (s.data.flatMap escapeChar ++ ['"'])) ++ rest =
      '"' :: (s.data.flatMap escapeChar ++ '"' :: rest) from by simp]
    rw [parseVal_cons,
      if_neg (show ('"' : Char) ≠ 'n' from by decide),
      if_neg (show ('"' : Char) ≠ 't' from by decide),
      if_neg (show ('"' : Char) ≠ 'f' from by decide),
      if_pos rfl, parseStringBody_quote]
  | vArr [] => by
    intro fuel rest hsz _ _
    obtain ⟨f, rfl⟩ : ∃ f, fuel = f + 1 :=
      ⟨fuel - 1, by simp [sizeJs] at hsz; omega⟩
    show parseVal (f + 1) ('[' :: ']' :: rest) = some (vArr [], rest)
    simp [parseVal]
  | vArr (x :: xs) => by
    intro fuel rest hsz hsafe _
    obtain ⟨f, rfl⟩ : ∃ f, fuel = f + 1 :=
      ⟨fuel - 1, by simp [sizeJs] at hsz; omega⟩
    obtain ⟨c, tl, hhead, hc1, hc2, hc3⟩ := stringifyArr_head x xs
    show parseVal (f + 1)
      (('[' :: (stringifyArr (x :: xs) ++ [']'])) ++ rest) = _
    rw [show ('[' :: (stringifyArr (x :: xs) ++ [']'])) ++ rest =
      '[' :: (stringifyArr (x :: xs) ++ ']' :: rest) from by simp]
    rw [parseVal_cons,
      if_neg (show ('[' : Char) ≠ 'n' from by decide),
      if_neg (show ('[' : Char) ≠ 't' from by decide),
      if_neg (show ('[' : Char) ≠ 'f' from by decide),
      if_neg (show ('[' : Char) ≠ '"' from by decide),
      if_pos rfl]
    rw [show stringifyArr (x :: xs) ++ ']' :: rest =
      c :: (tl ++ ']' :: rest) from by rw [hhead]; rfl]
    simp only [if_neg hc1]
    rw [show c :: (tl ++ ']' :: rest) =
      stringifyArr (x :: xs) ++ ']' :: rest from by rw [hhead]; rfl]
    rw [parse_stringify_arr (x :: xs) f rest
      (by simp [sizeJs] at hsz; omega) hsafe (by simp)]
  | vObj [] => by
    intro fuel rest hsz _ _
    obtain ⟨f, rfl⟩ : ∃ f, fuel = f + 1 :=
      ⟨fuel - 1, by simp [sizeJs] at hsz; omega⟩
    show parseVal (f + 1) ('{' :: '}' :: rest) = some (vObj [], rest)
    simp [parseVal]
  | vObj ((k, v) :: fs) => by
    intro fuel rest hsz hsafe _
    obtain ⟨f, rfl⟩ : ∃ f, fuel = f + 1 :=
      ⟨fuel - 1, by simp [sizeJs] at hsz; omega⟩
    obtain ⟨tl, hhead⟩ := stringifyObj_head k v fs
    show parseVal (f + 1)
      (('{' :: (stringifyObj ((k, v) :: fs) ++ ['}'])) ++ rest) = _
    rw [show ('{' :: (stringifyObj ((k, v) :: fs) ++ ['}'])) ++ rest =
      '{' :: (stringifyObj ((k, v) :: fs) ++ '}' :: rest) from by simp]
    rw [parseVal_cons,
      if_neg (show ('{' : Char) ≠ 'n' from by decide),
      if_neg (show ('{' : Char) ≠ 't' from by decide),
      if_neg (show ('{' : Char) ≠ 'f' from by decide),
      if_neg (show ('{' : Char) ≠ '"' from by decide),
      if_neg (show ('{' : Char) ≠ '[' from by decide),
      if_pos rfl]
    rw [show stringifyObj ((k, v) :: fs) ++ '}' :: rest =
      '"' :: (tl ++ '}' :: rest) from by rw [hhead]; rfl]
    simp only [if_neg (show ('"' : Char) ≠ '}' from by decide)]
    rw [show ('"' : Char) :: (tl ++ '}' :: rest) =
      stringifyObj ((k, v) :: fs) ++ '}' :: rest from by rw [hhead]; rfl]
    have hsafe2 : jsonSafeFields ((k, v) :: fs) = true := by
      simp only [jsonSafe, Bool.and_eq_true] at hsafe
      exact hsafe.2
    rw [parse_stringify_obj ((k, v) :: fs) f rest
      (by simp [sizeJs] at hsz; omega) hsafe2 (by simp)]

/-- The parser inverts the serializer on nonempty array element lists. -/
theorem parse_stringify_arr : ∀ (l : List JsVal) (fuel : Nat)
    (rest : List Char), sizeList l + 1 ≤ fuel → jsonSafeList l = true →
    l ≠ [] →
    parseArrElems fuel (stringifyArr l ++ ']' :: rest) = some (l, rest)
  | [] => fun _ _ _ _ hne => absurd rfl hne
  | x :: xs => by
    intro fuel rest hsz hsafe _
    obtain ⟨f, rfl⟩ : ∃ f, fuel = f + 1 := ⟨fuel - 1, by omega⟩
    have hsafe2 : jsonSafe x = true ∧ jsonSafeList xs = true := by
      simpa [jsonSafeList, Bool.and_eq_true] using hsafe
    have hszx : 1 ≤ sizeJs x := sizeJs_pos x
    cases xs with
    | nil =>
      show parseArrElems (f + 1) (stringifyVal x ++ ']' :: rest) = _
      rw [parseArrElems_succ,
        parse_stringify x f (']' :: rest)
          (by simp [sizeList] at hsz; omega) hsafe2.1
          (headNotDigit_cons _ _ (by decide))]
      simp
    | cons y ys =>
      show parseArrElems (f + 1)
        ((stringifyVal x ++ ',' :: stringifyArr (y :: ys)) ++ ']' :: rest) =
        _
      rw [show (stringifyVal x ++ ',' :: stringifyArr (y :: ys)) ++
        ']' :: rest =
        stringifyVal x ++ ',' :: (stringifyArr (y :: ys) ++ ']' :: rest)
        from by simp]
      rw [parseArrElems_succ,
        parse_stringify x f _
          (by simp [sizeList] at hsz ⊢; omega) hsafe2.1
          (headNotDigit_cons _ _ (by decide))]
      simp only [if_pos rfl]
      rw [parse_stringify_arr (y :: ys) f rest
        (by simp [sizeList] at hsz ⊢; omega) hsafe2.2 (by simp)]
      simp
  
/-- The parser inverts the serializer on nonempty field lists. -/
theorem parse_stringify_obj : ∀ (l : List (String × JsVal)) (fuel : Nat)
    (rest : List Char), sizeFields l + 1 ≤ fuel →
    jsonSafeFields l = true → l ≠ [] →
    parseObjFields fuel (stringifyObj l ++ '}' :: rest) = some (l, rest)
  | [] => fun _ _ _ _ hne => absurd rfl hne
  | (k, v) :: fs => by
    intro fuel rest hsz hsafe _
    obtain ⟨f, rfl⟩ : ∃ f, fuel = f + 1 := ⟨fuel - 1, by omega⟩
    have hsafe2 : jsonSafe v = true ∧ jsonSafeFields fs = true := by
      simpa [jsonSafeFields, Bool.and_eq_true] using hsafe
    have hv1 : 1 ≤ sizeJs v := sizeJs_pos v
    cases fs with
    | nil =>
      show parseObjFields (f + 1)
        ((quoteChars k ++ ':' :: stringifyVal v) ++ '}' :: rest) = _
      rw [show (quoteChars k ++ ':' :: stringifyVal v) ++ '}' :: rest =
        '"' :: (k.data.flatMap escapeChar ++
          '"' :: (':' :: (stringifyVal v ++ '}' :: rest))) from by
        rw [quoteChars]; simp]
      rw [parseObjFields_cons, if_pos rfl, parseStringBody_quote]
      simp only [if_pos rfl]
      rw [parse_stringify v f _
        (by simp [sizeFields] at hsz; omega) hsafe2.1
        (headNotDigit_cons _ _ (by decide))]
      simp [string_mk_data]
    | cons g gs =>
      show parseObjFields (f + 1)
        ((quoteChars k ++ ':' :: stringifyVal v ++
          ',' :: stringifyObj (g :: gs)) ++ '}' :: rest) = _
      rw [show (quoteChars k ++ ':' :: stringifyVal v ++
          ',' :: stringifyObj (g :: gs)) ++ '}' :: rest =
        '"' :: (k.data.flatMap escapeChar ++
          '"' :: (':' :: (stringifyVal v ++
            ',' :: (stringifyObj (g :: gs) ++ '}' :: rest)))) from by
        rw [quoteChars]; simp]
      rw [parseObjFields_cons, if_pos rfl, parseStringBody_quote]
      simp only [if_pos rfl]
      rw [parse_stringify v f _
        (by simp [sizeFields] at hsz ⊢; omega) hsafe2.1
        (headNotDigit_cons _ _ (by decide))]
      simp only [if_pos rfl]
      rw [parse_stringify_obj (g :: gs) f rest
        (by simp [sizeFields] at hsz ⊢; omega) hsafe2.2 (by simp)]
      simp [string_mk_data]

end

open JsVal

mutual

/-- The size bound the parser fuel needs is covered by the serialization
length. -/
theorem sizeJs_le_len : ∀ v : JsVal,
    sizeJs v ≤ (stringifyVal v).length + 1
  | vNull => by simp [sizeJs, stringifyVal]
  | vBool b => by cases b <;> simp [sizeJs, stringifyVal]
  | vNum f n => by simp [sizeJs]
  | vStr s => by simp [sizeJs]
  | vArr xs => by
    have h := sizeList_le_len xs
    show sizeList xs + 2 ≤ ('[' :: (stringifyArr xs ++ [']'])).length + 1
    simp only [List.length_cons, List.length_append, List.length_singleton]
    omega
  | vObj fs => by
    have h := sizeFields_le_len fs
    show sizeFields fs + 2 ≤ ('{' :: (stringifyObj fs ++ ['}'])).length + 1
    simp only [List.length_cons, List.length_append, List.length_singleton]
    omega

/-- List version of the size bound. -/
theorem sizeList_le_len : ∀ xs : List JsVal,
    sizeList xs ≤ (stringifyArr xs).length + 1
  | [] => by simp [sizeList, stringifyArr]
  | [x] => by
    have h := sizeJs_le_len x
    show sizeJs x + 0 ≤ (stringifyVal x).length + 1
    omega
  | x :: y :: ys => by
    have h1 := sizeJs_le_len x
    have h2 := sizeList_le_len (y :: ys)
    show sizeJs x + sizeList (y :: ys) ≤
      (stringifyVal x ++ ',' :: stringifyArr (y :: ys)).length + 1
    simp only [List.length_append, List.length_cons]
    omega

/-- Field-list version of the size bound. -/
theorem sizeFields_le_len : ∀ fs : List (String × JsVal),
    sizeFields fs ≤ (stringifyObj fs).length + 1
  | [] => by simp [sizeFields, stringifyObj]
  | [(k, v)] => by
    have h := sizeJs_le_len v
    show sizeJs v + 0 ≤ (quoteChars k ++ ':' :: stringifyVal v).length + 1
    simp only [List.length_append, List.length_cons]
    omega
  | (k, v) :: g :: gs => by
    have h1 := sizeJs_le_len v
    have h2 := sizeFields_le_len (g :: gs)
    simp only [sizeFields, stringifyObj, List.length_append,
      List.length_cons] at h2 ⊢
    omega

end

/-- `JSON.parse` inverts `JSON.stringify` on JSON-safe values. -/
theorem jsonParse_stringify (v : JsVal) (h : jsonSafe v = true) :
    jsonParse (String.mk (stringifyVal v)) = some v := by
  rw [jsonParse]
  have hp := parse_stringify v ((stringifyVal v).length + 1) []
    (le_trans (sizeJs_le_len v) (by omega)) h (fun c hc => by cases hc)
  rw [show stringifyVal v ++ ([] : List Char) = stringifyVal v from by simp]
    at hp
  rw [show (String.mk (stringifyVal v)).data = stringifyVal v from rfl, hp]

open JsVal

/-! ## Key-permutation invariance of `stableStringify` -/

theorem strLeB_total : ∀ a b : List Char,
    strLeB a b = true ∨ strLeB b a = true
  | [], _ => Or.inl rfl
  | _ :: _, [] => Or.inr rfl
  | c :: cs, d :: ds => by
    by_cases h1 : c.toNat < d.toNat
    · left
      rw [strLeB, if_pos h1]
    · by_cases h2 : d.toNat < c.toNat
      · right
        rw [strLeB, if_pos h2]
      · rcases strLeB_total cs ds with h | h
        · left
          rw [strLeB, if_neg h1, if_neg h2, h]
        · right
          rw [strLeB, if_neg h2, if_neg h1, h]

theorem strLeB_trans : ∀ a b c : List Char, strLeB a b = true →
    strLeB b c = true → strLeB a c = true
  | [], _, _ => fun _ _ => rfl
  | _ :: _, [], _ => fun h _ => by cases h
  | _ :: _, _ :: _, [] => fun _ h => by cases h
  | x :: xs, y :: ys, z :: zs => fun h1 h2 => by
    rw [strLeB] at h1 h2 ⊢
    by_cases hxy : x.toNat < y.toNat
    · by_cases hyz : y.toNat < z.toNat
      · rw [if_pos (by omega)]
      · by_cases hzy : z.toNat < y.toNat
        · rw [if_neg hyz, if_pos hzy] at h2
          cases h2
        · rw [if_pos (by omega)]
    · by_cases hyx : y.toNat < x.toNat
      · rw [if_neg hxy, if_pos hyx] at h1
        cases h1
      · rw [if_neg hxy, if_neg hyx] at h1
        by_cases hyz : y.toNat < z.toNat
        · rw [if_pos (by omega)]
        · by_cases hzy : z.toNat < y.toNat
          · rw [if_neg hyz, if_pos hzy] at h2
            cases h2
          · rw [if_neg hyz, if_neg hzy] at h2
            rw [if_neg (by omega), if_neg (by omega)]
            exact strLeB_trans xs ys zs h1 h2

theorem strLeB_antisymm : ∀ a b : List Char, strLeB a b = true →
    strLeB b a = true → a = b
  | [], [] => fun _ _ => rfl
  | [], _ :: _ => fun _ h => by cases h
  | _ :: _, [] => fun h _ => by cases h
  | c :: cs, d :: ds => fun h1 h2 => by
    rw [strLeB] at h1 h2
    by_cases hcd : c.toNat < d.toNat
    · rw [if_neg (by omega), if_pos hcd] at h2
      cases h2
    · by_cases hdc : d.toNat < c.toNat
      · rw [if_neg hcd, if_pos hdc] at h1
        cases h1
      · rw [if_neg hcd, if_neg hdc] at h1
        rw [if_neg hdc, if_neg hcd] at h2
        have hn : c.toNat = d.toNat := by omega
        have hc : c = d := Char.ext (UInt32.ext hn)
        rw [hc, strLeB_antisymm cs ds h1 h2]

/-- Strict key ordering, used to pin down sorted field lists. -/
def keyLT (a b : String × JsVal) : Prop := keyLE a b ∧ a.1 ≠ b.1

instance : IsTotal (String × JsVal) keyLE :=
  ⟨fun a b => strLeB_total a.1.data b.1.data⟩

instance : IsTrans (String × JsVal) keyLE :=
  ⟨fun a b c h1 h2 => strLeB_trans a.1.data b.1.data c.1.data h1 h2⟩

instance : IsAntisymm (String × JsVal) keyLT :=
  ⟨fun a b h1 h2 => by
    have hd := strLeB_antisymm a.1.data b.1.data h1.1 h2.1
    have hkey : a.1 = b.1 := by
      cases ha : a.1
      cases hb : b.1
      rw [ha, hb] at hd
      exact congrArg String.mk hd
    exact absurd hkey h1.2⟩

theorem sortKeysList_eq_map : ∀ xs : List JsVal,
    sortKeysList xs = xs.map sortKeysRec
  | [] => rfl
  | x :: xs => by rw [sortKeysList, sortKeysList_eq_map xs, List.map_cons]

theorem sortKeysFields_eq_map : ∀ fs : List (String × JsVal),
    sortKeysFields fs = fs.map (fun f => (f.1, sortKeysRec f.2))
  | [] => rfl
  | (k, v) :: fs => by
    rw [sortKeysFields, sortKeysFields_eq_map fs, List.map_cons]

theorem sortKeysFields_keys (fs : List (String × JsVal)) :
    (sortKeysFields fs).map Prod.fst = fs.map Prod.fst := by
  rw [sortKeysFields_eq_map, List.map_map]
  rfl

theorem jsonSafeFields_forall (fs : List (String × JsVal)) :
    jsonSafeFields fs = true ↔ ∀ f ∈ fs, jsonSafe f.2 = true := by
  induction fs with
  | nil => simp [jsonSafeFields]
  | cons f fs ih => simp [jsonSafeFields, Bool.and_eq_true, ih]

/-- Sorted-by-≤ with distinct keys is sorted strictly. -/
theorem sorted_keyLT_of_nodup (l : List (String × JsVal))
    (hs : l.Sorted keyLE) (hn : (l.map Prod.fst).Nodup) :
    l.Sorted keyLT := by
  have hne : l.Pairwise (fun a b => a.1 ≠ b.1) := by
    rw [List.Nodup, List.pairwise_map] at hn
    exact hn
  exact (hs.and hne).imp (fun h => ⟨h.1, h.2⟩)

/-- Insertion sort by key is invariant under permutation of a
distinct-key list. -/
theorem insertionSort_eq_of_perm (l1 l2 : List (String × JsVal))
    (hp : l1.Perm l2) (hn : (l1.map Prod.fst).Nodup) :
    List.insertionSort keyLE l1 = List.insertionSort keyLE l2 := by
  have hn1 : ((List.insertionSort keyLE l1).map Prod.fst).Nodup :=
    (((List.perm_insertionSort keyLE l1).map Prod.fst).nodup_iff).mpr hn
  have hn2 : ((List.insertionSort keyLE l2).map Prod.fst).Nodup :=
    (((List.perm_insertionSort keyLE l2).map Prod.fst).nodup_iff).mpr
      ((hp.map Prod.fst).nodup_iff.mp hn)
  exact List.eq_of_perm_of_sorted
    ((List.perm_insertionSort keyLE l1).trans
      (hp.trans (List.perm_insertionSort keyLE l2).symm))
    (sorted_keyLT_of_nodup _ (List.sorted_insertionSort keyLE l1) hn1)
    (sorted_keyLT_of_nodup _ (List.sorted_insertionSort keyLE l2) hn2)

open JsVal

mutual

/-- Two values are equal up to permutation of object keys at any nesting
depth (array order preserved). -/
inductive KeyPerm : JsVal → JsVal → Prop where
  | null : KeyPerm vNull vNull
  | bool (b : Bool) : KeyPerm (vBool b) (vBool b)
  | num (f : Bool) (n : Int) : KeyPerm (vNum f n) (vNum f n)
  | str (s : String) : KeyPerm (vStr s) (vStr s)
  | arr {xs ys : List JsVal} : KeyPermList xs ys →
      KeyPerm (vArr xs) (vArr ys)
  | obj {fs gs gs2 : List (String × JsVal)} : KeyPermFields fs gs →
      gs.Perm gs2 → KeyPerm (vObj fs) (vObj gs2)

/-- Pointwise `KeyPerm` on array elements (order preserved). -/
inductive KeyPermList : List JsVal → List JsVal → Prop where
  | nil : KeyPermList [] []
  | cons {x y : JsVal} {xs ys : List JsVal} : KeyPerm x y →
      KeyPermList xs ys → KeyPermList (x :: xs) (y :: ys)

/-- Pointwise `KeyPerm` on field values (same keys, same order). -/
inductive KeyPermFields :
    List (String × JsVal) → List (String × JsVal) → Prop where
  | nil : KeyPermFields [] []
  | cons {k : String} {v w : JsVal} {fs gs : List (String × JsVal)} :
      KeyPerm v w → KeyPermFields fs gs →
      KeyPermFields ((k, v) :: fs) ((k, w) :: gs)

end

mutual

/-- Canonicalization only permutes keys: `sortKeysRec` is `KeyPerm` to the
original. -/
theorem keyPerm_sortKeysRec : ∀ v : JsVal, KeyPerm v (sortKeysRec v)
  | vNull => KeyPerm.null
  | vBool b => KeyPerm.bool b
  | vNum f n => KeyPerm.num f n
  | vStr s => KeyPerm.str s
  | vArr xs => KeyPerm.arr (keyPermList_sort xs)
  | vObj fs =>
    KeyPerm.obj (keyPermFields_sort fs)
      (List.perm_insertionSort keyLE (sortKeysFields fs)).symm

/-- List version of `keyPerm_sortKeysRec`. -/
theorem keyPermList_sort : ∀ xs : List JsVal,
    KeyPermList xs (sortKeysList xs)
  | [] => KeyPermList.nil
  | x :: xs => KeyPermList.cons (keyPerm_sortKeysRec x) (keyPermList_sort xs)

/-- Field version of `keyPerm_sortKeysRec`. -/
theorem keyPermFields_sort : ∀ fs : List (String × JsVal),
    KeyPermFields fs (sortKeysFields fs)
  | [] => KeyPermFields.nil
  | (k, v) :: fs =>
    KeyPermFields.cons (keyPerm_sortKeysRec v) (keyPermFields_sort fs)

end

theorem keyPermFields_keys : ∀ {fs gs : List (String × JsVal)},
    KeyPermFields fs gs → fs.map Prod.fst = gs.map Prod.fst
  | _, _, KeyPermFields.nil => rfl
  | _, _, KeyPermFields.cons _ h => by
    rw [List.map_cons, List.map_cons, keyPermFields_keys h]

open JsVal

mutual

/-- Canonicalization preserves JSON-safety. -/
theorem jsonSafe_sort : ∀ v : JsVal, jsonSafe v = true →
    jsonSafe (sortKeysRec v) = true
  | vNull => fun h => h
  | vBool _ => fun h => h
  | vNum _ _ => fun h => h
  | vStr _ => fun h => h
  | vArr xs => fun h => jsonSafeList_sort xs h
  | vObj fs => fun h => by
    simp only [jsonSafe, Bool.and_eq_true, decide_eq_true_iff] at h
    show jsonSafe (vObj (List.insertionSort keyLE (sortKeysFields fs))) = true
    simp only [jsonSafe, Bool.and_eq_true, decide_eq_true_iff]
    have hperm : (sortKeysFields fs).Perm
        (List.insertionSort keyLE (sortKeysFields fs)) :=
      (List.perm_insertionSort keyLE (sortKeysFields fs)).symm
    constructor
    · exact (hperm.map Prod.fst).nodup_iff.mp
        (by rw [sortKeysFields_keys]; exact h.1)
    · rw [jsonSafeFields_forall]
      intro f hf
      have hf2 : f ∈ sortKeysFields fs := hperm.symm.subset hf
      exact (jsonSafeFields_forall _).mp (jsonSafeFields_sort fs h.2) f hf2

/-- List version of `jsonSafe_sort`. -/
theorem jsonSafeList_sort : ∀ xs : List JsVal, jsonSafeList xs = true →
    jsonSafeList (sortKeysList xs) = true
  | [] => fun h => h
  | x :: xs => fun h => by
    simp only [jsonSafeList, Bool.and_eq_true] at h ⊢
    exact ⟨jsonSafe_sort x h.1, jsonSafeList_sort xs h.2⟩

/-- Field version of `jsonSafe_sort`. -/
theorem jsonSafeFields_sort : ∀ fs : List (String × JsVal),
    jsonSafeFields fs = true → jsonSafeFields (sortKeysFields fs) = true
  | [] => fun h => h
  | (k, v) :: fs => fun h => by
    simp only [jsonSafeFields, Bool.and_eq_true] at h ⊢
    exact ⟨jsonSafe_sort v h.1, jsonSafeFields_sort fs h.2⟩

end

mutual

/-- On JSON-safe values, canonicalization is invariant under key
permutation. -/
theorem sort_eq_of_keyPerm : ∀ {x y : JsVal}, jsonSafe x = true →
    KeyPerm x y → sortKeysRec x = sortKeysRec y
  | _, _, _, KeyPerm.null => rfl
  | _, _, _, KeyPerm.bool _ => rfl
  | _, _, _, KeyPerm.num _ _ => rfl
  | _, _, _, KeyPerm.str _ => rfl
  | _, _, hs, KeyPerm.arr h => by
    show vArr (sortKeysList _) = vArr (sortKeysList _)
    rw [sortList_eq_of_keyPerm hs h]
  | _, _, hs, KeyPerm.obj hfg hperm => by
    rename_i fs gs gs2
    simp only [jsonSafe, Bool.and_eq_true, decide_eq_true_iff] at hs
    have h1 : sortKeysFields fs = sortKeysFields gs :=
      sortFields_eq_of_keyPerm hs.2 hfg
    have h2 : (sortKeysFields gs).Perm (sortKeysFields gs2) := by
      rw [sortKeysFields_eq_map, sortKeysFields_eq_map]
      exact hperm.map _
    have hnodup : ((sortKeysFields gs).map Prod.fst).Nodup := by
      rw [sortKeysFields_keys, ← keyPermFields_keys hfg]
      exact hs.1
    show vObj (List.insertionSort keyLE (sortKeysFields fs)) =
      vObj (List.insertionSort keyLE (sortKeysFields gs2))
    rw [h1, insertionSort_eq_of_perm _ _ h2 hnodup]

/-- List version of `sort_eq_of_keyPerm`. -/
theorem sortList_eq_of_keyPerm : ∀ {xs ys : List JsVal},
    jsonSafeList xs = true → KeyPermList xs ys →
    sortKeysList xs = sortKeysList ys
  | _, _, _, KeyPermList.nil => rfl
  | _, _, hs, KeyPermList.cons hxy h => by
    simp only [jsonSafeList, Bool.and_eq_true] at hs
    rw [sortKeysList, sortKeysList, sort_eq_of_keyPerm hs.1 hxy,
      sortList_eq_of_keyPerm hs.2 h]

/-- Field version of `sort_eq_of_keyPerm`. -/
theorem sortFields_eq_of_keyPerm : ∀ {fs gs : List (String × JsVal)},
    jsonSafeFields fs = true → KeyPermFields fs gs →
    sortKeysFields fs = sortKeysFields gs
  | _, _, _, KeyPermFields.nil => rfl
  | _, _, hs, KeyPermFields.cons hvw h => by
    simp only [jsonSafeFields, Bool.and_eq_true] at hs
    rw [sortKeysFields, sortKeysFields, sort_eq_of_keyPerm hs.1 hvw,
      sortFields_eq_of_keyPerm hs.2 h]

end

open JsVal

/-! ## Reference graphs: the `WeakSet` cycle check of `stableStringify` -/

/-- One heap node of a JavaScript value graph: primitives, or containers
holding references (heap addresses). -/
inductive GVal where
  | gNull : GVal
  | gBool : Bool → GVal
  | gNum : Bool → Int → GVal
  | gStr : String → GVal
  | gArr : List Nat → GVal
  | gObj : List (String × Nat) → GVal
deriving Repr, DecidableEq

open GVal

/-- The addresses a node refers to. -/
def childrenOf (heap : List GVal) (a : Nat) : List Nat :=
  match heap[a]? with
  | some (gArr elems) => elems
  | some (gObj fields) => fields.map Prod.snd
  | _ => []

/-- A node is an object or array (participates in the `WeakSet`). -/
def objLike (heap : List GVal) (a : Nat) : Prop :=
  match heap[a]? with
  | some (gArr _) => True
  | some (gObj _) => True
  | _ => False

/-- Reference reachability. -/
inductive Reaches (heap : List GVal) : Nat → Nat → Prop where
  | refl (a : Nat) : Reaches heap a a
  | step {a b c : Nat} : b ∈ childrenOf heap a → Reaches heap b c →
      Reaches heap a c

/-- Key order on reference fields. -/
def keyLEG (a b : String × Nat) : Prop := strLeB a.1.data b.1.data = true

instance : DecidableRel keyLEG := fun a b =>
  inferInstanceAs (Decidable (strLeB a.1.data b.1.data = true))

mutual

/-- The `sorter` closure of `stableStringify` on a value graph: the
`WeakSet` is the `seen` list, checked and extended at every object or
array and never shrunk.  Fuel only bounds recursion depth; `heapFuel`
supplies enough for the traversals considered here. -/
def sorterG (heap : List GVal) : Nat → List Nat → Nat →
    Except String (JsVal × List Nat)
  | 0, _, _ => .error "out of fuel"
  | fuel + 1, seen, addr =>
    match heap[addr]? with
    | none => .error "dangling reference"
    | some gNull => .ok (vNull, seen)
    | some (gBool b) => .ok (vBool b, seen)
    | some (gNum f n) => .ok (vNum f n, seen)
    | some (gStr s) => .ok (vStr s, seen)
    | some (gArr elems) =>
      if addr ∈ seen then .error "Cyclic object in stableStringify"
      else
        match sorterGList heap fuel (addr :: seen) elems with
        | .ok p => .ok (vArr p.1, p.2)
        | .error e => .error e
    | some (gObj fields) =>
      if addr ∈ seen then .error "Cyclic object in stableStringify"
      else
        match sorterGFields heap fuel (addr :: seen)
            (List.insertionSort keyLEG fields) with
        | .ok p => .ok (vObj p.1, p.2)
        | .error e => .error e

/-- `sorter` over array element references, threading the seen set. -/
def sorterGList (heap : List GVal) : Nat → List Nat → List Nat →
    Except String (List JsVal × List Nat)
  | 0, _, _ => .error "out of fuel"
  | _ + 1, seen, [] => .ok ([], seen)
  | fuel + 1, seen, a :: as =>
    match sorterG heap fuel seen a with
    | .error e => .error e
    | .ok (v, seen2) =>
      match sorterGList heap fuel seen2 as with
      | .error e => .error e
      | .ok p => .ok (v :: p.1, p.2)

/-- `sorter` over sorted object fields, threading the seen set. -/
def sorterGFields (heap : List GVal) : Nat → List Nat →
    List (String × Nat) → Except String (List (String × JsVal) × List Nat)
  | 0, _, _ => .error "out of fuel"
  | _ + 1, seen, [] => .ok ([], seen)
  | fuel + 1, seen, (k, a) :: fs =>
    match sorterG heap fuel seen a with
    | .error e => .error e
    | .ok (v, seen2) =>
      match sorterGFields heap fuel seen2 fs with
      | .error e => .error e
      | .ok p => .ok ((k, v) :: p.1, p.2)

end

/-- Ample fuel for one traversal of the heap. -/
def heapFuel (heap : List GVal) : Nat :=
  (heap.map (fun g => match g with
    | gArr l => l.length + 1
    | gObj fs => fs.length + 1
    | _ => 1)).sum + heap.length + 1

/-- Embeds `stableStringify` on a value graph:
`JSON.stringify(sorter(obj))` with the `WeakSet` cycle check. -/
def stableStringifyG (heap : List GVal) (root : Nat) :
    Except String String :=
  match sorterG heap (heapFuel heap) [] root with
  | .ok p => .ok (String.mk (stringifyVal p.1))
  | .error e => .error e

open JsVal GVal

/-- Manual unfolding of `sorterG` at positive fuel. -/
theorem sorterG_succ (heap : List GVal) (f : Nat) (seen : List Nat)
    (addr : Nat) :
    sorterG heap (f + 1) seen addr =
      (match heap[addr]? with
      | none => .error "dangling reference"
      | some gNull => .ok (vNull, seen)
      | some (gBool b) => .ok (vBool b, seen)
      | some (gNum fin n) => .ok (vNum fin n, seen)
      | some (gStr s) => .ok (vStr s, seen)
      | some (gArr elems) =>
        if addr ∈ seen then .error "Cyclic object in stableStringify"
        else
          match sorterGList heap f (addr :: seen) elems with
          | .ok p => .ok (vArr p.1, p.2)
          | .error e => .error e
      | some (gObj fields) =>
        if addr ∈ seen then .error "Cyclic object in stableStringify"
        else
          match sorterGFields heap f (addr :: seen)
              (List.insertionSort keyLEG fields) with
          | .ok p => .ok (vObj p.1, p.2)
          | .error e => .error e) := rfl

/-- Manual unfolding of `sorterGList` at a cons cell. -/
theorem sorterGList_cons (heap : List GVal) (f : Nat) (seen : List Nat)
    (a : Nat) (as : List Nat) :
    sorterGList heap (f + 1) seen (a :: as) =
      (match sorterG heap f seen a with
      | .error e => .error e
      | .ok (v, seen2) =>
        match sorterGList heap f seen2 as with
        | .error e => .error e
        | .ok p => .ok (v :: p.1, p.2)) := rfl

/-- Manual unfolding of `sorterGFields` at a cons cell. -/
theorem sorterGFields_cons (heap : List GVal) (f : Nat) (seen : List Nat)
    (k : String) (a : Nat) (fs : List (String × Nat)) :
    sorterGFields heap (f + 1) seen ((k, a) :: fs) =
      (match sorterG heap f seen a with
      | .error e => .error e
      | .ok (v, seen2) =>
        match sorterGFields heap f seen2 fs with
        | .error e => .error e
        | .ok p => .ok ((k, v) :: p.1, p.2)) := rfl

open JsVal GVal

/-- The master invariant of `sorter` runs: success grows the seen set,
leaves no reachable object in the starting seen set (the `WeakSet` is
never shrunk), and certifies the reachable region cycle-free. -/
theorem sorterG_invariant (heap : List GVal) : ∀ fuel : Nat,
    (∀ seen addr v s', sorterG heap fuel seen addr = .ok (v, s') →
      (∀ x, x ∈ seen → x ∈ s') ∧
      (∀ x, Reaches heap addr x → objLike heap x → x ∉ seen) ∧
      (∀ x, Reaches heap addr x →
        ¬ ∃ c ∈ childrenOf heap x, Reaches heap c x)) ∧
    (∀ seen addrs vs s', sorterGList heap fuel seen addrs = .ok (vs, s') →
      (∀ x, x ∈ seen → x ∈ s') ∧
      (∀ x, (∃ a ∈ addrs, Reaches heap a x) → objLike heap x →
        x ∉ seen) ∧
      (∀ x, (∃ a ∈ addrs, Reaches heap a x) →
        ¬ ∃ c ∈ childrenOf heap x, Reaches heap c x)) ∧
    (∀ seen fs gs s', sorterGFields heap fuel seen fs = .ok (gs, s') →
      (∀ x, x ∈ seen → x ∈ s') ∧
      (∀ x, (∃ f ∈ fs, Reaches heap f.2 x) → objLike heap x →
        x ∉ seen) ∧
      (∀ x, (∃ f ∈ fs, Reaches heap f.2 x) →
        ¬ ∃ c ∈ childrenOf heap x, Reaches heap c x)) := by
  intro fuel
  induction fuel with
  | zero =>
    refine ⟨fun seen addr v s' h => ?_, fun seen addrs vs s' h => ?_,
      fun seen fs gs s' h => ?_⟩ <;> cases h
  | succ f ih =>
    obtain ⟨ihV, ihL, ihF⟩ := ih
    refine ⟨?_, ?_, ?_⟩
    · intro seen addr v s' h
      rw [sorterG_succ] at h
      cases hga : heap[addr]? with
      | none => rw [hga] at h; cases h
      | some g =>
        rw [hga] at h
        cases g with
        | gNull =>
          simp only [Except.ok.injEq, Prod.mk.injEq] at h
          obtain ⟨-, rfl⟩ := h
          refine ⟨fun x hx => hx, ?_, ?_⟩
          · intro x hx hobjx
            cases hx with
            | refl => simp [objLike, hga] at hobjx
            | step hb _ => simp [childrenOf, hga] at hb
          · rintro x hx ⟨c, hc, -⟩
            cases hx with
            | refl => simp [childrenOf, hga] at hc
            | step hb _ => simp [childrenOf, hga] at hb
        | gBool b =>
          simp only [Except.ok.injEq, Prod.mk.injEq] at h
          obtain ⟨-, rfl⟩ := h
          refine ⟨fun x hx => hx, ?_, ?_⟩
          · intro x hx hobjx
            cases hx with
            | refl => simp [objLike, hga] at hobjx
            | step hb _ => simp [childrenOf, hga] at hb
          · rintro x hx ⟨c, hc, -⟩
            cases hx with
            | refl => simp [childrenOf, hga] at hc
            | step hb _ => simp [childrenOf, hga] at hb
        | gNum fin n =>
          simp only [Except.ok.injEq, Prod.mk.injEq] at h
          obtain ⟨-, rfl⟩ := h
          refine ⟨fun x hx => hx, ?_, ?_⟩
          · intro x hx hobjx
            cases hx with
            | refl => simp [objLike, hga] at hobjx
            | step hb _ => simp [childrenOf, hga] at hb
          · rintro x hx ⟨c, hc, -⟩
            cases hx with
            | refl => simp [childrenOf, hga] at hc
            | step hb _ => simp [childrenOf, hga] at hb
        | gStr s =>
          simp only [Except.ok.injEq, Prod.mk.injEq] at h
          obtain ⟨-, rfl⟩ := h
          refine ⟨fun x hx => hx, ?_, ?_⟩
          · intro x hx hobjx
            cases hx with
            | refl => simp [objLike, hga] at hobjx
            | step hb _ => simp [childrenOf, hga] at hb
          · rintro x hx ⟨c, hc, -⟩
            cases hx with
            | refl => simp [childrenOf, hga] at hc
            | step hb _ => simp [childrenOf, hga] at hb
        | gArr elems =>
          replace h := show (if addr ∈ seen then
              (Except.error "Cyclic object in stableStringify" :
                Except String (JsVal × List Nat))
            else
              match sorterGList heap f (addr :: seen) elems with
              | .ok p => .ok (vArr p.1, p.2)
              | .error e => .error e) = .ok (v, s') from h
          have hch : childrenOf heap addr = elems := by
            simp [childrenOf, hga]
          by_cases hmem : addr ∈ seen
          · rw [if_pos hmem] at h; cases h
          · rw [if_neg hmem] at h
            cases hlist : sorterGList heap f (addr :: seen) elems with
            | error e => rw [hlist] at h; cases h
            | ok p =>
              rw [hlist] at h
              simp only [Except.ok.injEq, Prod.mk.injEq] at h
              obtain ⟨-, rfl⟩ := h
              have hl := ihL (addr :: seen) elems p.1 p.2 (by rw [hlist])
              refine ⟨fun x hx => hl.1 x (List.mem_cons_of_mem _ hx),
                ?_, ?_⟩
              · intro x hx hobjx
                cases hx with
                | refl => exact hmem
                | step hb hr =>
                  rw [hch] at hb
                  have hnot := hl.2.1 x ⟨_, hb, hr⟩ hobjx
                  intro hxs
                  exact hnot (List.mem_cons_of_mem _ hxs)
              · intro x hx
                cases hx with
                | refl =>
                  rintro ⟨c, hc, hcr⟩
                  rw [hch] at hc
                  exact hl.2.1 addr ⟨c, hc, hcr⟩ (by simp [objLike, hga])
                    (List.mem_cons_self _ _)
                | step hb hr =>
                  rw [hch] at hb
                  exact hl.2.2 x ⟨_, hb, hr⟩
        | gObj fields =>
          replace h := show (if addr ∈ seen then
              (Except.error "Cyclic object in stableStringify" :
                Except String (JsVal × List Nat))
            else
              match sorterGFields heap f (addr :: seen)
                  (List.insertionSort keyLEG fields) with
              | .ok p => .ok (vObj p.1, p.2)
              | .error e => .error e) = .ok (v, s') from h
          have hch : childrenOf heap addr = fields.map Prod.snd := by
            simp [childrenOf, hga]
          by_cases hmem : addr ∈ seen
          · rw [if_pos hmem] at h; cases h
          · rw [if_neg hmem] at h
            cases hlist : sorterGFields heap f (addr :: seen)
                (List.insertionSort keyLEG fields) with
            | error e => rw [hlist] at h; cases h
            | ok p =>
              rw [hlist] at h
              simp only [Except.ok.injEq, Prod.mk.injEq] at h
              obtain ⟨-, rfl⟩ := h
              have hl := ihF (addr :: seen)
                (List.insertionSort keyLEG fields) p.1 p.2 (by rw [hlist])
              have hmemsort : ∀ b, b ∈ fields.map Prod.snd →
                  ∃ g ∈ List.insertionSort keyLEG fields, g.2 = b := by
                intro b hb
                obtain ⟨g, hg, hgb⟩ := List.mem_map.mp hb
                exact ⟨g,
                  (List.perm_insertionSort keyLEG fields).symm.subset hg,
                  hgb⟩
              refine ⟨fun x hx => hl.1 x (List.mem_cons_of_mem _ hx),
                ?_, ?_⟩
              · intro x hx hobjx
                cases hx with
                | refl => exact hmem
                | step hb hr =>
                  rw [hch] at hb
                  obtain ⟨g, hg, hgb⟩ := hmemsort _ hb
                  have hnot := hl.2.1 x ⟨g, hg, hgb ▸ hr⟩ hobjx
                  intro hxs
                  exact hnot (List.mem_cons_of_mem _ hxs)
              · intro x hx
                cases hx with
                | refl =>
                  rintro ⟨c, hc, hcr⟩
                  rw [hch] at hc
                  obtain ⟨g, hg, hgb⟩ := hmemsort _ hc
                  exact hl.2.1 addr ⟨g, hg, hgb ▸ hcr⟩
                    (by simp [objLike, hga]) (List.mem_cons_self _ _)
                | step hb hr =>
                  rw [hch] at hb
                  obtain ⟨g, hg, hgb⟩ := hmemsort _ hb
                  exact hl.2.2 x ⟨g, hg, hgb ▸ hr⟩
    · intro seen addrs vs s' h
      cases addrs with
      | nil =>
        replace h := show (Except.ok ([], seen) :
          Except String (List JsVal × List Nat)) = .ok (vs, s') from h
        simp only [Except.ok.injEq, Prod.mk.injEq] at h
        obtain ⟨-, rfl⟩ := h
        refine ⟨fun x hx => hx, ?_, ?_⟩
        · rintro x ⟨a, ha, -⟩
          cases ha
        · rintro x ⟨a, ha, -⟩
          cases ha
      | cons a as =>
        rw [sorterGList_cons] at h
        cases hV : sorterG heap f seen a with
        | error e => rw [hV] at h; cases h
        | ok q =>
          obtain ⟨v0, seen2⟩ := q
          rw [hV] at h
          replace h := show (match sorterGList heap f seen2 as with
            | .error e => (.error e : Except String (List JsVal × List Nat))
            | .ok p => .ok (v0 :: p.1, p.2)) = .ok (vs, s') from h
          cases hrest : sorterGList heap f seen2 as with
          | error e => rw [hrest] at h; cases h
          | ok p =>
            rw [hrest] at h
            simp only [Except.ok.injEq, Prod.mk.injEq] at h
            obtain ⟨-, rfl⟩ := h
            have hq := ihV seen a v0 seen2 hV
            have hr := ihL seen2 as p.1 p.2 (by rw [hrest])
            refine ⟨fun x hx => hr.1 x (hq.1 x hx), ?_, ?_⟩
            · rintro x ⟨a2, ha2, hreach⟩ hobjx
              rcases List.mem_cons.mp ha2 with rfl | ha2t
              · exact hq.2.1 x hreach hobjx
              · intro hxs
                exact hr.2.1 x ⟨a2, ha2t, hreach⟩ hobjx (hq.1 x hxs)
            · rintro x ⟨a2, ha2, hreach⟩
              rcases List.mem_cons.mp ha2 with rfl | ha2t
              · exact hq.2.2 x hreach
              · exact hr.2.2 x ⟨a2, ha2t, hreach⟩
    · intro seen fs gs s' h
      cases fs with
      | nil =>
        replace h := show (Except.ok ([], seen) :
          Except String (List (String × JsVal) × List Nat)) =
          .ok (gs, s') from h
        simp only [Except.ok.injEq, Prod.mk.injEq] at h
        obtain ⟨-, rfl⟩ := h
        refine ⟨fun x hx => hx, ?_, ?_⟩
        · rintro x ⟨g, hg, -⟩
          cases hg
        · rintro x ⟨g, hg, -⟩
          cases hg
      | cons ka kas =>
        obtain ⟨k, a⟩ := ka
        rw [sorterGFields_cons] at h
        cases hV : sorterG heap f seen a with
        | error e => rw [hV] at h; cases h
        | ok q =>
          obtain ⟨v0, seen2⟩ := q
          rw [hV] at h
          replace h := show (match sorterGFields heap f seen2 kas with
            | .error e =>
              (.error e : Except String (List (String × JsVal) × List Nat))
            | .ok p => .ok ((k, v0) :: p.1, p.2)) = .ok (gs, s') from h
          cases hrest : sorterGFields heap f seen2 kas with
          | error e => rw [hrest] at h; cases h
          | ok p =>
            rw [hrest] at h
            simp only [Except.ok.injEq, Prod.mk.injEq] at h
            obtain ⟨-, rfl⟩ := h
            have hq := ihV seen a v0 seen2 hV
            have hr := ihF seen2 kas p.1 p.2 (by rw [hrest])
            refine ⟨fun x hx => hr.1 x (hq.1 x hx), ?_, ?_⟩
            · rintro x ⟨g, hg, hreach⟩ hobjx
              rcases List.mem_cons.mp hg with rfl | hgt
              · exact hq.2.1 x hreach hobjx
              · intro hxs
                exact hr.2.1 x ⟨g, hgt, hreach⟩ hobjx (hq.1 x hxs)
            · rintro x ⟨g, hg, hreach⟩
              rcases List.mem_cons.mp hg with rfl | hgt
              · exact hq.2.2 x hreach
              · exact hr.2.2 x ⟨g, hgt, hreach⟩

open JsVal GVal

/-- An acyclic two-node heap in which both fields of the root alias the
same empty object (a shared diamond, no cycle). -/
def c8heap : List GVal := [gObj [("a", 1), ("b", 1)], gObj []]

/-- **C8, counterexample.**  `stableStringify` throws its cycle error on
an acyclic value: the `WeakSet` is never pruned, so the second reference
to a shared (diamond) object is treated as a revisit.  "JSON-safe =
acyclic and JSON-representable" is therefore not sufficient for the
roundtrip — the value must be reference-free (a tree). -/
theorem C8_counterexample :
    stableStringifyG c8heap 0 = .error "Cyclic object in stableStringify" ∧
    (∀ x, Reaches c8heap 0 x →
      ¬ ∃ c ∈ childrenOf c8heap x, Reaches c8heap c x) := by
  constructor
  · rfl
  · have hch0 : childrenOf c8heap 0 = [1, 1] := rfl
    have hch1 : childrenOf c8heap 1 = [] := rfl
    have hr1 : ∀ x, Reaches c8heap 1 x → x = 1 := by
      intro x hx
      cases hx with
      | refl => rfl
      | step hb _ => rw [hch1] at hb; cases hb
    intro x hx
    have hx01 : x = 0 ∨ x = 1 := by
      cases hx with
      | refl => exact Or.inl rfl
      | step hb hr =>
        rw [hch0] at hb
        rename_i b
        have hb1 : b = 1 := by simpa using hb
        subst hb1
        exact Or.inr (hr1 x hr)
    rcases hx01 with rfl | rfl
    · rintro ⟨c, hc, hcr⟩
      rw [hch0] at hc
      have hc1 : c = 1 := by simpa using hc
      subst hc1
      exact absurd (hr1 0 hcr) (by decide)
    · rintro ⟨c, hc, -⟩
      rw [hch1] at hc
      cases hc

/-- **C8** (amended).  On JSON-safe tree values `x` (finite numbers,
distinct keys, no shared references): `JSON.parse(stableStringify(x))`
returns the canonical key-sorted copy of `x`, which equals `x` up to key
permutation; `stableStringify` is invariant under key permutation at any
depth; canonicalization preserves array element order; and on value
graphs every successful `sorter` run certifies the reachable region
cycle-free — any cycle reachable from the root forces an error. -/
theorem C8_stable_stringify (x y : JsVal) (hx : jsonSafe x = true)
    (hxy : KeyPerm x y) :
    jsonParse (stableStringify x) = some (sortKeysRec x) ∧
    KeyPerm x (sortKeysRec x) ∧
    stableStringify x = stableStringify y ∧
    (∀ xs : List JsVal, sortKeysRec (vArr xs) = vArr (xs.map sortKeysRec)) ∧
    (∀ heap fuel root v s', sorterG heap fuel [] root = .ok (v, s') →
      ∀ a, Reaches heap root a →
        ¬ ∃ c ∈ childrenOf heap a, Reaches heap c a) := by
  refine ⟨?_, keyPerm_sortKeysRec x, ?_, ?_, ?_⟩
  · exact jsonParse_stringify (sortKeysRec x) (jsonSafe_sort x hx)
  · rw [stableStringify, stableStringify, stableStringifyL,
      stableStringifyL, sort_eq_of_keyPerm hx hxy]
  · intro xs
    rw [show sortKeysRec (vArr xs) = vArr (sortKeysList xs) from rfl,
      sortKeysList_eq_map]
  · intro heap fuel root v s' h a ha
    exact ((sorterG_invariant heap fuel).1 [] root v s' h).2.2 a ha

/-- A two-field object and its key-permuted variant. -/
def c8x : JsVal := vObj [("b", vNum true 1), ("a", vNull)]

/-- The permuted counterpart of `c8x`. -/
def c8y : JsVal := vObj [("a", vNull), ("b", vNum true 1)]

/-- **C8, witness.**  The amended theorem at a concrete object and its key
permutation. -/
theorem C8_stable_stringify_witness :
    jsonParse (stableStringify c8x) = some (sortKeysRec c8x) ∧
    KeyPerm c8x (sortKeysRec c8x) ∧
    stableStringify c8x = stableStringify c8y ∧
    (∀ xs : List JsVal, sortKeysRec (vArr xs) = vArr (xs.map sortKeysRec)) ∧
    (∀ heap fuel root v s', sorterG heap fuel [] root = .ok (v, s') →
      ∀ a, Reaches heap root a →
        ¬ ∃ c ∈ childrenOf heap a, Reaches heap c a) :=
  C8_stable_stringify c8x c8y rfl
    (KeyPerm.obj
      (KeyPermFields.cons (KeyPerm.num true 1)
        (KeyPermFields.cons KeyPerm.null KeyPermFields.nil))
      (List.Perm.swap ("a", vNull) ("b", vNum true 1) []))

end Confucius
